import Mathlib

/-!
A verification model of conditioner v0.8.5 (`src/conditioner/Conditioner.js`)

This file gives a shallow embedding, in Lean 4, of the core of the
conditioner library: the expression parser and AST
(`ExpressionFormatter.fromString`, `UnaryExpression`, `BinaryExpression`),
the `ConditionsManager`, the `ModuleController` lifecycle
(`load`/`unload`/`execute`), the `Node` arbitration state machine, and
`Utils.mergeObjects`.  Each definition is translated directly from the
JavaScript source; the section comments cite the corresponding functions.

Modelling conventions:
* JavaScript values that may be `null`/`undefined` are modelled with
  `Option`; code that throws is modelled with `Except String`.
* The single-threaded event cascade (Observer.publish runs subscribers
  synchronously) is modelled by direct function calls, in source order.
* Module resolution (`require`) is modelled as immediate: `load()` runs
  its `_onLoad` continuation synchronously, which matches the behaviour
  once the module factory is cached (`this._Module` set).
-/

namespace Conditioner

/-! ## ModuleController.execute / Node.execute (Conditioner.js 1515-1537, 1924-1936)

A live module instance is modelled by its method table: a map from
method names to functions from a parameter list to a return value.
`execute` returns `Except` because invoking a missing method throws. -/

/-- The result object `{status, response}` built by `execute`. -/
structure ExecResult (α : Type) where
  status : Nat
  response : Option α
  deriving Repr, DecidableEq

/-- A live module instance, reduced to what `execute` consults: its
own properties of the given method names (`this._moduleInstance[method]`).
`none` models an absent property. -/
structure ModuleInstance (α : Type) where
  methods : String → Option (List α → α)

/-- `ModuleController.prototype.execute` (Conditioner.js 1515-1537):
if `_moduleInstance` is null, return `{status:404, response:null}`;
if the property `method` is missing (`!F`), throw; otherwise apply it. -/
def mcExecute {α : Type} (moduleInstance : Option (ModuleInstance α))
    (method : String) (params : List α) : Except String (ExecResult α) :=
  match moduleInstance with
  | none => .ok ⟨404, none⟩
  | some inst =>
    match inst.methods method with
    | none => .error "ModuleController.execute(method,params): function specified in \"method\" not found on module."
    | some F => .ok ⟨200, some (F params)⟩

/-- `Node.prototype.execute` (Conditioner.js 1924-1936): delegate to the
active module controller when one is set, else return the 404 sentinel.
The active controller is carried as its `_moduleInstance` field, the only
part `execute` consults. -/
def nodeExecute {α : Type} (activeModuleController : Option (Option (ModuleInstance α)))
    (method : String) (params : List α) : Except String (ExecResult α) :=
  match activeModuleController with
  | some mc => mcExecute mc method params
  | none => .ok ⟨404, none⟩

/-! ## UnaryExpression (Conditioner.js 470-515)

`UnaryExpression` built from a `{path, value}` descriptor stores the
descriptor in `_config` and leaves `_expression = null`; `assignTester`
replaces `_expression` with a live `Tester`.  For claim C4 only the leaf
case matters, so `_expression` here is `Option TestObj` where a `TestObj`
is any object a caller might have bound; its `succeeds` property is
`Option Bool` (`none` models an object with no `succeeds` member, `some r`
an object whose `succeeds()` returns `r`). -/

/-- An object bound into a leaf via `assignTester`, reduced to its
`succeeds` capability: `none` if the object exposes no `succeeds`
property, `some r` if calling `succeeds()` yields `r`. -/
structure TestObj where
  succeedsFn : Option Bool
  deriving Repr, DecidableEq

/-- A leaf `UnaryExpression` (one built from an unresolved
`{path, value}` config, Conditioner.js 470-478): `_expression` starts
as `null` and `assignTester` (486-490) overwrites it. -/
structure LeafExpr where
  expression : Option TestObj
  path : String
  value : String
  negate : Bool
  deriving Repr, DecidableEq

/-- `UnaryExpression` constructor on a `{path, value}` descriptor
(Conditioner.js 470-478): the descriptor is not a Binary/Unary expression,
so `_expression := null` and `_config` keeps the descriptor. -/
def mkLeafExpr (path value : String) (negate : Bool) : LeafExpr :=
  ⟨none, path, value, negate⟩

/-- `UnaryExpression.prototype.assignTester` (Conditioner.js 486-490). -/
def LeafExpr.assignTester (e : LeafExpr) (t : TestObj) : LeafExpr :=
  { e with expression := some t }

/-- `UnaryExpression.prototype.succeeds` (Conditioner.js 503-511).
The guard reads `this._expression.succeeds`; when `_expression` is still
`null` (no tester assigned) that property access itself throws a
`TypeError`, modelled as `.error`.  When a bound object lacks `succeeds`
the guard returns `false`; otherwise the result is
`succeeds() !== negate`. -/
def LeafExpr.succeeds (e : LeafExpr) : Except String Bool :=
  match e.expression with
  | none => .error "TypeError: Cannot read property succeeds of null"
  | some t =>
    match t.succeedsFn with
    | none => .ok false
    | some r => .ok (r != e.negate)

/-! ## ModuleController.unload (Conditioner.js 1480-1505) -/

/-- What `unload` consults on a live instance: whether the instance has
its own `unload` teardown hook (`this._moduleInstance.unload`). -/
structure InstObj where
  hasUnloadHook : Bool
  deriving Repr, DecidableEq

/-- The slice of `ModuleController` state that `unload` touches. -/
structure MCUnloadState where
  available : Bool
  moduleInstance : Option InstObj
  /-- Whether `Observer`'s `_eventPropagationTarget` link from the
  instance to the controller is in place. -/
  propagationWired : Bool
  deriving Repr, DecidableEq

/-- The outcome of `ModuleController.prototype.unload`
(Conditioner.js 1480-1505): the new state, the returned boolean, whether
the single `Observer.publish(this,'unload',this)` ran, and whether the
instance's own teardown hook was invoked. -/
structure UnloadOutcome where
  st : MCUnloadState
  returned : Bool
  publishedUnload : Bool
  hookInvoked : Bool
  deriving Repr, DecidableEq

/-- `ModuleController.prototype.unload` (Conditioner.js 1480-1505),
in source order: set `_available := false`; if no instance return
`false`; else remove the propagation target, call the instance's
`unload` hook if present, null the instance, publish `unload` once,
return `true`. -/
def mcUnload (m : MCUnloadState) : UnloadOutcome :=
  let m1 : MCUnloadState := { m with available := false }
  match m1.moduleInstance with
  | none => ⟨m1, false, false, false⟩
  | some inst =>
    ⟨{ m1 with moduleInstance := none, propagationWired := false },
      true, true, inst.hasUnloadHook⟩

/-- `ModuleController.prototype.isActive` (Conditioner.js 1307-1309). -/
def mcIsActiveU (m : MCUnloadState) : Bool :=
  m.moduleInstance.isSome

/-! ## ExpressionFormatter.getExpressionsCount (Conditioner.js 583-585)

`expression.match(/(\:\{)/g)` returns `null` when the string contains no
occurrence of the two characters `:{`, and reading `.length` off `null`
throws a `TypeError`; otherwise it returns the array of matches, whose
length is the number of (non-overlapping) occurrences. -/

/-- Number of occurrences of the two-character sequence `:{` in a list
of characters (what `/(\:\{)/g` matches). -/
def countLeafOpens : List Char → Nat
  | [] => 0
  | [_] => 0
  | a :: b :: rest =>
    if a = ':' ∧ b = '{' then countLeafOpens rest + 1
    else countLeafOpens (b :: rest)

/-- `ExpressionFormatter.getExpressionsCount` (Conditioner.js 583-585):
throws when `match` returns `null` (zero occurrences of `:{`). -/
def getExpressionsCount (expression : String) : Except String Nat :=
  let n := countLeafOpens expression.data
  if n = 0 then .error "TypeError: Cannot read property length of null"
  else .ok n

/-! ## The expression tree (Conditioner.js 441-568)

`ExpressionFormatter.fromString` manipulates plain JS arrays whose
elements are operator strings (`'and'`, `'or'`, `'not'`), expression
objects (`UnaryExpression` / `BinaryExpression`), or nested arrays
(open group frames).  `Tok` is that element type.  A `UnaryExpression`
holds either another expression (`uwrap`), a `{path, value}` leaf
config (`uleaf`), or — when the parser hands the constructor something
that is neither (possible on malformed input) — an arbitrary other
value as `_config` (`ujunk`).  `BinaryExpression` stores its two
operands as whatever array elements the reduction spliced in, hence
`Tok` fields. -/

mutual
/-- `UnaryExpression` / `BinaryExpression` objects
(Conditioner.js 470-568). -/
inductive JExpr where
  | uleaf (path value : String) (negate : Bool)
  | uwrap (inner : JExpr) (negate : Bool)
  | ujunk (negate : Bool)
  | binary (a : Tok) (o : String) (b : Tok)

/-- An element of one of the parser's working arrays: an operator
string, an expression object, a nested array (an open group frame), or
JS `undefined` (read past the end of an array on malformed input). -/
inductive Tok where
  | op (s : String)
  | expr (e : JExpr)
  | arr (ts : List Tok)
  | undef
end

deriving instance Repr for JExpr
deriving instance Repr for Tok

/-- Evaluation of a tree whose leaves have been resolved: the
environment `f path value` is the current boolean result of the
`Tester` bound into the leaf `path:{value}` (so `Tester.succeeds()`
returns `f path value`).  This is `succeeds()`
(Conditioner.js 503-511 and 540-550): a leaf returns
`tester.succeeds() !== negate`; a wrapping `UnaryExpression` returns
`inner.succeeds() !== negate`; `BinaryExpression` returns `&&` for the
`'and'` operator and `||` for anything else.  Calling `succeeds()`
through a `null` `_expression`, an operator string or a nested array
throws in JS, modelled as `.error`. -/
def JExpr.succeedsWith (f : String → String → Bool) : JExpr → Except String Bool
  | .uleaf p v n => .ok (f p v != n)
  | .uwrap e n => do
    let r ← e.succeedsWith f
    return (r != n)
  | .ujunk _ => .error "TypeError: Cannot read property succeeds of null"
  | .binary a o b =>
    match a, b with
    | .expr ea, .expr eb => do
      let ra ← ea.succeedsWith f
      let rb ← eb.succeedsWith f
      return (if o = "and" then ra && rb else ra || rb)
    | _, _ => .error "TypeError: succeeds is not a function"

/-- `Tok.succeedsWith`: `succeeds()` on an arbitrary array element;
operator strings and arrays have no `succeeds` method. -/
def Tok.succeedsWith (f : String → String → Bool) : Tok → Except String Bool
  | .expr e => e.succeedsWith f
  | .op _ => .error "TypeError: succeeds is not a function"
  | .arr _ => .error "TypeError: succeeds is not a function"
  | .undef => .error "TypeError: succeeds is not a function"

mutual
/-- `UnaryExpression.prototype.toString` (Conditioner.js 513-515) and
`BinaryExpression.prototype.toString` (556-558).  For `ujunk` the
source reads `.path` / `.value` off a non-leaf `_config`, producing
the string `"undefined:{undefined}"`. -/
def JExpr.toStr : JExpr → String
  | .uleaf p v n => (if n then "not " else "") ++ p ++ ":\x7b" ++ v ++ "\x7d"
  | .uwrap e n => (if n then "not " else "") ++ e.toStr
  | .ujunk n => (if n then "not " else "") ++ "undefined:{undefined}"
  | .binary a o b => "(" ++ a.toStr ++ " " ++ o ++ " " ++ b.toStr ++ ")"
termination_by e => sizeOf e

/-- `toString()` on an arbitrary array element: strings stringify to
themselves, arrays join their elements with `,`. -/
def Tok.toStr : Tok → String
  | .op s => s
  | .expr e => e.toStr
  | .arr ts => String.intercalate "," (ts.attach.map fun x => x.1.toStr)
  | .undef => "undefined"
termination_by t => sizeOf t
decreasing_by
  all_goals simp_wf
  all_goals try omega
  all_goals have hx := List.sizeOf_lt_of_mem x.2
  all_goals omega
end

/-! ## ExpressionFormatter.fromString (Conditioner.js 594-786)

The JS parser walks the string once, keeping a current group array
(`target`) and a stack of its enclosing arrays (`parents`).  Here the
consumed prefix is carried *reversed* in `done` (so `done.head` is the
character at `i-1`, `done[1]` the one at `i-2`, …) and the unconsumed
suffix in `rest` (so `rest.head` is `charAt(i)` and `rest.take 5` is
`substr(i,5)`); `i === 0` is `done = []` and `i === l-1` is
`rest.tail = []`.

On `'('` the source pushes a fresh array into `target` and descends
into it; the enclosing array keeps the child as its *last* element by
aliasing.  That aliasing is represented structurally: `parents` stores
each enclosing array *without* its final child slot, and closing a
group re-attaches the child (`stored ++ [node]` after a merge,
`stored ++ [Tok.arr child]` when the source leaves the raw array in
place).  On the degenerate inputs where the source abandons a popped
parent while the child stays aliased inside it (a group that reduces to
two or more elements), the child is likewise re-attached as
`Tok.arr`; such states are reachable only from strings outside the
condition grammar. -/

/-- `UnaryExpression(expression, negate)` (Conditioner.js 470-478) as
invoked by the reduction step on an arbitrary array element:
expressions are wrapped, anything else (operator string, array,
`undefined`) fails the `instanceof` test and lands in `_config`. -/
def mkUnary : Option Tok → Bool → JExpr
  | some (.expr e), n => .uwrap e n
  | _, n => .ujunk n

/-- `expression.substr(i,5).match(/and |or |not /g)` (Conditioner.js
698): the first (leftmost) match of one of the three operator words
inside the 5-character window; at equal positions the alternation
order `and `, `or `, `not ` decides (their first letters differ, so no
tie is possible). -/
def findOpMatch : List Char → Option String
  | [] => none
  | c :: ws =>
    if ['a', 'n', 'd', ' '].isPrefixOf (c :: ws) then some "and "
    else if ['o', 'r', ' '].isPrefixOf (c :: ws) then some "or "
    else if ['n', 'o', 't', ' '].isPrefixOf (c :: ws) then some "not "
    else findOpMatch ws

/-- One pass of the group-reduction `for`-loop body (Conditioner.js
735-758): find the leftmost operator-string element and apply the
corresponding splice; `none` when no element triggers (the loop runs
off the end).  `pre` carries the already-scanned prefix reversed, so
`pre.head?` is `target[j-1]`. -/
def reduceScan (pre : List Tok) : List Tok → Option (List Tok)
  | [] => none
  | t :: rs =>
    match t with
    | .op s =>
      if s = "not" then
        -- target.splice(j, 2, new UnaryExpression(target[j+1], true))
        some (pre.reverse ++ [Tok.expr (mkUnary rs.head? true)] ++ rs.tail)
      else
        match rs.head? with
        | some (.op "not") =>
          -- `else if (target[j+1] !== 'not')` fails: keep scanning
          reduceScan (t :: pre) rs
        | _ =>
          -- target.splice(j-1, 3, new BinaryExpression(target[j-1], target[j], target[j+1]))
          let b := Tok.expr (.binary (pre.head?.getD .undef) s (rs.head?.getD .undef))
          match pre with
          | [] =>
            -- j = 0: splice(-1,3,…) removes only the final element and appends
            some ((t :: rs).dropLast ++ [b])
          | _ => some (pre.reverse.dropLast ++ [b] ++ rs.tail)
    | _ => reduceScan (t :: pre) rs

/-- The group-reduction loop run to a fixpoint (Conditioner.js
731-758: every splice rewinds `j` to the start).  On the condition
grammar every splice shortens the array, so `ts.length + 1` rounds of
fuel always reach the fixpoint; on malformed input where the source
loops forever (a binary splice at `j = 0` re-creates an operator
element) the fuel runs out and the current array is returned. -/
def reduceGroup : Nat → List Tok → List Tok
  | 0, ts => ts
  | fuel + 1, ts =>
    match reduceScan [] ts with
    | none => ts
    | some ts' => reduceGroup fuel ts'

/-- The parser's mutable state besides the cursor: the leaf-capture
variables and the group arrays. -/
structure PState where
  path : String
  value : String
  isValue : Bool
  target : List Tok
  parents : List (List Tok)
  deriving Repr

/-- The `do … while (i === l-1 && parent)` group-closing loop
(Conditioner.js 715-773).  Each round pops one parent; with no parent
the loop body runs once more and exits.  With `isLast = false` (a `')'`
before the last character) only a single round runs. -/
def closeCascade (isLast : Bool) (st : PState) : PState :=
  match hps : st.parents with
  | [] =>
    -- parent = undefined: reduce, cannot merge, loop exits
    if st.target.length = 0 then st
    else { st with target := reduceGroup (st.target.length + 1) st.target }
  | p :: ps =>
    let tgt :=
      if st.target.length = 0 then
        -- `if (target.length === 0) { target = parent; continue; }`:
        -- the empty child array stays inside the parent
        p ++ [Tok.arr []]
      else
        let red := reduceGroup (st.target.length + 1) st.target
        if red.length = 1 then
          -- `parent[parent.length-1] = target[0]; target = parent;`
          p ++ red
        else
          -- the source keeps `target` on the child and abandons the
          -- popped parent; the child stays aliased inside it (see the
          -- section comment)
          p ++ [Tok.arr red]
    let st' := { st with target := tgt, parents := ps }
    if isLast then closeCascade isLast st' else st'
termination_by st.parents.length
decreasing_by
  simp_wf
  simp [hps]

/-- The character loop of `ExpressionFormatter.fromString`
(Conditioner.js 622-781), one call per iteration of the `for`-loop.
`done` is the reversed consumed prefix, `rest` the suffix starting at
the cursor.  Branches appear in source order; a JS `continue`
corresponds to a tail call that skips the remaining branches. -/
def runParse (done rest : List Char) (st : PState) : PState :=
  match rest with
  | [] => st
  | c :: rs =>
    if c = '{' then
      -- begin capturing a value; rebuild `path` by scanning backwards
      -- from i-2 to the previous whitespace or '(' (or the start)
      runParse (c :: done) rs
        { st with
          isValue := true
          path := ((done.drop 1).takeWhile (fun n => !(n == ' ' || n == '('))).reverse.asString }
    else
      let st2 :=
        if c = '}' then
          -- close the leaf; a trailing 'not' element is absorbed into
          -- the negation flag (its slot is overwritten)
          let negate := match st.target.getLast? with
            | some (.op s) => s == "not"
            | _ => false
          let node := Tok.expr (.uleaf st.path st.value negate)
          let tgt := if negate then st.target.dropLast ++ [node] else st.target ++ [node]
          { st with target := tgt, path := "", value := "", isValue := false }
        else st
      if st2.isValue then
        runParse (c :: done) rs { st2 with value := st2.value.push c }
      else
        let st3 :=
          if c = '(' then
            { st2 with target := [], parents := st2.target :: st2.parents }
          else st2
        if c = ' ' ∨ done = [] ∨ c = '(' then
          match findOpMatch (c :: rs.take 4) with
          | none => runParse (c :: done) rs st3
          | some operator =>
            let ol := operator.length - 1
            let st4 := { st3 with target := st3.target ++ [Tok.op (operator.dropRight 1)] }
            let rest' := rs.drop ol
            let st5 := if c = ')' ∨ rest' = [] then closeCascade (rest' = []) st4 else st4
            runParse ((rs.take ol).reverse ++ c :: done) rest' st5
        else
          let st5 := if c = ')' ∨ rs = [] then closeCascade (rs = []) st3 else st3
          runParse (c :: done) rs st5
termination_by rest.length
decreasing_by
  all_goals simp_wf
  all_goals omega

/-- `ExpressionFormatter.fromString` (Conditioner.js 594-786).  Any
still-open group frames are re-attached around the final `target`
(mirroring the aliases from `target.push([])`); the root array is
returned as a single element when it has exactly one, else as the
array itself. -/
def fromString (expression : String) : Tok :=
  let final := runParse [] expression.data ⟨"", "", false, [], []⟩
  let tree := final.parents.foldl (fun child stored => stored ++ [Tok.arr child]) final.target
  match tree with
  | [t] => t
  | ts => .arr ts

/-! ## ConditionsManager (Conditioner.js 1108-1244)

The `conditions` constructor argument is a JS value that in the source
is either a string (a condition expression), `null`
(`element.getAttribute('data-conditions')` on an element without the
attribute, Conditioner.js 1839), or `undefined` (the key absent from
the options object). -/

/-- The possible JS values of `options.conditions`. -/
inductive JSCond where
  | undef
  | nullv
  | str (s : String)
  deriving Repr, DecidableEq

/-- `ConditionsManager` state: the stored verdict `_suitable`, whether
the constructor took the string branch (only then do `_expression`,
`_count` and the test-change subscriptions exist), the parsed
expression, and the pending-test counter `_count`. -/
structure CMState where
  suitable : Bool
  conditioned : Bool
  expression : Option Tok
  count : Nat
  deriving Repr

/-- The `ConditionsManager` constructor (Conditioner.js 1108-1136):
`_suitable` starts `true`; a non-string `conditions` returns at once
(permanently suitable); a string sets `_suitable := false`, computes
`_count` via `getExpressionsCount` (which throws when the string has
no `:{`), and parses the expression.  (`_loadExpressionTests` then
resolves testers asynchronously; tester state lives in the evaluation
environment here.) -/
def mkConditionsManager (conditions : JSCond) : Except String CMState :=
  match conditions with
  | .str s =>
    match getExpressionsCount s with
    | .error msg => .error msg
    | .ok n => .ok ⟨false, true, some (fromString s), n⟩
  | _ => .ok ⟨true, false, none, 0⟩

/-- `ConditionsManager.prototype.getSuitability` (Conditioner.js
1148-1150). -/
def getSuitability (cm : CMState) : Bool :=
  cm.suitable

/-- `ConditionsManager.prototype.test` (Conditioner.js 1157-1168):
recompute `this._expression.succeeds()` under the current tester
results `f`, store the verdict and publish one `change` event iff it
differs from the stored one.  The returned boolean is whether
`Observer.publish(this,'change')` ran (the source contains exactly one
such call, inside the `if`).  On an unconditioned manager
`_expression` is `undefined` and the call would throw. -/
def cmTest (f : String → String → Bool) (cm : CMState) :
    Except String (CMState × Bool) :=
  match cm.expression with
  | none => .error "TypeError: Cannot read property succeeds of undefined"
  | some e =>
    match e.succeedsWith f with
    | .error msg => .error msg
    | .ok s =>
      if s != cm.suitable then .ok ({ cm with suitable := s }, true)
      else .ok (cm, false)

/-- Delivery of a tester `change` notification
(`_onTestResultsChanged`, Conditioner.js 1241-1243, subscribed in
`_loadTesterToExpression`, 1208).  The subscription is only ever
created on the string-conditions path, so a manager whose constructor
returned early never receives one. -/
def cmProbeChange (f : String → String → Bool) (cm : CMState) :
    Except String CMState :=
  if cm.conditioned then
    match cmTest f cm with
    | .error msg => .error msg
    | .ok r => .ok r.1
  else
    .ok cm

/-! ## ModuleController options (Conditioner.js 1255-1319) -/

/-- The options slice `isConditioned` consults. -/
structure MCOptions where
  conditions : JSCond
  deriving Repr, DecidableEq

/-- `ModuleController.prototype.isConditioned` (Conditioner.js
1317-1319): `typeof this._options.conditions !== 'undefined'`.
Note that JS `null` is not `undefined`. -/
def isConditioned (o : MCOptions) : Bool :=
  match o.conditions with
  | .undef => false
  | _ => true

/-- Modelled from the spec: "`isConditioned()`: true iff an expression
was supplied."  An expression is supplied when `conditions` holds a
condition string; `null` and `undefined` supply none.  This definition
follows the spec's words and is compared against `isConditioned`
above. -/
def suppliedExpression (o : MCOptions) : Bool :=
  match o.conditions with
  | .str _ => true
  | _ => false

/-! ## Utils.mergeObjects (Conditioner.js 230-282)

A model of the JSON-like JS values option objects are built from
(`JSON.parse` output plus `undefined` for absent properties).  The
merge is translated branch by branch; behaviour that depends on JS
value semantics is made explicit:
* `typeof x === 'object'` is true for objects, arrays and `null`;
* falsy values are `undefined`, `null`, `false`, `0` and `""`;
* reading a property off `null`/`undefined` throws; calling
  `.indexOf` on a number/boolean throws; on a string it is the
  substring search of `String.prototype.indexOf`;
* assigning `dst[i]` past the end of an array extends it (the gap
  reads as `undefined`);
* `Object.keys` of a string yields its index keys (only the canonical
  decimal spellings are modelled, which are the only keys the merge
  generates). -/

/-- A JS value. -/
inductive JVal where
  | vundef
  | vnull
  | vbool (b : Bool)
  | vnum (n : Int)
  | vstr (s : String)
  | varr (elems : List JVal)
  | vobj (fields : List (String × JVal))
  deriving Repr

/-- JS truthiness. -/
def jtruthy : JVal → Bool
  | .vundef => false
  | .vnull => false
  | .vbool b => b
  | .vnum n => n != 0
  | .vstr s => s != ""
  | .varr _ => true
  | .vobj _ => true

/-- `typeof x === 'object'`. -/
def isObjectType : JVal → Bool
  | .vnull => true
  | .varr _ => true
  | .vobj _ => true
  | _ => false

/-- Strict equality `===` as used by `indexOf` on the values compared
there: primitives by value; two distinct object/array literals are
distinct references, hence never strictly equal. -/
def jStrictEq : JVal → JVal → Bool
  | .vundef, .vundef => true
  | .vnull, .vnull => true
  | .vbool a, .vbool b => a == b
  | .vnum a, .vnum b => a == b
  | .vstr a, .vstr b => a == b
  | _, _ => false

/-- First-occurrence lookup in an object's field list. -/
def getKey : List (String × JVal) → String → Option JVal
  | [], _ => none
  | (k, v) :: fs, key => if k == key then some v else getKey fs key

/-- `dst[key] = v`: overwrite in place, else append (JS objects keep
insertion order). -/
def setKey : List (String × JVal) → String → JVal → List (String × JVal)
  | [], key, v => [(key, v)]
  | (k, w) :: fs, key, v =>
    if k == key then (k, v) :: fs else (k, w) :: setKey fs key v

/-- Property read `x[key]` for the values it is applied to here
(never `null`/`undefined`; that case is handled at the call site). -/
def getProp : JVal → String → JVal
  | .vobj fs, key => (getKey fs key).getD .vundef
  | .vstr s, key =>
    (match key.toNat? with
      | some i =>
        match s.data[i]? with
        | some c => .vstr (String.mk [c])
        | none => .vundef
      | none => .vundef)
  | _, _ => ( .vundef )

/-- `Object.keys`. -/
def jkeys : JVal → List String
  | .vobj fs => fs.map Prod.fst
  | .vstr s => (List.range s.length).map toString
  | _ => []

/-- The entries `Object.keys(target).forEach(key => dst[key] =
target[key])` copies, for a `target` that passed
`target && typeof target === 'object'`. -/
def objEntries : JVal → List (String × JVal)
  | .vobj fs => fs
  | .varr ts => ts.enum.map fun p => (toString p.1, p.2)
  | _ => []

/-- `target[i]` in the array branch (`target` is the original value
when truthy, `[]` otherwise). -/
def arrIdx : JVal → Nat → JVal
  | .varr ts, i => (ts[i]?).getD .vundef
  | .vobj fs, i => (getKey fs (toString i)).getD .vundef
  | .vstr s, i =>
    (match s.data[i]? with
      | some c => .vstr (String.mk [c])
      | none => .vundef)
  | _, _ => ( .vundef )

/-- JS `ToString` for the primitive values `indexOf` may be given. -/
def jToString : JVal → String
  | .vstr s => s
  | .vnum n => toString n
  | .vbool b => if b then "true" else "false"
  | .vnull => "null"
  | .vundef => "undefined"
  | .varr _ => ""
  | .vobj _ => "[object Object]"

/-- `target.indexOf(e) === -1`: strict-equality search on an array,
substring search on a string, a `TypeError` on anything else. -/
def jIndexOfAbsent (t e : JVal) : Except String Bool :=
  match t with
  | .varr ts => .ok (ts.all fun x => !jStrictEq x e)
  | .vstr s => .ok (!decide (List.IsInfix (jToString e).data s.data))
  | _ => .error "TypeError: target.indexOf is not a function"

/-- `dst[i] = v` on an array: set in place, extending with `undefined`
holes when `i` is past the end. -/
def setIdx (l : List JVal) (i : Nat) (v : JVal) : List JVal :=
  if i < l.length then l.set i v
  else l ++ List.replicate (i - l.length) .vundef ++ [v]

/-- The property read `target[key]` of `if (!target[key])`
(Conditioner.js 270): throws on a `null`/`undefined` target. -/
def readProp (t : JVal) (key : String) : Except String JVal :=
  match t with
  | .vnull => .error "TypeError: Cannot read properties of null"
  | .vundef => .error "TypeError: Cannot read properties of undefined"
  | t => .ok (getProp t key)

theorem getKey_sizeOf_lt (fs : List (String × JVal)) (key : String) (v : JVal)
    (h : getKey fs key = some v) : sizeOf v < 1 + sizeOf fs := by
  induction fs with
  | nil => simp [getKey] at h
  | cons p fs ih =>
    obtain ⟨k, w⟩ := p
    unfold getKey at h
    by_cases hk : (k == key) = true
    · rw [if_pos hk] at h
      injection h with h
      subst h
      simp
      omega
    · rw [if_neg hk] at h
      have := ih h
      simp
      omega

theorem sizeOf_getProp_lt (src : JVal) (key : String)
    (h : isObjectType (getProp src key) = true) :
    sizeOf (getProp src key) < sizeOf src := by
  cases src with
  | vobj fs =>
    cases hk : getKey fs key with
    | none => rw [getProp, hk] at h ⊢; exact absurd h (by simp [isObjectType])
    | some v =>
      rw [getProp, hk]
      simpa using getKey_sizeOf_lt fs key v hk
  | vstr s =>
    exfalso
    rw [getProp] at h
    cases hn : s.data[(key.toNat?).getD 0]? <;>
      rcases hN : key.toNat? with _ | i <;>
        simp [hN, isObjectType] at h <;>
          rcases hc : s.data[i]? with _ | c <;> simp [hc, isObjectType] at h
  | vundef => simp [getProp, isObjectType] at h
  | vnull => simp [getProp, isObjectType] at h
  | vbool b => simp [getProp, isObjectType] at h
  | vnum n => simp [getProp, isObjectType] at h
  | varr ts => simp [getProp, isObjectType] at h

mutual
/-- `Utils.mergeObjects(target, src)` (Conditioner.js 230-282).  The
`if (array)` split is the `Array.isArray(src)` match; `src = src || {}`
is reflected in `jkeys` taking the replaced value (when `src` is falsy
there are no keys, so passing the original `src` into the loop makes no
difference); `dst = array && [] || {}` followed by
`dst = dst.concat(target || [])` gives the initial array contents
(spread for an array target, a one-element wrap for a truthy non-array,
empty otherwise); `if (target && typeof target === 'object')` guards
the key copy. -/
def mergeObjects (target src : JVal) : Except String JVal :=
  match src with
  | .varr es =>
    let target1 := if jtruthy target then target else .varr []
    let dst0 : List JVal :=
      match target1 with
      | .varr ts => ts
      | t => [t]
    (do
      let ds ← mergeArrLoop target1 0 dst0 es
      return .varr ds)
  | s =>
    let src1 := if jtruthy s then s else .vobj []
    let dst0 : List (String × JVal) :=
      if jtruthy target && isObjectType target then objEntries target else []
    (do
      let ds ← mergeObjLoop target s (jkeys src1) dst0
      return .vobj ds)
termination_by (2 * sizeOf src + 1, 0)

/-- The `src.forEach(function(e, i) …)` of the array branch
(Conditioner.js 242-252): object-typed entries are merged by index
into `dst[i]`, others are appended iff `target.indexOf(e) === -1`. -/
def mergeArrLoop (target1 : JVal) (i : Nat) (dst : List JVal) :
    List JVal → Except String (List JVal)
  | [] => .ok dst
  | e :: rest =>
    if isObjectType e then do
      let me ← mergeObjects (arrIdx target1 i) e
      mergeArrLoop target1 (i + 1) (setIdx dst i me) rest
    else do
      let absent ← jIndexOfAbsent target1 e
      if absent then mergeArrLoop target1 (i + 1) (dst ++ [e]) rest
      else mergeArrLoop target1 (i + 1) dst rest
termination_by es => (2 * sizeOf es, 0)

/-- The `Object.keys(src).forEach(function(key) …)` of the object
branch (Conditioner.js 264-278): non-object or falsy source values win
outright; otherwise `!target[key]` (a read that throws on a
`null`/`undefined` target) decides between taking the source value and
recursing. -/
def mergeObjLoop (target src : JVal) (ks : List String)
    (dst : List (String × JVal)) : Except String (List (String × JVal)) :=
  match ks with
  | [] => .ok dst
  | key :: rest =>
    let sv := getProp src key
    if !isObjectType sv || !jtruthy sv then
      mergeObjLoop target src rest (setKey dst key sv)
    else do
      let tv ← readProp target key
      if !jtruthy tv then
        mergeObjLoop target src rest (setKey dst key sv)
      else do
        let mv ← mergeObjects tv sv
        mergeObjLoop target src rest (setKey dst key mv)
termination_by (2 * sizeOf src, ks.length)
decreasing_by
  all_goals simp_wf
  all_goals first
    | exact Prod.Lex.right _ (Nat.lt_succ_self _)
    | (rename_i h1 h2
       refine Prod.Lex.left _ _ ?_
       show 2 * sizeOf (getProp src key) + 1 < 2 * sizeOf src
       rw [Bool.not_eq_true] at h1
       simp only [Bool.or_eq_false_iff, Bool.not_eq_false'] at h1
       have := sizeOf_getProp_lt src key h1.1
       omega)
end

/-! ## Node arbitration (Conditioner.js 1546-1783)

The arbitration state machine over one `Node` and its ordered list of
`ModuleController`s.  Controllers are identified by their list index
(declaration order = priority; `mc !== moduleController` becomes index
inequality, since every controller is a distinct object).

Per the concurrency model in the source, every `Observer.publish` runs
its subscribers synchronously, so each externally-triggered event is
one function computing the entire cascade.  `load()` is modelled as
running `_onLoad` synchronously (the behaviour once `this._Module` is
cached); `_onLoad`'s fresh `isAvailable()` re-check is included. -/

/-- The slice of a `ModuleController` the arbitration reads and
writes: `isConditioned()`, the conditions manager's current verdict,
the `_available` field, and whether `_moduleInstance` is non-null. -/
structure MCArb where
  conditioned : Bool
  suitable : Bool
  available : Bool
  hasInstance : Bool
  deriving Repr, DecidableEq

/-- `ModuleController.prototype.isAvailable` (Conditioner.js
1296-1299): refresh `_available` from the manager's verdict and return
it. -/
def MCArb.isAvailable (m : MCArb) : MCArb × Bool :=
  ({ m with available := m.suitable }, m.suitable)

/-- `ModuleController.prototype.unload` (Conditioner.js 1480-1505) as
the arbitration sees it: `_available := false`; keep `false` (no event)
when no instance, else drop the instance and report that the `unload`
event was published. -/
def MCArb.unload (m : MCArb) : MCArb × Bool :=
  let m1 := { m with available := false }
  if m1.hasInstance then ({ m1 with hasInstance := false }, true) else (m1, false)

/-- `load()`/`_onLoad` run synchronously (Conditioner.js 1405-1471):
`_onLoad` first re-reads `isAvailable()` and aborts when the controller
is no longer available; otherwise the instance is created (and a `load`
event, which the `Node` does not observe, is published). -/
def MCArb.load (m : MCArb) : MCArb :=
  let r := m.isAvailable
  if r.2 then { r.1 with hasInstance := true } else r.1

/-- The `Node` state: its controllers, the index of
`_activeModuleController`, and whether `_onModulesReady` has wired the
`available` subscriptions. -/
structure NodeState where
  mcs : List MCArb
  active : Option Nat
  availSubscribed : Bool
  deriving Repr, DecidableEq

/-- `Node.prototype._getSuitableActiveModuleController`
(Conditioner.js 1766-1783): scan in declaration order, calling
`isAvailable()` (which rewrites `_available`) on each controller until
the first available one; return the updated list and its index. -/
def findSuitable : List MCArb → List MCArb × Option Nat
  | [] => ([], none)
  | m :: rest =>
    let r := m.isAvailable
    if r.2 then (r.1 :: rest, some 0)
    else
      let q := findSuitable rest
      (r.1 :: q.1, q.2.map (· + 1))

/-- The guard loop of `Node.prototype._onModuleAvailable`
(Conditioner.js 1680-1692): walk every controller, skipping index `j`
(`mc !== moduleController` short-circuits before `isAvailable()`), and
stop at the first other controller that is available *and* conditioned.
`k` is the index of the list head. -/
def scanBlock (j : Nat) : Nat → List MCArb → List MCArb × Bool
  | _, [] => ([], false)
  | k, m :: rest =>
    if k = j then
      let q := scanBlock j (k + 1) rest
      (m :: q.1, q.2)
    else
      let r := m.isAvailable
      if r.2 && m.conditioned then (r.1 :: rest, true)
      else
        let q := scanBlock j (k + 1) rest
        (r.1 :: q.1, q.2)

/-- `Node.prototype._cleanActiveModuleController` (Conditioner.js
1725-1740): unsubscribe from the active controller's `unload` event
(so the unload below goes unobserved), call its `unload()`, and null
the reference. -/
def cleanActiveMC (s : NodeState) : NodeState :=
  match s.active with
  | none => s
  | some k =>
    let mcs' := match s.mcs[k]? with
      | some m => s.mcs.set k (m.unload).1
      | none => s.mcs
    { s with mcs := mcs', active := none }

/-- `this._activeModuleController.load()` at the end of
`_setActiveModuleController`. -/
def loadMC (s : NodeState) (j : Nat) : NodeState :=
  match s.mcs[j]? with
  | some m => { s with mcs := s.mcs.set j m.load }
  | none => s

/-- `Node.prototype._setActiveModuleController` (Conditioner.js
1704-1719): return if already active; otherwise *first* clean up the
previous active controller (unsubscribe + unload), then set the new
reference, subscribe to its `unload`, and `load()` it. -/
def setActiveMC (s : NodeState) (j : Nat) : NodeState :=
  if s.active = some j then s
  else loadMC { cleanActiveMC s with active := some j } j

/-- `Node.prototype._onModuleAvailable` (Conditioner.js 1675-1697):
run the guard scan; if some other conditioned controller is available,
return without electing; otherwise elect the reporting controller. -/
def onModuleAvailable (s : NodeState) (j : Nat) : NodeState :=
  let q := scanBlock j 0 s.mcs
  let s' := { s with mcs := q.1 }
  if q.2 then s' else setActiveMC s' j

/-- `Node.prototype._onActiveModuleUnload` (Conditioner.js 1746-1759):
clean the active reference, re-run the first-fit scan, and elect the
replacement if any. -/
def onActiveModuleUnload (s : NodeState) : NodeState :=
  let s1 := cleanActiveMC s
  let q := findSuitable s1.mcs
  let s2 := { s1 with mcs := q.1 }
  match q.2 with
  | none => s2
  | some j => setActiveMC s2 j

/-- `Node.prototype._onModulesReady` (Conditioner.js 1653-1667):
initial first-fit election, then subscribe every controller's
`available` event. -/
def onModulesReady (s : NodeState) : NodeState :=
  let q := findSuitable s.mcs
  let s1 := { s with mcs := q.1, availSubscribed := true }
  match q.2 with
  | none => s1
  | some j => setActiveMC s1 j

/-- A public `unload()` call on controller `i`
(Conditioner.js 1480-1505): when it returns `true` the `unload` event
was published, and the `Node` reacts iff it is subscribed — i.e. iff
`i` is the active controller. -/
def unloadMC (s : NodeState) (i : Nat) : NodeState :=
  match s.mcs[i]? with
  | none => s
  | some m =>
    let r := m.unload
    let s1 := { s with mcs := s.mcs.set i r.1 }
    if r.2 ∧ s.active = some i then onActiveModuleUnload s1 else s1

/-- A tester change that flips controller `i`'s conditions verdict to
`b`.  The manager's `test()` publishes `change` only when the verdict
actually flipped (Conditioner.js 1157-1168), an unconditioned manager
never tests, and `ModuleController._onConditionsChange`
(1384-1396) then reads the captured verdict once: unload when active
and no longer suitable (the `unload` event reaches the `Node` iff `i`
is the active controller), or report availability upward
(`_onAvailable`, observed once the `Node` subscribed). -/
def condChange (s : NodeState) (i : Nat) (b : Bool) : NodeState :=
  match s.mcs[i]? with
  | none => s
  | some m =>
    if !m.conditioned then s
    else if m.suitable = b then s
    else
      let m1 := { m with suitable := b }
      let s1 := { s with mcs := s.mcs.set i m1 }
      if m1.hasInstance ∧ ¬b then unloadMC s1 i
      else if ¬m1.hasInstance ∧ b then
        let s2 := { s1 with mcs := s1.mcs.set i { m1 with available := true } }
        if s2.availSubscribed then onModuleAvailable s2 i else s2
      else s1

/-- The observable events driving a `Node`. -/
inductive NEvent where
  | modulesReady
  | condChange (i : Nat) (b : Bool)
  | extUnload (i : Nat)
  deriving Repr, DecidableEq

/-- One event step. -/
def nodeStep (s : NodeState) : NEvent → NodeState
  | .modulesReady => onModulesReady s
  | .condChange i b => condChange s i b
  | .extUnload i => unloadMC s i

/-- A run from a state through a sequence of events. -/
def nodeRun (s : NodeState) (es : List NEvent) : NodeState :=
  es.foldl nodeStep s

/-- A freshly initialised `Node` (Conditioner.js 1546-1570): no active
controller, nothing subscribed yet. -/
def initNode (mcs : List MCArb) : NodeState :=
  ⟨mcs, none, false⟩

/-! ### Asynchronous module loading (for C1)

The arbitration model above runs `load()` synchronously — the behaviour
once `this._Module` is cached.  `ModuleController.prototype.load`
(Conditioner.js 1404-1424) is in general asynchronous: when `_Module`
is not yet set it issues `require([this._path], cb)` and returns, and
the callback later stores the module and runs `_onLoad`.  The states
below extend a controller with that cache flag and the number of
requires still in flight, and the event alphabet with the arrival of a
require callback.  Nothing cancels an in-flight require: `unload`
neither clears `_Module` nor unregisters the callback. -/

/-- The slice of a `ModuleController` the arbitration reads and writes,
extended with the asynchronous-load bookkeeping: whether `_Module` is
set, and how many `require` callbacks are still outstanding. -/
structure MCAsy where
  conditioned : Bool
  suitable : Bool
  available : Bool
  hasModule : Bool
  pending : Nat
  hasInstance : Bool
  deriving Repr, DecidableEq

/-- `ModuleController.prototype.isAvailable` (Conditioner.js
1296-1299): refresh `_available` from the manager's verdict and return
it. -/
def MCAsy.isAvailable (m : MCAsy) : MCAsy × Bool :=
  ({ m with available := m.suitable }, m.suitable)

/-- `ModuleController.prototype.unload` (Conditioner.js 1480-1505) as
the arbitration sees it: `_available := false`; keep `false` (no event)
when no instance, else drop the instance and report that the `unload`
event was published.  The module cache and any in-flight require are
untouched. -/
def MCAsy.unload (m : MCAsy) : MCAsy × Bool :=
  let m1 := { m with available := false }
  if m1.hasInstance then ({ m1 with hasInstance := false }, true) else (m1, false)

/-- `ModuleController.prototype._onLoad` (Conditioner.js 1431-1460):
re-read `isAvailable()` and abort when the controller is no longer
available — the *only* abort condition, line 1433-1436 — otherwise
create the instance. -/
def MCAsy.onLoad (m : MCAsy) : MCAsy :=
  let r := m.isAvailable
  if r.2 then { r.1 with hasInstance := true } else r.1

/-- `ModuleController.prototype.load` (Conditioner.js 1404-1424): with
`_Module` cached, run `_onLoad` synchronously; otherwise issue the
asynchronous `require` and return — one more callback is now in
flight. -/
def MCAsy.load (m : MCAsy) : MCAsy :=
  if m.hasModule then m.onLoad else { m with pending := m.pending + 1 }

/-- Arrival of one outstanding `require` callback (Conditioner.js
1414-1422): store the module reference and run `_onLoad`.  With no
callback in flight nothing arrives. -/
def MCAsy.requireArrive (m : MCAsy) : MCAsy :=
  if m.pending = 0 then m
  else MCAsy.onLoad { m with pending := m.pending - 1, hasModule := true }

/-- The `Node` state over asynchronous controllers. -/
structure ANodeState where
  mcs : List MCAsy
  active : Option Nat
  availSubscribed : Bool
  deriving Repr, DecidableEq

/-- `Node.prototype._getSuitableActiveModuleController`
(Conditioner.js 1766-1783) over asynchronous controllers. -/
def findSuitableA : List MCAsy → List MCAsy × Option Nat
  | [] => ([], none)
  | m :: rest =>
    let r := m.isAvailable
    if r.2 then (r.1 :: rest, some 0)
    else
      let q := findSuitableA rest
      (r.1 :: q.1, q.2.map (· + 1))

/-- The guard loop of `Node.prototype._onModuleAvailable`
(Conditioner.js 1680-1692) over asynchronous controllers. -/
def scanBlockA (j : Nat) : Nat → List MCAsy → List MCAsy × Bool
  | _, [] => ([], false)
  | k, m :: rest =>
    if k = j then
      let q := scanBlockA j (k + 1) rest
      (m :: q.1, q.2)
    else
      let r := m.isAvailable
      if r.2 && m.conditioned then (r.1 :: rest, true)
      else
        let q := scanBlockA j (k + 1) rest
        (r.1 :: q.1, q.2)

/-- `Node.prototype._cleanActiveModuleController` (Conditioner.js
1725-1740) over asynchronous controllers. -/
def cleanActiveA (s : ANodeState) : ANodeState :=
  match s.active with
  | none => s
  | some k =>
    let mcs' := match s.mcs[k]? with
      | some m => s.mcs.set k (m.unload).1
      | none => s.mcs
    { s with mcs := mcs', active := none }

/-- `this._activeModuleController.load()` at the end of
`_setActiveModuleController`, now asynchronous. -/
def loadMCA (s : ANodeState) (j : Nat) : ANodeState :=
  match s.mcs[j]? with
  | some m => { s with mcs := s.mcs.set j m.load }
  | none => s

/-- `Node.prototype._setActiveModuleController` (Conditioner.js
1704-1719) over asynchronous controllers. -/
def setActiveA (s : ANodeState) (j : Nat) : ANodeState :=
  if s.active = some j then s
  else loadMCA { cleanActiveA s with active := some j } j

/-- `Node.prototype._onModuleAvailable` (Conditioner.js 1675-1697)
over asynchronous controllers. -/
def onModuleAvailableA (s : ANodeState) (j : Nat) : ANodeState :=
  let q := scanBlockA j 0 s.mcs
  let s' := { s with mcs := q.1 }
  if q.2 then s' else setActiveA s' j

/-- `Node.prototype._onActiveModuleUnload` (Conditioner.js 1746-1759)
over asynchronous controllers. -/
def onActiveModuleUnloadA (s : ANodeState) : ANodeState :=
  let s1 := cleanActiveA s
  let q := findSuitableA s1.mcs
  let s2 := { s1 with mcs := q.1 }
  match q.2 with
  | none => s2
  | some j => setActiveA s2 j

/-- `Node.prototype._onModulesReady` (Conditioner.js 1653-1667) over
asynchronous controllers. -/
def onModulesReadyA (s : ANodeState) : ANodeState :=
  let q := findSuitableA s.mcs
  let s1 := { s with mcs := q.1, availSubscribed := true }
  match q.2 with
  | none => s1
  | some j => setActiveA s1 j

/-- A public `unload()` call on controller `i` (Conditioner.js
1480-1505) over asynchronous controllers. -/
def unloadMCA (s : ANodeState) (i : Nat) : ANodeState :=
  match s.mcs[i]? with
  | none => s
  | some m =>
    let r := m.unload
    let s1 := { s with mcs := s.mcs.set i r.1 }
    if r.2 ∧ s.active = some i then onActiveModuleUnloadA s1 else s1

/-- A tester change flipping controller `i`'s conditions verdict to
`b` (Conditioner.js 1157-1168, 1384-1396) over asynchronous
controllers. -/
def condChangeA (s : ANodeState) (i : Nat) (b : Bool) : ANodeState :=
  match s.mcs[i]? with
  | none => s
  | some m =>
    if !m.conditioned then s
    else if m.suitable = b then s
    else
      let m1 := { m with suitable := b }
      let s1 := { s with mcs := s.mcs.set i m1 }
      if m1.hasInstance ∧ ¬b then unloadMCA s1 i
      else if ¬m1.hasInstance ∧ b then
        let s2 := { s1 with mcs := s1.mcs.set i { m1 with available := true } }
        if s2.availSubscribed then onModuleAvailableA s2 i else s2
      else s1

/-- Arrival of one outstanding `require` callback for controller `i`:
the `Node` is not involved — the callback runs `_onLoad` directly
(Conditioner.js 1414-1422). -/
def requireDoneA (s : ANodeState) (i : Nat) : ANodeState :=
  match s.mcs[i]? with
  | none => s
  | some m => { s with mcs := s.mcs.set i m.requireArrive }

/-- The observable events driving a `Node`, now including require
callbacks. -/
inductive AEvent where
  | modulesReady
  | condChange (i : Nat) (b : Bool)
  | extUnload (i : Nat)
  | requireDone (i : Nat)
  deriving Repr, DecidableEq

/-- One event step of the asynchronous model. -/
def anodeStep (s : ANodeState) : AEvent → ANodeState
  | .modulesReady => onModulesReadyA s
  | .condChange i b => condChangeA s i b
  | .extUnload i => unloadMCA s i
  | .requireDone i => requireDoneA s i

/-- A run through a sequence of events. -/
def anodeRun (s : ANodeState) (es : List AEvent) : ANodeState :=
  es.foldl anodeStep s

/-- A freshly initialised `Node` (Conditioner.js 1546-1570). -/
def initNodeA (mcs : List MCAsy) : ANodeState :=
  ⟨mcs, none, false⟩

/-- Every controller has its module cached and no require in flight —
the regime in which `load()` is synchronous. -/
def cachedA (s : ANodeState) : Prop :=
  ∀ (i : Nat) (m : MCAsy), s.mcs[i]? = some m → m.hasModule = true ∧ m.pending = 0

/-- The inductive invariant behind C1: a controller holds a live
instance only if it is the active one. -/
def instOnlyActiveA (s : ANodeState) : Prop :=
  ∀ (i : Nat) (m : MCAsy), s.mcs[i]? = some m → m.hasInstance = true → s.active = some i

/-- The module-cache/pending projection, used to state that the
arbitration cascade never touches those two fields. -/
def MCAsy.mp (m : MCAsy) : Bool × Nat := (m.hasModule, m.pending)

theorem MCAsy.unload_inst (m : MCAsy) : (m.unload).1.hasInstance = false := by
  by_cases h : m.hasInstance <;> simp [MCAsy.unload, h]

theorem MCAsy.isAvailable_inst (m : MCAsy) :
    (m.isAvailable).1.hasInstance = m.hasInstance := rfl

theorem MCAsy.isAvailable_mp (m : MCAsy) : (m.isAvailable).1.mp = m.mp := rfl

theorem MCAsy.unload_mp (m : MCAsy) : (m.unload).1.mp = m.mp := by
  by_cases h : m.hasInstance <;> simp [MCAsy.unload, MCAsy.mp, h]

theorem MCAsy.onLoad_mp (m : MCAsy) : m.onLoad.mp = m.mp := by
  by_cases h : m.suitable <;> simp [MCAsy.onLoad, MCAsy.isAvailable, MCAsy.mp, h]

theorem MCAsy.load_cached (m : MCAsy) (hm : m.hasModule = true) : m.load = m.onLoad := by
  simp [MCAsy.load, hm]

theorem MCAsy.requireArrive_cached (m : MCAsy) (hp : m.pending = 0) :
    m.requireArrive = m := by
  simp [MCAsy.requireArrive, hp]

theorem MCAsy.mp_eq {x m : MCAsy} (h : x.mp = m.mp) :
    x.hasModule = m.hasModule ∧ x.pending = m.pending := by
  unfold MCAsy.mp at h
  exact ⟨congrArg Prod.fst h, congrArg Prod.snd h⟩

theorem findSuitableA_inst (l : List MCAsy) :
    (findSuitableA l).1.map (·.hasInstance) = l.map (·.hasInstance) := by
  induction l with
  | nil => rfl
  | cons m rest ih =>
    by_cases h : (m.isAvailable).2 <;> simp [findSuitableA, h, ih, MCAsy.isAvailable_inst]

theorem findSuitableA_mp (l : List MCAsy) :
    (findSuitableA l).1.map MCAsy.mp = l.map MCAsy.mp := by
  induction l with
  | nil => rfl
  | cons m rest ih =>
    by_cases h : (m.isAvailable).2 <;> simp [findSuitableA, h, ih, MCAsy.isAvailable_mp]

theorem scanBlockA_inst (j : Nat) (l : List MCAsy) :
    ∀ k, (scanBlockA j k l).1.map (·.hasInstance) = l.map (·.hasInstance) := by
  induction l with
  | nil => intro k; rfl
  | cons m rest ih =>
    intro k
    by_cases hk : k = j
    · simp [scanBlockA, hk, ih]
    · by_cases hb : (m.isAvailable).2 && m.conditioned <;>
        simp [scanBlockA, hk, hb, ih, MCAsy.isAvailable_inst]

theorem scanBlockA_mp (j : Nat) (l : List MCAsy) :
    ∀ k, (scanBlockA j k l).1.map MCAsy.mp = l.map MCAsy.mp := by
  induction l with
  | nil => intro k; rfl
  | cons m rest ih =>
    intro k
    by_cases hk : k = j
    · simp [scanBlockA, hk, ih]
    · by_cases hb : (m.isAvailable).2 && m.conditioned <;>
        simp [scanBlockA, hk, hb, ih, MCAsy.isAvailable_mp]

theorem map_eq_getElem? {α β : Type} (f : α → β) {l l' : List α}
    (h : l.map f = l'.map f) (i : Nat) :
    (l[i]?).map f = (l'[i]?).map f := by
  rw [← List.getElem?_map, ← List.getElem?_map, h]

theorem instOnlyActiveA_of_map_eq {s s' : ANodeState}
    (hm : s'.mcs.map (·.hasInstance) = s.mcs.map (·.hasInstance))
    (ha : s'.active = s.active) (hs : instOnlyActiveA s) : instOnlyActiveA s' := by
  intro i m hget hinst
  have hmi := map_eq_getElem? (fun x : MCAsy => x.hasInstance) hm i
  rw [hget] at hmi
  cases hg : s.mcs[i]? with
  | none => rw [hg] at hmi; simp at hmi
  | some m2 =>
    rw [hg] at hmi
    simp at hmi
    rw [ha]
    exact hs i m2 hg (hmi ▸ hinst)

theorem cachedA_of_map_eq {s s' : ANodeState}
    (hm : s'.mcs.map MCAsy.mp = s.mcs.map MCAsy.mp)
    (hs : cachedA s) : cachedA s' := by
  intro i m hget
  have hmi := map_eq_getElem? MCAsy.mp hm i
  rw [hget] at hmi
  cases hg : s.mcs[i]? with
  | none => rw [hg] at hmi; simp at hmi
  | some m2 =>
    rw [hg] at hmi
    simp at hmi
    obtain ⟨h1, h2⟩ := MCAsy.mp_eq hmi
    obtain ⟨h3, h4⟩ := hs i m2 hg
    exact ⟨h1.trans h3, h2.trans h4⟩

theorem cachedA_set {s : ANodeState} (hs : cachedA s) {i : Nat} {x : MCAsy}
    (hx : x.hasModule = true ∧ x.pending = 0) :
    cachedA { s with mcs := s.mcs.set i x } := by
  intro i' m' hm'
  by_cases hii : i' = i
  · subst hii
    by_cases hlt : i' < s.mcs.length
    · rw [List.getElem?_set_eq_of_lt _ hlt] at hm'
      injection hm' with h
      rw [← h]
      exact hx
    · rw [List.set_eq_of_length_le (by omega)] at hm'
      exact hs i' m' hm'
  · rw [List.getElem?_set_ne (fun hh => hii hh.symm)] at hm'
    exact hs i' m' hm'

theorem cleanActiveA_active (s : ANodeState) : (cleanActiveA s).active = none := by
  unfold cleanActiveA
  cases h : s.active <;> simp [h]

theorem cleanActiveA_cached (s : ANodeState) (hs : cachedA s) :
    cachedA (cleanActiveA s) := by
  unfold cleanActiveA
  cases ha : s.active with
  | none => exact hs
  | some k =>
    cases hk : s.mcs[k]? with
    | none =>
      simp only [hk]
      exact fun i m hm => hs i m hm
    | some m0 =>
      simp only [hk]
      obtain ⟨hum, hup⟩ := MCAsy.mp_eq (MCAsy.unload_mp m0)
      obtain ⟨h1, h2⟩ := hs k m0 hk
      exact cachedA_set hs ⟨hum.trans h1, hup.trans h2⟩

theorem cleanActiveA_noInst (s : ANodeState) (hs : instOnlyActiveA s) :
    ∀ (i : Nat) (m : MCAsy), (cleanActiveA s).mcs[i]? = some m → m.hasInstance = false := by
  intro i m hget
  by_contra hne
  have hinst : m.hasInstance = true := by
    cases hm : m.hasInstance
    · exact absurd hm hne
    · rfl
  unfold cleanActiveA at hget
  cases ha : s.active with
  | none =>
    rw [ha] at hget
    simp at hget
    have := hs i m hget hinst
    rw [ha] at this
    exact Option.noConfusion this
  | some k =>
    rw [ha] at hget
    simp only at hget
    cases hk : s.mcs[k]? with
    | none =>
      rw [hk] at hget
      simp only at hget
      have := hs i m hget hinst
      rw [ha] at this
      have hik : k = i := by injection this
      rw [hik, hget] at hk
      exact Option.noConfusion hk
    | some m0 =>
      rw [hk] at hget
      simp only at hget
      by_cases hik : i = k
      · subst hik
        have hlen : i < s.mcs.length := (List.getElem?_eq_some.mp hk).1
        rw [List.getElem?_set_eq_of_lt _ hlen] at hget
        injection hget with h
        rw [← h] at hinst
        rw [MCAsy.unload_inst] at hinst
        exact Bool.noConfusion hinst
      · rw [List.getElem?_set_ne (fun h => hik h.symm)] at hget
        have := hs i m hget hinst
        rw [ha] at this
        injection this with h
        exact hik h.symm

theorem noInstA_instOnly {s : ANodeState}
    (h : ∀ (i : Nat) (m : MCAsy), s.mcs[i]? = some m → m.hasInstance = false) :
    instOnlyActiveA s := by
  intro i m hm hinst
  rw [h i m hm] at hinst
  exact Bool.noConfusion hinst

theorem noInstA_of_map_eq {l l' : List MCAsy}
    (hm : l'.map (·.hasInstance) = l.map (·.hasInstance))
    (h : ∀ (i : Nat) (m : MCAsy), l[i]? = some m → m.hasInstance = false) :
    ∀ (i : Nat) (m : MCAsy), l'[i]? = some m → m.hasInstance = false := by
  intro i m hget
  have hmi := map_eq_getElem? (fun x : MCAsy => x.hasInstance) hm i
  rw [hget] at hmi
  cases hg : l[i]? with
  | none => rw [hg] at hmi; simp at hmi
  | some m2 =>
    rw [hg] at hmi
    simp at hmi
    rw [hmi]
    exact h i m2 hg

theorem setSameA_preserves {s : ANodeState} (hs : instOnlyActiveA s) {i : Nat}
    {m x : MCAsy} (hm : s.mcs[i]? = some m) (hx : x.hasInstance = m.hasInstance) :
    instOnlyActiveA { s with mcs := s.mcs.set i x } := by
  intro i' m' hm' hinst
  by_cases hii : i' = i
  · subst hii
    have hlt : i' < s.mcs.length := (List.getElem?_eq_some.mp hm).1
    rw [List.getElem?_set_eq_of_lt _ hlt] at hm'
    injection hm' with h
    rw [← h, hx] at hinst
    exact hs i' m hm hinst
  · rw [List.getElem?_set_ne (fun hh => hii hh.symm)] at hm'
    exact hs i' m' hm' hinst

theorem setFalseA_preserves {s : ANodeState} (hs : instOnlyActiveA s) {i : Nat}
    {x : MCAsy} (hx : x.hasInstance = false) :
    instOnlyActiveA { s with mcs := s.mcs.set i x } := by
  intro i' m' hm' hinst
  by_cases hii : i' = i
  · subst hii
    by_cases hlt : i' < s.mcs.length
    · rw [List.getElem?_set_eq_of_lt _ hlt] at hm'
      injection hm' with h
      rw [← h, hx] at hinst
      exact Bool.noConfusion hinst
    · rw [List.set_eq_of_length_le (by omega)] at hm'
      exact hs i' m' hm' hinst
  · rw [List.getElem?_set_ne (fun hh => hii hh.symm)] at hm'
    exact hs i' m' hm' hinst

theorem loadMCA_cached (s : ANodeState) (j : Nat) (hs : cachedA s) :
    cachedA (loadMCA s j) := by
  unfold loadMCA
  cases hj : s.mcs[j]? with
  | none => simp only [hj]; exact hs
  | some m =>
    simp only [hj]
    obtain ⟨h1, h2⟩ := hs j m hj
    rw [MCAsy.load_cached m h1]
    obtain ⟨hom, hop⟩ := MCAsy.mp_eq (MCAsy.onLoad_mp m)
    exact cachedA_set hs ⟨hom.trans h1, hop.trans h2⟩

theorem setActiveA_cached (s : ANodeState) (j : Nat) (hs : cachedA s) :
    cachedA (setActiveA s j) := by
  unfold setActiveA
  by_cases h : s.active = some j
  · simpa [h] using hs
  · simp only [h, if_false]
    have hclean := cleanActiveA_cached s hs
    exact loadMCA_cached { cleanActiveA s with active := some j } j
      (fun i m hm => hclean i m hm)

theorem setActiveA_preserves (s : ANodeState) (j : Nat) (hs : instOnlyActiveA s) :
    instOnlyActiveA (setActiveA s j) := by
  unfold setActiveA
  by_cases h : s.active = some j
  · simpa [h] using hs
  · simp only [h, if_false]
    have hclean : ∀ (i : Nat) (m : MCAsy),
        (ANodeState.mk (cleanActiveA s).mcs (some j) (cleanActiveA s).availSubscribed).mcs[i]? =
          some m → m.hasInstance = false := by
      intro i m hm
      exact cleanActiveA_noInst s hs i m hm
    unfold loadMCA
    cases hj : (ANodeState.mk (cleanActiveA s).mcs (some j)
        (cleanActiveA s).availSubscribed).mcs[j]? with
    | none =>
      simp only [hj]
      exact noInstA_instOnly hclean
    | some m0 =>
      simp only [hj]
      intro i m hm hinst
      by_cases hij : i = j
      · subst hij
        rfl
      · rw [List.getElem?_set_ne (fun hh => hij hh.symm)] at hm
        rw [hclean i m hm] at hinst
        exact Bool.noConfusion hinst

theorem onModuleAvailableA_cached (s : ANodeState) (j : Nat) (hs : cachedA s) :
    cachedA (onModuleAvailableA s j) := by
  unfold onModuleAvailableA
  have hmap := scanBlockA_mp j s.mcs 0
  have hs' : cachedA { s with mcs := (scanBlockA j 0 s.mcs).1 } :=
    cachedA_of_map_eq hmap hs
  by_cases hb : (scanBlockA j 0 s.mcs).2
  · simpa [hb] using hs'
  · simp only [hb, Bool.false_eq_true, if_false]
    exact setActiveA_cached _ j hs'

theorem onModuleAvailableA_preserves (s : ANodeState) (j : Nat) (hs : instOnlyActiveA s) :
    instOnlyActiveA (onModuleAvailableA s j) := by
  unfold onModuleAvailableA
  have hmap := scanBlockA_inst j s.mcs 0
  have hs' : instOnlyActiveA { s with mcs := (scanBlockA j 0 s.mcs).1 } :=
    instOnlyActiveA_of_map_eq hmap rfl hs
  by_cases hb : (scanBlockA j 0 s.mcs).2
  · simpa [hb] using hs'
  · simp only [hb, Bool.false_eq_true, if_false]
    exact setActiveA_preserves _ j hs'

theorem onActiveModuleUnloadA_cached (s : ANodeState) (hs : cachedA s) :
    cachedA (onActiveModuleUnloadA s) := by
  unfold onActiveModuleUnloadA
  have h1 := cleanActiveA_cached s hs
  have h2 : cachedA { cleanActiveA s with mcs := (findSuitableA (cleanActiveA s).mcs).1 } :=
    cachedA_of_map_eq (findSuitableA_mp _) h1
  cases hq : (findSuitableA (cleanActiveA s).mcs).2 with
  | none => simpa [hq] using h2
  | some j =>
    simp only [hq]
    exact setActiveA_cached _ j h2

theorem onActiveModuleUnloadA_preserves (s : ANodeState) (hs : instOnlyActiveA s) :
    instOnlyActiveA (onActiveModuleUnloadA s) := by
  unfold onActiveModuleUnloadA
  have hclean := cleanActiveA_noInst s hs
  have hno : ∀ (i : Nat) (m : MCAsy),
      (findSuitableA (cleanActiveA s).mcs).1[i]? = some m → m.hasInstance = false :=
    noInstA_of_map_eq (findSuitableA_inst _) hclean
  have hs2 : instOnlyActiveA
      { cleanActiveA s with mcs := (findSuitableA (cleanActiveA s).mcs).1 } :=
    noInstA_instOnly hno
  cases hq : (findSuitableA (cleanActiveA s).mcs).2 with
  | none => simpa [hq] using hs2
  | some j =>
    simp only [hq]
    exact setActiveA_preserves _ j hs2

theorem onModulesReadyA_cached (s : ANodeState) (hs : cachedA s) :
    cachedA (onModulesReadyA s) := by
  unfold onModulesReadyA
  have h1 : cachedA { s with mcs := (findSuitableA s.mcs).1, availSubscribed := true } :=
    cachedA_of_map_eq (findSuitableA_mp _) hs
  cases hq : (findSuitableA s.mcs).2 with
  | none => simpa [hq] using h1
  | some j =>
    simp only [hq]
    exact setActiveA_cached _ j h1

theorem onModulesReadyA_preserves (s : ANodeState) (hs : instOnlyActiveA s) :
    instOnlyActiveA (onModulesReadyA s) := by
  unfold onModulesReadyA
  have hmap := findSuitableA_inst s.mcs
  have hs1 : instOnlyActiveA { s with mcs := (findSuitableA s.mcs).1, availSubscribed := true } :=
    instOnlyActiveA_of_map_eq hmap rfl hs
  cases hq : (findSuitableA s.mcs).2 with
  | none => simpa [hq] using hs1
  | some j =>
    simp only [hq]
    exact setActiveA_preserves _ j hs1

theorem unloadMCA_cached (s : ANodeState) (i : Nat) (hs : cachedA s) :
    cachedA (unloadMCA s i) := by
  unfold unloadMCA
  cases hm : s.mcs[i]? with
  | none => simpa [hm] using hs
  | some m =>
    simp only [hm]
    obtain ⟨h1, h2⟩ := hs i m hm
    obtain ⟨hum, hup⟩ := MCAsy.mp_eq (MCAsy.unload_mp m)
    have hs1 : cachedA { s with mcs := s.mcs.set i (m.unload).1 } :=
      cachedA_set hs ⟨hum.trans h1, hup.trans h2⟩
    split
    · exact onActiveModuleUnloadA_cached _ hs1
    · exact hs1

theorem unloadMCA_preserves (s : ANodeState) (i : Nat) (hs : instOnlyActiveA s) :
    instOnlyActiveA (unloadMCA s i) := by
  unfold unloadMCA
  cases hm : s.mcs[i]? with
  | none => simpa [hm] using hs
  | some m =>
    simp only [hm]
    have hs1 : instOnlyActiveA { s with mcs := s.mcs.set i (m.unload).1 } :=
      setFalseA_preserves hs (MCAsy.unload_inst m)
    split
    · exact onActiveModuleUnloadA_preserves _ hs1
    · exact hs1

theorem condChangeA_cached (s : ANodeState) (i : Nat) (b : Bool) (hs : cachedA s) :
    cachedA (condChangeA s i b) := by
  unfold condChangeA
  cases hm : s.mcs[i]? with
  | none => simpa [hm] using hs
  | some m =>
    simp only [hm]
    split
    · exact hs
    · split
      · exact hs
      · obtain ⟨h1, h2⟩ := hs i m hm
        have hs1 : cachedA { s with mcs := s.mcs.set i { m with suitable := b } } :=
          cachedA_set hs ⟨h1, h2⟩
        have hs2 : cachedA { s with mcs :=
            ((s.mcs.set i { m with suitable := b }).set i
              ⟨m.conditioned, b, true, m.hasModule, m.pending, m.hasInstance⟩) } :=
          cachedA_set hs1 ⟨h1, h2⟩
        split
        · exact unloadMCA_cached _ i hs1
        · split
          · split
            · exact onModuleAvailableA_cached _ i hs2
            · exact hs2
          · exact hs1

theorem condChangeA_preserves (s : ANodeState) (i : Nat) (b : Bool)
    (hs : instOnlyActiveA s) : instOnlyActiveA (condChangeA s i b) := by
  unfold condChangeA
  cases hm : s.mcs[i]? with
  | none => simpa [hm] using hs
  | some m =>
    simp only [hm]
    split
    · exact hs
    · split
      · exact hs
      · have hs1 : instOnlyActiveA { s with mcs := s.mcs.set i { m with suitable := b } } :=
          setSameA_preserves hs hm rfl
        have hlt : i < s.mcs.length := (List.getElem?_eq_some.mp hm).1
        have hm1 : ({ s with mcs := s.mcs.set i { m with suitable := b } } :
            ANodeState).mcs[i]? = some { m with suitable := b } := by
          simpa using List.getElem?_set_eq_of_lt ({ m with suitable := b }) hlt
        have hs2 : instOnlyActiveA { s with mcs :=
            ((s.mcs.set i { m with suitable := b }).set i
              ⟨m.conditioned, b, true, m.hasModule, m.pending, m.hasInstance⟩) } :=
          setSameA_preserves hs1 hm1 rfl
        split
        · exact unloadMCA_preserves _ i hs1
        · split
          · split
            · exact onModuleAvailableA_preserves _ i hs2
            · exact hs2
          · exact hs1

theorem requireDoneA_cached (s : ANodeState) (i : Nat) (hs : cachedA s) :
    cachedA (requireDoneA s i) := by
  unfold requireDoneA
  cases hm : s.mcs[i]? with
  | none => simpa [hm] using hs
  | some m =>
    simp only [hm]
    obtain ⟨h1, h2⟩ := hs i m hm
    rw [MCAsy.requireArrive_cached m h2]
    exact cachedA_set hs ⟨h1, h2⟩

theorem requireDoneA_preserves (s : ANodeState) (i : Nat) (hc : cachedA s)
    (hs : instOnlyActiveA s) : instOnlyActiveA (requireDoneA s i) := by
  unfold requireDoneA
  cases hm : s.mcs[i]? with
  | none => simpa [hm] using hs
  | some m =>
    simp only [hm]
    obtain ⟨_, h2⟩ := hc i m hm
    rw [MCAsy.requireArrive_cached m h2]
    exact setSameA_preserves hs hm rfl

theorem anodeStep_preserves (s : ANodeState) (e : AEvent)
    (h : cachedA s ∧ instOnlyActiveA s) :
    cachedA (anodeStep s e) ∧ instOnlyActiveA (anodeStep s e) := by
  obtain ⟨hc, hi⟩ := h
  cases e with
  | modulesReady => exact ⟨onModulesReadyA_cached s hc, onModulesReadyA_preserves s hi⟩
  | condChange i b => exact ⟨condChangeA_cached s i b hc, condChangeA_preserves s i b hi⟩
  | extUnload i => exact ⟨unloadMCA_cached s i hc, unloadMCA_preserves s i hi⟩
  | requireDone i => exact ⟨requireDoneA_cached s i hc, requireDoneA_preserves s i hc hi⟩

theorem anodeRun_preserves (s : ANodeState) (es : List AEvent)
    (h : cachedA s ∧ instOnlyActiveA s) :
    cachedA (anodeRun s es) ∧ instOnlyActiveA (anodeRun s es) := by
  induction es generalizing s with
  | nil => exact h
  | cons e es ih => exact ih (anodeStep s e) (anodeStep_preserves s e h)

theorem cleanActiveA_prev (s : ANodeState) (k : Nat) (ha : s.active = some k) :
    ∀ m : MCAsy, (cleanActiveA s).mcs[k]? = some m → m.hasInstance = false := by
  intro m hm
  unfold cleanActiveA at hm
  rw [ha] at hm
  simp only at hm
  cases hk : s.mcs[k]? with
  | none =>
    rw [hk] at hm
    simp only at hm
    rw [hk] at hm
    exact Option.noConfusion hm
  | some m0 =>
    rw [hk] at hm
    simp only at hm
    have hlt : k < s.mcs.length := (List.getElem?_eq_some.mp hk).1
    rw [List.getElem?_set_eq_of_lt _ hlt] at hm
    injection hm with h
    rw [← h]
    exact MCAsy.unload_inst m0

theorem loadMCA_active (s : ANodeState) (j : Nat) : (loadMCA s j).active = s.active := by
  unfold loadMCA
  cases h : s.mcs[j]? <;> simp [h]

theorem loadMCA_getElem_ne (s : ANodeState) (j k : Nat) (h : k ≠ j) :
    (loadMCA s j).mcs[k]? = s.mcs[k]? := by
  unfold loadMCA
  cases hj : s.mcs[j]? with
  | none => simp
  | some m0 =>
    simp only [hj]
    exact List.getElem?_set_ne (fun hh => h hh.symm)

/-- C1 counterexample: with the asynchronous `require` of
`ModuleController.load` modelled (Conditioner.js 1404-1424), two
controllers of one `Node` can both hold live implementation instances.
Controller 0 is unconditioned and suitable, controller 1 conditioned
and initially unsuitable.  `_onModulesReady` elects 0, whose `load()`
issues a require and returns; a conditions change then makes 1
available, the `_onModuleAvailable` guard loop skips 0 because it is
not conditioned, and `_setActiveModuleController` elects 1 — the
unload of 0 publishes nothing (it holds no instance yet) and does not
cancel 0's in-flight require.  When the two require callbacks arrive,
each runs `_onLoad`, whose only abort condition is the fresh
`isAvailable()` suitability re-check (line 1433-1436), not being the
elected controller; both pass and both instantiate, though only
controller 1 is active. -/
theorem displaced_pending_load_two_instances :
    ((anodeRun (initNodeA [⟨false, true, false, false, 0, false⟩,
        ⟨true, false, false, false, 0, false⟩])
      [.modulesReady, .condChange 1 true, .requireDone 0, .requireDone 1]).mcs.map
        (fun m => m.hasInstance)) = [true, true] ∧
    (anodeRun (initNodeA [⟨false, true, false, false, 0, false⟩,
        ⟨true, false, false, false, 0, false⟩])
      [.modulesReady, .condChange 1 true, .requireDone 0, .requireDone 1]).active =
        some 1 := by
  decide

/-- C1 (amended): when every `ModuleController` starts with its module
already cached (`_Module` set, no require in flight) and no live
instance — the regime in which `load()` runs `_onLoad` synchronously —
every state reachable from initialisation by any sequence of
modules-ready, conditions-change, unload and require-callback events
has at most one controller holding a live implementation instance; and
`_setActiveModuleController` always tears the previous active binding
down first: after electing `j` while `k ≠ j` was active, the new
active reference is `j` and the previous binding `k` has been unloaded
(no live instance).  Without the cached-module hypothesis the
uniqueness claim is false: see `displaced_pending_load_two_instances`
for a run reaching two live instances. -/
theorem at_most_one_active_instance_cached (mcs0 : List MCAsy)
    (h0 : ∀ m ∈ mcs0, m.hasModule = true ∧ m.pending = 0 ∧ m.hasInstance = false)
    (es : List AEvent) :
    (∀ (i j : Nat) (mi mj : MCAsy),
      (anodeRun (initNodeA mcs0) es).mcs[i]? = some mi →
      (anodeRun (initNodeA mcs0) es).mcs[j]? = some mj →
      mi.hasInstance = true → mj.hasInstance = true → i = j) ∧
    (∀ (s : ANodeState) (j k : Nat), s.active = some k → k ≠ j →
      (setActiveA s j).active = some j ∧
      ∀ m : MCAsy, (setActiveA s j).mcs[k]? = some m → m.hasInstance = false) := by
  constructor
  · have hinit : cachedA (initNodeA mcs0) ∧ instOnlyActiveA (initNodeA mcs0) := by
      constructor
      · intro i m hm
        have hmem : m ∈ mcs0 := by
          obtain ⟨hl, he⟩ := List.getElem?_eq_some.mp hm
          exact he ▸ List.getElem_mem hl
        exact ⟨(h0 m hmem).1, (h0 m hmem).2.1⟩
      · intro i m hm hinst
        have hmem : m ∈ mcs0 := by
          obtain ⟨hl, he⟩ := List.getElem?_eq_some.mp hm
          exact he ▸ List.getElem_mem hl
        rw [(h0 m hmem).2.2] at hinst
        exact Bool.noConfusion hinst
    have hrun := (anodeRun_preserves _ es hinit).2
    intro i j mi mj hi hj hii hjj
    have h1 := hrun i mi hi hii
    have h2 := hrun j mj hj hjj
    rw [h1] at h2
    injection h2
  · intro s j k hak hkj
    have hne : ¬s.active = some j := by
      rw [hak]
      intro h
      injection h with h
      exact hkj h
    unfold setActiveA
    rw [if_neg hne]
    constructor
    · rw [loadMCA_active]
    · intro m hm
      rw [loadMCA_getElem_ne _ _ _ hkj] at hm
      exact cleanActiveA_prev s k hak m hm

/-- Witness for `at_most_one_active_instance_cached`: two conditioned
suitable controllers with cached modules; after initialisation, in the
state where 0 is active, electing controller 1 leaves 1 active with 0
unloaded. -/
theorem at_most_one_active_instance_cached_witness :
    (setActiveA ⟨[⟨true, true, true, true, 0, true⟩, ⟨true, true, false, true, 0, false⟩],
        some 0, true⟩ 1).active = some 1 :=
  ((at_most_one_active_instance_cached
      [⟨true, true, false, true, 0, false⟩, ⟨true, true, false, true, 0, false⟩] (by decide)
      [.modulesReady]).2
      ⟨[⟨true, true, true, true, 0, true⟩, ⟨true, true, false, true, 0, false⟩], some 0, true⟩
      1 0 rfl (by decide)).1

theorem scanBlock_blocked (j : Nat) (l : List MCArb) :
    ∀ (k i : Nat) (mi : MCArb), l[i]? = some mi → k + i ≠ j →
      mi.suitable = true → mi.conditioned = true → (scanBlock j k l).2 = true := by
  induction l with
  | nil =>
    intro k i mi h
    simp at h
  | cons m rest ih =>
    intro k i mi hget hne hsuit hcond
    by_cases hk : k = j
    · cases i with
      | zero => exact absurd hk (by simpa using hne)
      | succ i' =>
        subst hk
        simp only [scanBlock, if_pos rfl]
        exact ih (k + 1) i' mi (by simpa using hget) (by omega) hsuit hcond
    · cases i with
      | zero =>
        have hmi : m = mi := by simpa using hget
        subst hmi
        simp [scanBlock, hk, MCArb.isAvailable, hsuit, hcond]
      | succ i' =>
        by_cases hb : (m.isAvailable).2 && m.conditioned
        · simp [scanBlock, hk, hb]
        · simp only [scanBlock, if_neg hk, hb, Bool.false_eq_true, if_false]
          exact ih (k + 1) i' mi (by simpa using hget) (by omega) hsuit hcond

/-- C2: a newly-available binding `j` is elected only if no *other*
conditioned binding is currently available (in particular no
higher-priority one): whenever some conditioned binding `i ≠ j` is
available, `_onModuleAvailable(j)` leaves the active reference exactly
as it was.  Concretely, with conditioned bindings `[A, B]` both
suitable, the initial first-fit scan elects `A` (index 0) and loads it,
and `B` later reporting `available` again leaves `A` active. -/
theorem no_preemption_by_available :
    (∀ (s : NodeState) (j i : Nat) (mi : MCArb), i ≠ j → s.mcs[i]? = some mi →
      mi.suitable = true → mi.conditioned = true →
      (onModuleAvailable s j).active = s.active) ∧
    (nodeRun (initNode [⟨true, true, false, false⟩, ⟨true, true, false, false⟩])
        [.modulesReady]).active = some 0 ∧
    ((nodeRun (initNode [⟨true, true, false, false⟩, ⟨true, true, false, false⟩])
        [.modulesReady]).mcs[0]?.map (·.hasInstance)) = some true ∧
    (nodeRun (initNode [⟨true, true, false, false⟩, ⟨true, true, false, false⟩])
        [.modulesReady, .condChange 1 false, .condChange 1 true]).active = some 0 ∧
    ((nodeRun (initNode [⟨true, true, false, false⟩, ⟨true, true, false, false⟩])
        [.modulesReady, .condChange 1 false, .condChange 1 true]).mcs[0]?.map
          (·.hasInstance)) = some true := by
  refine ⟨?_, rfl, rfl, rfl, rfl⟩
  intro s j i mi hij hget hsuit hcond
  have hb : (scanBlock j 0 s.mcs).2 = true :=
    scanBlock_blocked j s.mcs 0 i mi hget (by omega) hsuit hcond
  unfold onModuleAvailable
  simp [hb]

/-- Witness for `no_preemption_by_available`: in the two-binding state
where 0 is active and both are conditioned and suitable, an
`available` report from binding 1 changes nothing. -/
theorem no_preemption_by_available_witness :
    (onModuleAvailable ⟨[⟨true, true, true, true⟩, ⟨true, true, false, false⟩],
        some 0, true⟩ 1).active = some 0 :=
  (no_preemption_by_available).1
    ⟨[⟨true, true, true, true⟩, ⟨true, true, false, false⟩], some 0, true⟩
    1 0 ⟨true, true, true, true⟩ (by decide) rfl rfl rfl

end Conditioner

namespace Conditioner

/-! ### Theorems for C3, C4, C8, C10 (partial file; claims appear below) -/

/-- C3: `execute(method, params)` returns `{status:404, response:null}`
without raising when no live instance exists; raises when an instance
exists but has no property named `method`; returns
`{status:200, response}` with the method's return value otherwise; and
`Node.execute` delegates to the active controller's `execute`, or
returns the same 404 sentinel when none is active. -/
theorem execute_contract {α : Type} (inst : ModuleInstance α)
    (method : String) (params : List α) :
    mcExecute (α := α) none method params = .ok ⟨404, none⟩ ∧
    (inst.methods method = none →
      ∃ msg, mcExecute (some inst) method params = .error msg) ∧
    (∀ F, inst.methods method = some F →
      mcExecute (some inst) method params = .ok ⟨200, some (F params)⟩) ∧
    (∀ mc, nodeExecute (some mc) method params = mcExecute mc method params) ∧
    nodeExecute (α := α) none method params = .ok ⟨404, none⟩ := by
  refine ⟨rfl, ?_, ?_, ?_, rfl⟩
  · intro h
    simp [mcExecute, h]
  · intro F h
    simp [mcExecute, h]
  · intro mc
    rfl

/-- Witness for `execute_contract` at a concrete instance with one
method `"m"` summing its parameters. -/
theorem execute_contract_witness :
    (mcExecute (α := Nat) none "m" [1, 2] = .ok ⟨404, none⟩) ∧
    (∃ msg, mcExecute (some ⟨fun _ => none⟩) "m" ([] : List Nat) = .error msg) ∧
    (mcExecute (some ⟨fun s => if s = "m" then some (fun ps => ps.foldl (· + ·) 0) else none⟩)
      "m" [1, 2] = .ok ⟨200, some 3⟩) := by
  refine ⟨(execute_contract (α := Nat) ⟨fun _ => none⟩ "m" [1, 2]).1, ?_, ?_⟩
  · exact (execute_contract (α := Nat) ⟨fun _ => none⟩ "m" []).2.1 rfl
  · exact (execute_contract (α := Nat)
      ⟨fun s => if s = "m" then some (fun ps => ps.foldl (· + ·) 0) else none⟩ "m"
      [1, 2]).2.2.1 (fun ps => ps.foldl (· + ·) 0) rfl

/-- C4 counterexample: on a leaf with no tester assigned,
`succeeds()` does *not* return `false` — the property access
`this._expression.succeeds` on `null` throws. -/
theorem unresolved_leaf_succeeds_throws :
    (mkLeafExpr "a" "1" false).succeeds =
      .error "TypeError: Cannot read property succeeds of null" ∧
    (mkLeafExpr "a" "1" false).succeeds ≠ .ok false := by
  refine ⟨rfl, fun h => ?_⟩
  simp [mkLeafExpr, LeafExpr.succeeds] at h

/-- C4 (amended): `succeeds()` on a leaf *throws* while no tester has
been assigned; once an object is bound, it returns `false` if the object
exposes no `succeeds` capability, and the object's boolean result XORed
with the negation flag otherwise. -/
theorem leaf_succeeds_cases (path value : String) (negate : Bool) (t : TestObj) :
    (mkLeafExpr path value negate).succeeds =
      .error "TypeError: Cannot read property succeeds of null" ∧
    (t.succeedsFn = none →
      ((mkLeafExpr path value negate).assignTester t).succeeds = .ok false) ∧
    (∀ r, t.succeedsFn = some r →
      ((mkLeafExpr path value negate).assignTester t).succeeds = .ok (xor r negate)) := by
  refine ⟨rfl, ?_, ?_⟩
  · intro h
    simp [mkLeafExpr, LeafExpr.assignTester, LeafExpr.succeeds, h]
  · intro r h
    simp [mkLeafExpr, LeafExpr.assignTester, LeafExpr.succeeds, h]

/-- Witness for `leaf_succeeds_cases` at concrete inputs. -/
theorem leaf_succeeds_cases_witness :
    (((mkLeafExpr "a" "1" true).assignTester ⟨none⟩).succeeds = .ok false) ∧
    (((mkLeafExpr "a" "1" true).assignTester ⟨some true⟩).succeeds = .ok false) := by
  refine ⟨(leaf_succeeds_cases "a" "1" true ⟨none⟩).2.1 rfl, ?_⟩
  have h := (leaf_succeeds_cases "a" "1" true ⟨some true⟩).2.2 true rfl
  simpa using h

/-- C8: `unload()` returns `false` with no `unload` event when no live
instance exists; otherwise it detaches propagation, invokes the
instance's own teardown hook iff present, drops the instance (so
`isActive()` becomes false), publishes exactly one `unload` event, and
returns `true`. -/
theorem unload_contract (m : MCUnloadState) :
    (m.moduleInstance = none →
      (mcUnload m).returned = false ∧ (mcUnload m).publishedUnload = false) ∧
    (∀ inst, m.moduleInstance = some inst →
      (mcUnload m).returned = true ∧
      (mcUnload m).publishedUnload = true ∧
      (mcUnload m).hookInvoked = inst.hasUnloadHook ∧
      (mcUnload m).st.propagationWired = false ∧
      mcIsActiveU (mcUnload m).st = false) := by
  constructor
  · intro h
    simp [mcUnload, h]
  · intro inst h
    simp [mcUnload, h, mcIsActiveU]

/-- C5: from the Ready state, every `test()` recomputes the verdict by
evaluating the full expression tree; the stored verdict is updated and
exactly one `change` event is published iff the recomputed verdict
differs from the stored one, and re-testing with unchanged tester
results publishes nothing. -/
theorem test_recompute_change_iff (f : String → String → Bool)
    (cm : CMState) (e : Tok) (s : Bool)
    (he : cm.expression = some e) (hs : e.succeedsWith f = .ok s) :
    cmTest f cm = .ok ({ cm with suitable := s }, s != cm.suitable) ∧
    cmTest f { cm with suitable := s } = .ok ({ cm with suitable := s }, false) := by
  constructor
  · by_cases h : s = cm.suitable
    · subst h
      simp [cmTest, he, hs]
      rw [← he]
    · simp [cmTest, he, hs, h, bne_iff_ne]
  · simp [cmTest, he, hs]

/-- Witness for `test_recompute_change_iff`: a ready manager over the
single leaf `a:{1}` whose tester flips to `true`: one `change` event
fires and the stored verdict becomes `true`; a second `test` is
silent. -/
theorem test_recompute_change_iff_witness :
    cmTest (fun _ _ => true) ⟨false, true, some (Tok.expr (.uleaf "a" "1" false)), 0⟩ =
      .ok (⟨true, true, some (Tok.expr (.uleaf "a" "1" false)), 0⟩, true) ∧
    cmTest (fun _ _ => true) ⟨true, true, some (Tok.expr (.uleaf "a" "1" false)), 0⟩ =
      .ok (⟨true, true, some (Tok.expr (.uleaf "a" "1" false)), 0⟩, false) := by
  have h := test_recompute_change_iff (fun _ _ => true)
    ⟨false, true, some (Tok.expr (.uleaf "a" "1" false)), 0⟩
    (Tok.expr (.uleaf "a" "1" false)) true rfl rfl
  exact ⟨h.1, h.2⟩

/-- C6 counterexample: with `conditions: null` — exactly what
`Node._createModuleControllers` (Conditioner.js 1839) passes when the
element has no `data-conditions` attribute — `isConditioned()` returns
`true` although no expression was supplied (the conditions manager
built from it is the unconditioned, permanently suitable one). -/
theorem isConditioned_null_without_expression :
    isConditioned ⟨.nullv⟩ = true ∧ suppliedExpression ⟨.nullv⟩ = false ∧
    mkConditionsManager .nullv = .ok ⟨true, false, none, 0⟩ :=
  ⟨rfl, rfl, rfl⟩

/-- C6 (amended): a `ConditionsManager` constructed without a condition
*string* (`undefined` or `null`) is immediately and permanently
suitable — `getSuitability()` is `true` from construction onward and no
tester-change notification can alter it, because no subscription was
made — while `isConditioned()` returns `true` iff the `conditions`
option is not `undefined` (so also for a supplied `null`, which carries
no expression). -/
theorem unconditioned_suitable_isConditioned_undef :
    (mkConditionsManager .undef = .ok ⟨true, false, none, 0⟩) ∧
    (mkConditionsManager .nullv = .ok ⟨true, false, none, 0⟩) ∧
    getSuitability ⟨true, false, none, 0⟩ = true ∧
    (∀ fs : List (String → String → Bool),
      fs.foldlM (fun m f => cmProbeChange f m) (⟨true, false, none, 0⟩ : CMState) =
        .ok ⟨true, false, none, 0⟩) ∧
    (∀ o : MCOptions, isConditioned o = true ↔ o.conditions ≠ .undef) := by
  refine ⟨rfl, rfl, rfl, ?_, ?_⟩
  · intro fs
    induction fs with
    | nil => rfl
    | cons f fs ih => simpa [List.foldlM, cmProbeChange] using ih
  · intro o
    obtain ⟨c⟩ := o
    cases c <;> simp [isConditioned]

/-- C10: a condition string containing no occurrence of `:{` — the
empty string included — makes `getExpressionsCount` throw (`match`
returns `null`, and `.length` is read off it), so `ConditionsManager`
construction with such a string fails instead of yielding an evaluator
with zero pending leaves. -/
theorem no_leaf_open_throws (s : String) (h : countLeafOpens s.data = 0) :
    getExpressionsCount s = .error "TypeError: Cannot read property length of null" ∧
    mkConditionsManager (.str s) =
      .error "TypeError: Cannot read property length of null" := by
  constructor
  · simp [getExpressionsCount, h]
  · simp [mkConditionsManager, getExpressionsCount, h]

/-- Witness for `no_leaf_open_throws` on the empty string and on a
marker-free nonempty string. -/
theorem no_leaf_open_throws_witness :
    countLeafOpens "".data = 0 ∧
    mkConditionsManager (.str "") =
      .error "TypeError: Cannot read property length of null" ∧
    mkConditionsManager (.str "a and b") =
      .error "TypeError: Cannot read property length of null" :=
  ⟨rfl, (no_leaf_open_throws "" rfl).2, (no_leaf_open_throws "a and b" rfl).2⟩

/-- Witness for `unload_contract` on an inactive and on an active
controller. -/
theorem unload_contract_witness :
    ((mcUnload ⟨true, none, false⟩).returned = false ∧
      (mcUnload ⟨true, none, false⟩).publishedUnload = false) ∧
    ((mcUnload ⟨true, some ⟨true⟩, true⟩).returned = true ∧
      (mcUnload ⟨true, some ⟨true⟩, true⟩).publishedUnload = true ∧
      (mcUnload ⟨true, some ⟨true⟩, true⟩).hookInvoked = true ∧
      (mcUnload ⟨true, some ⟨true⟩, true⟩).st.propagationWired = false ∧
      mcIsActiveU (mcUnload ⟨true, some ⟨true⟩, true⟩).st = false) :=
  ⟨(unload_contract ⟨true, none, false⟩).1 rfl,
    (unload_contract ⟨true, some ⟨true⟩, true⟩).2 ⟨true⟩ rfl⟩

/-! ### Lemmas about `Utils.mergeObjects` (towards C9) -/

theorem exceptBind_ok {ε α β : Type} (v : α) (g : α → Except ε β) :
    bind (Except.ok v) g = g v := rfl

theorem exceptBind_err {ε α β : Type} (e : ε) (g : α → Except ε β) :
    bind (Except.error e) g = (Except.error e : Except ε β) := rfl

theorem getKey_setKey_self (d : List (String × JVal)) (k : String) (v : JVal) :
    getKey (setKey d k v) k = some v := by
  induction d with
  | nil => simp [setKey, getKey]
  | cons p d ih =>
    obtain ⟨k', w⟩ := p
    by_cases hk : (k' == k) = true
    · simp [setKey, getKey, hk]
    · simp only [setKey, hk, Bool.false_eq_true, if_false]
      simp [getKey, hk, ih]

theorem getKey_setKey_ne (d : List (String × JVal)) (k k' : String) (v : JVal)
    (h : k' ≠ k) : getKey (setKey d k' v) k = getKey d k := by
  induction d with
  | nil => simp [setKey, getKey, h]
  | cons p d ih =>
    obtain ⟨k0, w⟩ := p
    by_cases hk : (k0 == k') = true
    · have hk0 : k0 = k' := by simpa using hk
      subst hk0
      simp [setKey, getKey, h]
    · simp only [setKey, hk, Bool.false_eq_true, if_false]
      by_cases hk2 : (k0 == k) = true
      · simp [getKey, hk2]
      · simp [getKey, hk2, ih]

theorem mergeObjLoop_not_mem (t s : JVal) (k : String) :
    ∀ (ks : List String) (dst ds : List (String × JVal)), k ∉ ks →
      mergeObjLoop t s ks dst = .ok ds → getKey ds k = getKey dst k := by
  intro ks
  induction ks with
  | nil =>
    intro dst ds _ h
    rw [mergeObjLoop] at h
    injection h with h
    rw [h]
  | cons key rest ih =>
    intro dst ds hmem h
    have hkey : key ≠ k := fun hh => hmem (hh ▸ List.mem_cons_self key rest)
    have hrest : k ∉ rest := fun hh => hmem (List.mem_cons_of_mem key hh)
    rw [mergeObjLoop] at h
    split at h
    · rw [ih _ _ hrest h, getKey_setKey_ne _ _ _ _ hkey]
    · cases hr : readProp t key with
      | error msg =>
        rw [hr, exceptBind_err] at h
        exact Except.noConfusion h
      | ok tv =>
        rw [hr] at h
        rw [exceptBind_ok] at h
        split at h
        · rw [ih _ _ hrest h, getKey_setKey_ne _ _ _ _ hkey]
        · cases hm : mergeObjects tv (getProp s key) with
          | error msg => rw [hm, exceptBind_err] at h; exact Except.noConfusion h
          | ok mv =>
            rw [hm] at h
            rw [exceptBind_ok] at h
            rw [ih _ _ hrest h, getKey_setKey_ne _ _ _ _ hkey]

theorem readProp_ok (t : JVal) (key : String) (tv : JVal)
    (h : readProp t key = .ok tv) : tv = getProp t key := by
  cases t <;> first
    | exact Except.noConfusion h
    | (injection h with h; exact h.symm)

theorem mergeObjLoop_key (t s : JVal) (k : String) :
    ∀ (ks : List String) (dst ds : List (String × JVal)), ks.Nodup → k ∈ ks →
      mergeObjLoop t s ks dst = .ok ds →
      (¬(isObjectType (getProp s k) = true ∧ jtruthy (getProp s k) = true) →
        getKey ds k = some (getProp s k)) ∧
      ((isObjectType (getProp s k) = true ∧ jtruthy (getProp s k) = true) →
        jtruthy (getProp t k) = false → getKey ds k = some (getProp s k)) ∧
      ((isObjectType (getProp s k) = true ∧ jtruthy (getProp s k) = true) →
        jtruthy (getProp t k) = true →
        ∃ mv, mergeObjects (getProp t k) (getProp s k) = .ok mv ∧
          getKey ds k = some mv) := by
  intro ks
  induction ks with
  | nil =>
    intro dst ds _ hmem
    exact absurd hmem (List.not_mem_nil k)
  | cons key rest ih =>
    intro dst ds hnd hmem h
    by_cases hk : key = k
    · subst hk
      have hrest : key ∉ rest := (List.nodup_cons.mp hnd).1
      rw [mergeObjLoop] at h
      split at h
      · rename_i hcond
        have hval := mergeObjLoop_not_mem t s key rest _ _ hrest h
        rw [getKey_setKey_self] at hval
        refine ⟨fun _ => hval, fun hobj _ => ?_, fun hobj _ => ?_⟩ <;>
          · rw [Bool.or_eq_true] at hcond
            rcases hcond with hc | hc <;> rw [Bool.not_eq_true'] at hc
            · rw [hobj.1] at hc; exact Bool.noConfusion hc
            · rw [hobj.2] at hc; exact Bool.noConfusion hc
      · rename_i hcond
        rw [Bool.not_eq_true, Bool.or_eq_false_iff] at hcond
        obtain ⟨hc1, hc2⟩ := hcond
        rw [Bool.not_eq_false'] at hc1 hc2
        cases hr : readProp t key with
        | error msg =>
          rw [hr, exceptBind_err] at h
          exact Except.noConfusion h
        | ok tv =>
          have htv := readProp_ok t key tv hr
          subst htv
          rw [hr, exceptBind_ok] at h
          split at h
          · rename_i hfal
            rw [Bool.not_eq_true'] at hfal
            have hval := mergeObjLoop_not_mem t s key rest _ _ hrest h
            rw [getKey_setKey_self] at hval
            refine ⟨fun hc => absurd ⟨hc1, hc2⟩ hc, fun _ _ => hval,
              fun _ htru => ?_⟩
            rw [htru] at hfal
            exact Bool.noConfusion hfal
          · rename_i hfal
            rw [Bool.not_eq_true'] at hfal
            simp only [Bool.not_eq_false] at hfal
            cases hm : mergeObjects (getProp t key) (getProp s key) with
            | error msg => rw [hm, exceptBind_err] at h; exact Except.noConfusion h
            | ok mv =>
              rw [hm] at h
              rw [exceptBind_ok] at h
              have hval := mergeObjLoop_not_mem t s key rest _ _ hrest h
              rw [getKey_setKey_self] at hval
              refine ⟨fun hc => absurd ⟨hc1, hc2⟩ hc,
                fun _ hfalse => ?_, fun _ _ => ⟨mv, rfl, hval⟩⟩
              rw [hfalse] at hfal
              exact Bool.noConfusion hfal
    · have hmem' : k ∈ rest := by
        cases List.mem_cons.mp hmem with
        | inl hh => exact absurd hh.symm hk
        | inr hh => exact hh
      have hnd' : rest.Nodup := (List.nodup_cons.mp hnd).2
      rw [mergeObjLoop] at h
      split at h
      · exact ih _ _ hnd' hmem' h
      · cases hr : readProp t key with
        | error msg =>
          rw [hr, exceptBind_err] at h
          exact Except.noConfusion h
        | ok tv =>
          rw [hr, exceptBind_ok] at h
          split at h
          · exact ih _ _ hnd' hmem' h
          · cases hm : mergeObjects tv (getProp s key) with
            | error msg => rw [hm, exceptBind_err] at h; exact Except.noConfusion h
            | ok mv =>
              rw [hm] at h
              rw [exceptBind_ok] at h
              exact ih _ _ hnd' hmem' h

theorem setIdx_length (l : List JVal) (i : Nat) (v : JVal) :
    i < (setIdx l i v).length ∧ l.length ≤ (setIdx l i v).length := by
  unfold setIdx
  split
  · rw [List.length_set]
    omega
  · simp only [List.length_append, List.length_replicate, List.length_cons,
      List.length_nil]
    omega

theorem setIdx_getElem_self (l : List JVal) (i : Nat) (v : JVal) :
    (setIdx l i v)[i]? = some v := by
  unfold setIdx
  split
  · exact List.getElem?_set_eq_of_lt v (by assumption)
  · rename_i hge
    rw [List.getElem?_append_right
      (by simp only [List.length_append, List.length_replicate]; omega)]
    simp only [List.length_append, List.length_replicate]
    have : i - (l.length + (i - l.length)) = 0 := by omega
    rw [this]
    rfl

theorem setIdx_getElem_lt (l : List JVal) (i : Nat) (v : JVal) (j : Nat)
    (hj : j < l.length) (hne : j ≠ i) : (setIdx l i v)[j]? = l[j]? := by
  unfold setIdx
  split
  · exact List.getElem?_set_ne (fun h => hne h.symm)
  · rw [List.getElem?_append_left (by simp only [List.length_append]; omega),
      List.getElem?_append_left hj]

theorem mergeArrLoop_preserve (t : JVal) (es : List JVal) :
    ∀ (i : Nat) (dst ds : List JVal), mergeArrLoop t i dst es = .ok ds →
      ∀ j, j < i → j < dst.length → ds[j]? = dst[j]? := by
  induction es with
  | nil =>
    intro i dst ds h j _ _
    rw [mergeArrLoop] at h
    injection h with h
    rw [h]
  | cons e rest ih =>
    intro i dst ds h j hji hjd
    rw [mergeArrLoop] at h
    split at h
    · cases hm : mergeObjects (arrIdx t i) e with
      | error msg => rw [hm, exceptBind_err] at h; exact Except.noConfusion h
      | ok me =>
        rw [hm, exceptBind_ok] at h
        have h1 := ih (i + 1) _ _ h j (by omega)
          (lt_of_lt_of_le hjd (setIdx_length dst i me).2)
        rw [h1, setIdx_getElem_lt _ _ _ _ hjd (by omega)]
    · cases ha : jIndexOfAbsent t e with
      | error msg => rw [ha, exceptBind_err] at h; exact Except.noConfusion h
      | ok ab =>
        rw [ha, exceptBind_ok] at h
        split at h
        · have h1 := ih (i + 1) _ _ h j (by omega)
            (by rw [List.length_append]; omega)
          rw [h1, List.getElem?_append_left hjd]
        · exact ih (i + 1) _ _ h j (by omega) hjd

theorem mergeArrLoop_obj (t : JVal) (es : List JVal) :
    ∀ (i0 : Nat) (dst ds : List JVal), mergeArrLoop t i0 dst es = .ok ds →
      ∀ (k : Nat) (e : JVal), es[k]? = some e → isObjectType e = true →
        ∃ me, mergeObjects (arrIdx t (i0 + k)) e = .ok me ∧
          ds[i0 + k]? = some me := by
  induction es with
  | nil =>
    intro i0 dst ds h k e hk
    simp at hk
  | cons e0 rest ih =>
    intro i0 dst ds h k e hk hobj
    rw [mergeArrLoop] at h
    cases k with
    | zero =>
      have he0 : e0 = e := by simpa using hk
      subst he0
      rw [if_pos hobj] at h
      cases hm : mergeObjects (arrIdx t i0) e0 with
      | error msg => rw [hm, exceptBind_err] at h; exact Except.noConfusion h
      | ok me =>
        rw [hm, exceptBind_ok] at h
        refine ⟨me, by rw [Nat.add_zero]; exact hm, ?_⟩
        have hpres := mergeArrLoop_preserve t rest (i0 + 1) _ _ h i0 (by omega)
          (setIdx_length dst i0 me).1
        rw [Nat.add_zero, hpres, setIdx_getElem_self]
    | succ k' =>
      have hk' : rest[k']? = some e := by simpa using hk
      have heq : i0 + (k' + 1) = (i0 + 1) + k' := by omega
      split at h
      · cases hm : mergeObjects (arrIdx t i0) e0 with
        | error msg => rw [hm, exceptBind_err] at h; exact Except.noConfusion h
        | ok me =>
          rw [hm, exceptBind_ok] at h
          rw [heq]
          exact ih (i0 + 1) _ _ h k' e hk' hobj
      · cases ha : jIndexOfAbsent t e0 with
        | error msg => rw [ha, exceptBind_err] at h; exact Except.noConfusion h
        | ok ab =>
          rw [ha, exceptBind_ok] at h
          split at h <;>
            · rw [heq]
              exact ih (i0 + 1) _ _ h k' e hk' hobj

theorem mergeArrLoop_scalars (ts : List JVal) (es : List JVal)
    (hsc : ∀ e ∈ es, isObjectType e = false) :
    ∀ (i : Nat) (dst : List JVal), mergeArrLoop (.varr ts) i dst es =
      .ok (dst ++ es.filter fun e => ts.all fun x => !jStrictEq x e) := by
  induction es with
  | nil =>
    intro i dst
    rw [mergeArrLoop]
    simp
  | cons e rest ih =>
    intro i dst
    have he : isObjectType e = false := hsc e (List.mem_cons_self e rest)
    have hrest : ∀ e' ∈ rest, isObjectType e' = false :=
      fun e' h' => hsc e' (List.mem_cons_of_mem e h')
    rw [mergeArrLoop]
    rw [if_neg (by rw [he]; exact fun hh => Bool.noConfusion hh)]
    rw [show jIndexOfAbsent (.varr ts) e = .ok (ts.all fun x => !jStrictEq x e) from rfl]
    rw [exceptBind_ok]
    by_cases hab : (ts.all fun x => !jStrictEq x e) = true
    · rw [if_pos hab, ih hrest (i + 1)]
      have hf : List.filter (fun e' => ts.all fun x => !jStrictEq x e') (e :: rest) =
          e :: List.filter (fun e' => ts.all fun x => !jStrictEq x e') rest := by
        simp [List.filter_cons, hab]
      rw [hf]
      simp
    · rw [if_neg hab, ih hrest (i + 1)]
      have hf : List.filter (fun e' => ts.all fun x => !jStrictEq x e') (e :: rest) =
          List.filter (fun e' => ts.all fun x => !jStrictEq x e') rest := by
        simp [List.filter_cons, hab]
      rw [hf]

theorem getKey_some_mem (sf : List (String × JVal)) (k : String) (sv : JVal)
    (h : getKey sf k = some sv) : k ∈ sf.map Prod.fst := by
  induction sf with
  | nil => simp [getKey] at h
  | cons p rest ih =>
    obtain ⟨k0, v0⟩ := p
    rw [getKey] at h
    by_cases hk : (k0 == k) = true
    · have : k0 = k := by simpa using hk
      subst this
      simp
    · rw [if_neg hk] at h
      simp only [List.map_cons, List.mem_cons]
      exact Or.inr (ih h)

theorem getKey_none_not_mem (sf : List (String × JVal)) (k : String)
    (h : getKey sf k = none) : k ∉ sf.map Prod.fst := by
  induction sf with
  | nil => simp
  | cons p rest ih =>
    obtain ⟨k0, v0⟩ := p
    rw [getKey] at h
    by_cases hk : (k0 == k) = true
    · rw [if_pos hk] at h
      exact Option.noConfusion h
    · rw [if_neg hk] at h
      simp only [List.map_cons, List.mem_cons]
      rintro (rfl | hmem)
      · exact hk (by simp)
      · exact ih h hmem

theorem mergeObjects_vobj_eq (tf sf : List (String × JVal)) :
    mergeObjects (.vobj tf) (.vobj sf) =
      (do
        let ds ← mergeObjLoop (.vobj tf) (.vobj sf) (sf.map Prod.fst) tf
        return .vobj ds) := by
  rw [mergeObjects]
  · simp [jtruthy, isObjectType, objEntries, jkeys]
  · intro ts h
    exact JVal.noConfusion h

theorem mergeObjects_varr_eq (ts es : List JVal) :
    mergeObjects (.varr ts) (.varr es) =
      (do
        let ds ← mergeArrLoop (.varr ts) 0 ts es
        return .varr ds) := by
  rw [mergeObjects]
  simp [jtruthy]

/-- C9: `Utils.mergeObjects(defaults, declaration)` — the merge
`load()`/`_onLoad` uses to build the instantiation options — is a deep
merge in which (over well-formed option objects, whose keys are
unique):
* the declaration wins on keys whose declaration value is a non-object
  (or falsy) value, whatever the default held;
* keys that are (truthy) objects in both inputs are merged
  recursively;
* array entries of object type are merged by index with the
  corresponding default entry;
* scalar array entries from the declaration are appended exactly when
  not already strictly-equal to an entry of the default array
  (dedup), in order;
and keys absent from the declaration keep the default's value. -/
theorem mergeObjects_contract :
    (∀ (tf sf df : List (String × JVal)) (k : String) (sv : JVal),
      (sf.map Prod.fst).Nodup →
      mergeObjects (.vobj tf) (.vobj sf) = .ok (.vobj df) →
      getKey sf k = some sv →
      (¬(isObjectType sv = true ∧ jtruthy sv = true) → getKey df k = some sv) ∧
      (isObjectType sv = true → jtruthy sv = true →
        jtruthy (getProp (.vobj tf) k) = false → getKey df k = some sv) ∧
      (isObjectType sv = true → jtruthy sv = true →
        jtruthy (getProp (.vobj tf) k) = true →
        ∃ mv, mergeObjects (getProp (.vobj tf) k) sv = .ok mv ∧
          getKey df k = some mv)) ∧
    (∀ (tf sf df : List (String × JVal)) (k : String),
      mergeObjects (.vobj tf) (.vobj sf) = .ok (.vobj df) →
      getKey sf k = none → getKey df k = getKey tf k) ∧
    (∀ (ts es ds : List JVal) (k : Nat) (e : JVal),
      mergeObjects (.varr ts) (.varr es) = .ok (.varr ds) →
      es[k]? = some e → isObjectType e = true →
      ∃ me, mergeObjects (arrIdx (.varr ts) k) e = .ok me ∧ ds[k]? = some me) ∧
    (∀ (ts es : List JVal), (∀ e ∈ es, isObjectType e = false) →
      mergeObjects (.varr ts) (.varr es) =
        .ok (.varr (ts ++ es.filter fun e => ts.all fun x => !jStrictEq x e))) := by
  refine ⟨?_, ?_, ?_, ?_⟩
  · intro tf sf df k sv hnd hok hk
    rw [mergeObjects_vobj_eq] at hok
    cases hl : mergeObjLoop (.vobj tf) (.vobj sf) (sf.map Prod.fst) tf with
    | error msg => rw [hl, exceptBind_err] at hok; exact Except.noConfusion hok
    | ok ds =>
      rw [hl, exceptBind_ok] at hok
      injection hok with hok
      injection hok with hok
      subst hok
      have hmem := getKey_some_mem sf k sv hk
      have hmain := mergeObjLoop_key (.vobj tf) (.vobj sf) k
        (sf.map Prod.fst) tf ds hnd hmem hl
      have hgp : getProp (.vobj sf) k = sv := by
        show (getKey sf k).getD .vundef = sv
        rw [hk]
        rfl
      rw [hgp] at hmain
      exact ⟨hmain.1, fun h1 h2 h3 => hmain.2.1 ⟨h1, h2⟩ h3,
        fun h1 h2 h3 => hmain.2.2 ⟨h1, h2⟩ h3⟩
  · intro tf sf df k hok hk
    rw [mergeObjects_vobj_eq] at hok
    cases hl : mergeObjLoop (.vobj tf) (.vobj sf) (sf.map Prod.fst) tf with
    | error msg => rw [hl, exceptBind_err] at hok; exact Except.noConfusion hok
    | ok ds =>
      rw [hl, exceptBind_ok] at hok
      injection hok with hok
      injection hok with hok
      subst hok
      exact mergeObjLoop_not_mem (.vobj tf) (.vobj sf) k (sf.map Prod.fst) tf ds
        (getKey_none_not_mem sf k hk) hl
  · intro ts es ds k e hok hk hobj
    rw [mergeObjects_varr_eq] at hok
    cases hl : mergeArrLoop (.varr ts) 0 ts es with
    | error msg => rw [hl, exceptBind_err] at hok; exact Except.noConfusion hok
    | ok ds0 =>
      rw [hl, exceptBind_ok] at hok
      injection hok with hok
      injection hok with hok
      subst hok
      have := mergeArrLoop_obj (.varr ts) es 0 ts ds0 hl k e hk hobj
      simpa using this
  · intro ts es hsc
    rw [mergeObjects_varr_eq, mergeArrLoop_scalars ts es hsc 0 ts, exceptBind_ok]
    rfl

/-! ## The condition-string grammar (C7)

The two grammars below follow the *specification's words*, to be
compared with the parser embedded above: `CExpr` is the claim's full
supported grammar (parenthesized groups, infix `and`/`or`, prefix
`not`, leaves `path:{value}`), used to exhibit the counterexample;
`GExpr` is the sub-grammar for which the round trip is proved. -/

/-- The claim's supported grammar as stated: leaves `path:{value}`,
prefix `not`, infix `and`/`or` pairs, and parenthesized groups. -/
inductive CExpr where
  | cleaf (path value : String)
  | cnot (e : CExpr)
  | cbin (a : CExpr) (isAnd : Bool) (b : CExpr)
  | cparen (e : CExpr)

/-- Serialisation of the claim grammar. -/
def CExpr.render : CExpr → String
  | .cleaf p v => p ++ ":\x7b" ++ v ++ "\x7d"
  | .cnot e => "not " ++ e.render
  | .cbin a i b => "(" ++ a.render ++ (if i then " and " else " or ") ++ b.render ++ ")"
  | .cparen e => "(" ++ e.render ++ ")"

/-- The sub-grammar for which the round trip holds: every
parenthesized group is a binary `and`/`or` pair and `not` optionally
prefixes a leaf or a group — so `not` is never applied to an
already-negated expression (the amendment; see the counterexample). -/
inductive GExpr where
  | leaf (negate : Bool) (path value : String)
  | node (negate : Bool) (a : GExpr) (isAnd : Bool) (b : GExpr)

/-- The operator word of a binary node. -/
def opStr (isAnd : Bool) : String := if isAnd then "and" else "or"

/-- The `not ` prefix flag of a grammar term. -/
def GExpr.neg : GExpr → Bool
  | .leaf n _ _ => n
  | .node n _ _ _ => n

/-- Serialisation of the proved sub-grammar: `path:{value}` leaves,
`(A and B)` / `(A or B)` groups, optional `not ` prefix. -/
def GExpr.render : GExpr → String
  | .leaf n p v => (if n then "not " else "") ++ (p ++ ":\x7b" ++ v ++ "\x7d")
  | .node n a i b =>
    (if n then "not " else "") ++
      ("(" ++ a.render ++ " " ++ opStr i ++ " " ++ b.render ++ ")")

/-- `render` without the `not ` prefix. -/
def GExpr.renderCore : GExpr → String
  | .leaf _ p v => p ++ ":\x7b" ++ v ++ "\x7d"
  | .node _ a i b => "(" ++ a.render ++ " " ++ opStr i ++ " " ++ b.render ++ ")"

theorem GExpr.render_eq (g : GExpr) :
    g.render = (if g.neg then "not " else "") ++ g.renderCore := by
  cases g <;> rfl

/-- The expression object the parser builds for a grammar term
(validated below against `fromString`). -/
def GExpr.toAst : GExpr → JExpr
  | .leaf n p v => .uleaf p v n
  | .node n a i b =>
    let bin := JExpr.binary (.expr a.toAst) (opStr i) (.expr b.toAst)
    if n then .uwrap bin true else bin

/-- The array elements a parsed operand leaves behind in the current
group: a leaf's negation is absorbed into the expression object, while
a group's `not ` stays behind as a separate `'not'` element until the
enclosing group reduces. -/
def GExpr.finalToks : GExpr → List Tok
  | .leaf n p v => [.expr (.uleaf p v n)]
  | .node n a i b =>
    let bin := JExpr.binary (.expr a.toAst) (opStr i) (.expr b.toAst)
    if n then [.op "not", .expr bin] else [.expr bin]

/-- Well-formedness of a leaf path: nonempty, and free of the
characters the scanner treats specially. -/
def pathOk (p : String) : Bool :=
  !p.data.isEmpty &&
    p.data.all fun c => !(c == ' ' || c == '(' || c == ')' || c == '{' || c == '}')

/-- Well-formedness of a leaf value: free of the braces that open and
close value capture. -/
def valueOk (v : String) : Bool :=
  v.data.all fun c => !(c == '{' || c == '}')

/-- Well-formedness of a grammar term. -/
def GExpr.wf : GExpr → Bool
  | .leaf _ p v => pathOk p && valueOk v
  | .node _ a _ b => a.wf && b.wf

theorem data_append (a b : String) : (a ++ b).data = a.data ++ b.data := rfl

theorem data_lparen : ("(" : String).data = ['('] := rfl

theorem data_rparen : (")" : String).data = [')'] := rfl

theorem data_colonBrace : (":\x7b" : String).data = [':', '{'] := rfl

theorem data_notWord : ("not " : String).data = ['n', 'o', 't', ' '] := rfl

theorem data_andWord : ("and" : String).data = ['a', 'n', 'd'] := rfl

theorem data_orWord : ("or" : String).data = ['o', 'r'] := rfl

theorem data_space : (" " : String).data = [' '] := rfl

theorem data_rbraceStr : ("\x7d" : String).data = ['}'] := rfl

theorem data_emptyStr : ("" : String).data = [] := rfl

theorem pathOk_ne_nil (p : String) (hp : pathOk p = true) : p.data ≠ [] := by
  rw [pathOk, Bool.and_eq_true] at hp
  simpa using hp.1

theorem pathOk_mem (p : String) (hp : pathOk p = true) :
    ∀ c ∈ p.data, c ≠ ' ' ∧ c ≠ '(' ∧ c ≠ ')' ∧ c ≠ '{' ∧ c ≠ '}' := by
  rw [pathOk, Bool.and_eq_true, List.all_eq_true] at hp
  intro c hc
  have := hp.2 c hc
  simp only [Bool.or_eq_true, Bool.not_eq_true', Bool.or_eq_false_iff, beq_eq_false_iff_ne]
    at this
  exact ⟨this.1.1.1.1, this.1.1.1.2, this.1.1.2, this.1.2, this.2⟩

theorem valueOk_mem (v : String) (hv : valueOk v = true) :
    ∀ c ∈ v.data, c ≠ '{' ∧ c ≠ '}' := by
  rw [valueOk, List.all_eq_true] at hv
  intro c hc
  have := hv c hc
  simp only [Bool.not_eq_true', Bool.or_eq_false_iff, beq_eq_false_iff_ne] at this
  exact this

/-- Canonical character-list form of a leaf core. -/
theorem GExpr.core_data_leaf (n : Bool) (p v : String) :
    (GExpr.leaf n p v).renderCore.data = p.data ++ ':' :: '{' :: (v.data ++ ['}']) := by
  simp [GExpr.renderCore, data_append, data_colonBrace, data_rbraceStr]

/-- Canonical character-list form of a group core. -/
theorem GExpr.core_data_node (n : Bool) (a : GExpr) (i : Bool) (b : GExpr) :
    (GExpr.node n a i b).renderCore.data =
      '(' :: (a.render.data ++
        ' ' :: ((opStr i).data ++ ' ' :: (b.render.data ++ [')']))) := by
  simp [GExpr.renderCore, data_append, data_lparen, data_rparen, data_space]

/-- Canonical character-list form of a full render. -/
theorem GExpr.render_data (g : GExpr) :
    g.render.data = (if g.neg then ['n', 'o', 't', ' '] else []) ++ g.renderCore.data := by
  rw [GExpr.render_eq g]
  cases g.neg <;> simp [data_append, data_notWord, data_emptyStr]

/-- Every well-formed render core is at least four characters long
(minimal leaf: one path character, `:{`, `}`). -/
theorem GExpr.renderCore_len (g : GExpr) (hw : g.wf = true) :
    4 ≤ g.renderCore.data.length := by
  cases g with
  | leaf n p v =>
    rw [GExpr.wf, Bool.and_eq_true] at hw
    have hp := pathOk_ne_nil p hw.1
    have h1 : 1 ≤ p.data.length := by
      cases h : p.data with
      | nil => exact absurd h hp
      | cons a t => simp
    rw [GExpr.core_data_leaf]
    simp only [List.length_append, List.length_cons]
    omega
  | node n a i b =>
    rw [GExpr.core_data_node]
    simp only [List.length_append, List.length_cons, List.cons_append, List.length_nil]
    omega

/-- Every well-formed render is at least four characters long. -/
theorem GExpr.render_len (g : GExpr) (hw : g.wf = true) : 4 ≤ g.render.data.length := by
  rw [GExpr.render_data]
  have := GExpr.renderCore_len g hw
  simp only [List.length_append]
  omega

/-- No space occurs among the first three characters of a well-formed
render (`not` contributes `n`,`o`,`t`; a leaf contributes path
characters, `:` and `{`; a group contributes `(` and the start of its
first operand). -/
theorem GExpr.render_no_space_lt3 (g : GExpr) (hw : g.wf = true) :
    ∀ j < 3, ¬g.render.data[j]? = some ' ' := by
  induction g with
  | leaf n p v =>
    rw [GExpr.wf, Bool.and_eq_true] at hw
    have hmem := pathOk_mem p hw.1
    intro j hj
    rw [GExpr.render_data]
    cases n with
    | true => interval_cases j <;> simp [GExpr.neg]
    | false =>
      simp only [GExpr.neg, if_neg Bool.false_ne_true, List.nil_append,
        GExpr.core_data_leaf]
      by_cases hjp : j < p.data.length
      · rw [List.getElem?_append_left hjp]
        intro hc
        exact (hmem _ (List.getElem?_mem hc)).1 rfl
      · rw [List.getElem?_append_right (Nat.le_of_not_lt hjp)]
        have hp := pathOk_ne_nil p hw.1
        have h1 : 1 ≤ p.data.length := by
          cases h : p.data with
          | nil => exact absurd h hp
          | cons a t => simp
        have h2 : j - p.data.length < 2 := by omega
        interval_cases h : j - p.data.length <;> simp_all
  | node n a i b iha ihb =>
    intro j hj
    rw [GExpr.render_data]
    cases n with
    | true => interval_cases j <;> simp [GExpr.neg]
    | false =>
      rw [GExpr.wf, Bool.and_eq_true] at hw
      have hlen := GExpr.render_len a hw.1
      simp only [GExpr.neg, if_neg Bool.false_ne_true, List.nil_append,
        GExpr.core_data_node, List.cons_append]
      cases j with
      | zero => simp
      | succ k =>
        rw [List.getElem?_cons_succ, List.getElem?_append_left (by omega)]
        exact iha hw.1 k (by omega)

/-! ### The operator window (Conditioner.js 696-711)

The scanner runs `findOpMatch` on the 5-character window `c :: rs.take
4` whenever `c` is a space, `(`, or the first character.  The lemmas
below compute the window verdict for every window a well-formed render
produces: a window sitting on an operator word matches it, and a
window looking into an unnegated operand (or into an operand core)
never matches. -/

theorem findOpMatch_space_not (xs : List Char) :
    findOpMatch (' ' :: 'n' :: 'o' :: 't' :: ' ' :: xs) = some "not " := by simp [findOpMatch, List.isPrefixOf]

theorem findOpMatch_lparen_not (xs : List Char) :
    findOpMatch ('(' :: 'n' :: 'o' :: 't' :: ' ' :: xs) = some "not " := by simp [findOpMatch, List.isPrefixOf]

theorem findOpMatch_top_not (xs : List Char) :
    findOpMatch ('n' :: 'o' :: 't' :: ' ' :: xs) = some "not " := by simp [findOpMatch, List.isPrefixOf]

theorem findOpMatch_space_and (xs : List Char) :
    findOpMatch (' ' :: 'a' :: 'n' :: 'd' :: ' ' :: xs) = some "and " := by simp [findOpMatch, List.isPrefixOf]

theorem findOpMatch_space_or (x : Char) (xs : List Char) :
    findOpMatch (' ' :: 'o' :: 'r' :: ' ' :: x :: xs) = some "or " := by simp [findOpMatch, List.isPrefixOf]

/-- A window that starts on a leaf (path, `:{`, then value or `}`)
matches no operator, whatever the two characters after `:{` are. -/
theorem findOpMatch_leaf_gen (c1 : Char) (zs : List Char) (hz : zs.length ≤ 2) :
    findOpMatch (c1 :: ':' :: '{' :: zs) = none := by
  match zs, hz with
  | [], _ => simp [findOpMatch, List.isPrefixOf]
  | [z1], _ => simp [findOpMatch, List.isPrefixOf]
  | [z1, z2], _ => simp [findOpMatch, List.isPrefixOf]

/-- Delimiter variant: `d` (a space or `(`) followed by up to four
leaf characters starting at the path. -/
theorem findOpMatch_delim_leaf (d : Char) (hd : d = ' ' ∨ d = '(') (p : String)
    (hp : pathOk p = true) (zs : List Char) :
    findOpMatch (d :: (p.data ++ ':' :: '{' :: zs).take 4) = none := by
  have hmem := pathOk_mem p hp
  rcases hdata : p.data with _ | ⟨c1, _ | ⟨c2, _ | ⟨c3, _ | ⟨c4, t⟩⟩⟩⟩
  · exact absurd hdata (pathOk_ne_nil p hp)
  · rcases zs with _ | ⟨z1, zs⟩ <;> rcases hd with rfl | rfl <;>
      simp [findOpMatch, List.isPrefixOf]
  · rcases hd with rfl | rfl <;> simp [findOpMatch, List.isPrefixOf]
  · have hc3 : c3 ≠ ' ' := (hmem c3 (by rw [hdata]; simp)).1
    rcases hd with rfl | rfl <;>
      simp [findOpMatch, List.isPrefixOf, beq_eq_false_iff_ne, Ne.symm hc3]
  · have hc3 : c3 ≠ ' ' := (hmem c3 (by rw [hdata]; simp)).1
    have hc4 : c4 ≠ ' ' := (hmem c4 (by rw [hdata]; simp)).1
    rcases hd with rfl | rfl <;>
      simp [findOpMatch, List.isPrefixOf, beq_eq_false_iff_ne, Ne.symm hc3, Ne.symm hc4]

/-- Start-of-string variant: the first five characters of a
well-formed leaf (path, `:{`, then anything) match no operator. -/
theorem findOpMatch_top_leaf (p : String) (hp : pathOk p = true) (zs : List Char) :
    findOpMatch ((p.data ++ ':' :: '{' :: zs).take 5) = none := by
  have hmem := pathOk_mem p hp
  rcases hdata : p.data with _ | ⟨c1, _ | ⟨c2, _ | ⟨c3, _ | ⟨c4, _ | ⟨c5, t⟩⟩⟩⟩⟩
  · exact absurd hdata (pathOk_ne_nil p hp)
  · rcases zs with _ | ⟨z1, _ | ⟨z2, zs⟩⟩ <;> simp [findOpMatch, List.isPrefixOf]
  · rcases zs with _ | ⟨z1, zs⟩ <;> simp [findOpMatch, List.isPrefixOf]
  · have hc3 : c3 ≠ ' ' := (hmem c3 (by rw [hdata]; simp)).1
    simp [findOpMatch, List.isPrefixOf, beq_eq_false_iff_ne, Ne.symm hc3]
  · have hc3 : c3 ≠ ' ' := (hmem c3 (by rw [hdata]; simp)).1
    have hc4 : c4 ≠ ' ' := (hmem c4 (by rw [hdata]; simp)).1
    simp [findOpMatch, List.isPrefixOf, beq_eq_false_iff_ne, Ne.symm hc3, Ne.symm hc4]
  · have hc3 : c3 ≠ ' ' := (hmem c3 (by rw [hdata]; simp)).1
    have hc4 : c4 ≠ ' ' := (hmem c4 (by rw [hdata]; simp)).1
    have hc5 : c5 ≠ ' ' := (hmem c5 (by rw [hdata]; simp)).1
    simp [findOpMatch, List.isPrefixOf, beq_eq_false_iff_ne, Ne.symm hc3, Ne.symm hc4,
      Ne.symm hc5]

/-- A window consisting of a delimiter (space or `(`) followed by the
first four characters of a well-formed operand core (leaf characters,
or `(` and the start of the first sub-operand) matches no operator. -/
theorem findOpMatch_delim_core (g : GExpr) (hw : g.wf = true) (d : Char)
    (hd : d = ' ' ∨ d = '(') (tail : List Char) :
    findOpMatch (d :: (g.renderCore.data ++ tail).take 4) = none := by
  cases g with
  | leaf n p v =>
    rw [GExpr.wf, Bool.and_eq_true] at hw
    rw [GExpr.core_data_leaf]
    have hshape : (p.data ++ ':' :: '{' :: (v.data ++ ['}'])) ++ tail =
        p.data ++ ':' :: '{' :: ((v.data ++ ['}']) ++ tail) := by
      simp [List.append_assoc]
    rw [hshape]
    exact findOpMatch_delim_leaf d hd p hw.1 _
  | node n a i b =>
    rw [GExpr.wf, Bool.and_eq_true] at hw
    have hlen := GExpr.render_len a hw.1
    have hsp := GExpr.render_no_space_lt3 a hw.1
    rw [GExpr.core_data_node]
    rcases hdata : a.render.data with _ | ⟨r0, _ | ⟨r1, _ | ⟨r2, t⟩⟩⟩
    · rw [hdata] at hlen; simp at hlen
    · rw [hdata] at hlen; simp at hlen
    · rw [hdata] at hlen; simp at hlen
    · have hr2 : r2 ≠ ' ' := by
        intro hr
        exact hsp 2 (by omega) (by rw [hdata, hr]; simp)
      have hshape : ('(' :: ((r0 :: r1 :: r2 :: t) ++
          ' ' :: ((opStr i).data ++ ' ' :: (b.render.data ++ [')']))) ++ tail).take 4 =
          ['(', r0, r1, r2] := by
        simp
      rw [hshape]
      rcases hd with rfl | rfl <;>
        simp [findOpMatch, List.isPrefixOf, beq_eq_false_iff_ne, Ne.symm hr2]

/-! ### Single steps of the character loop

One lemma per branch of `runParse`, with the branch conditions as
hypotheses. -/

theorem runParse_nil (done : List Char) (st : PState) : runParse done [] st = st := by
  rw [runParse]

/-- A plain character (no brace, parenthesis or space) outside value
capture is consumed without effect; at the very first position the
operator window must come up empty. -/
theorem runParse_plain (c : Char) (done rs : List Char) (st : PState)
    (h1 : c ≠ '{') (h2 : c ≠ '}') (h3 : c ≠ '(') (h4 : c ≠ ')') (h5 : c ≠ ' ')
    (hval : st.isValue = false) (hrs : rs ≠ [])
    (hwin : done = [] → findOpMatch (c :: rs.take 4) = none) :
    runParse done (c :: rs) st = runParse (c :: done) rs st := by
  rw [runParse]
  by_cases hd : done = []
  · have hw := hwin hd
    simp [h1, h2, h3, h4, h5, hval, hrs, hd, hw]
  · simp [h1, h2, h3, h4, h5, hval, hrs, hd]

/-- Inside value capture every character except the braces is
appended to the value. -/
theorem runParse_valueChar (c : Char) (done rs : List Char) (st : PState)
    (h1 : c ≠ '{') (h2 : c ≠ '}') (hval : st.isValue = true) :
    runParse done (c :: rs) st =
      runParse (c :: done) rs { st with value := st.value.push c } := by
  rw [runParse]
  simp [h1, h2, hval]

/-- `{` starts value capture and rebuilds the path from the backward
scan. -/
theorem runParse_lbrace (done rs : List Char) (st : PState) :
    runParse done ('{' :: rs) st =
      runParse ('{' :: done) rs
        { st with
            isValue := true
            path :=
              ((done.drop 1).takeWhile (fun n => !(n == ' ' || n == '('))).reverse.asString } := by
  rw [runParse]
  simp

/-- `}` closes the leaf; a trailing `'not'` element is absorbed into
the negation flag. -/
theorem runParse_rbrace_neg (done rs : List Char) (st : PState) (base : List Tok)
    (hdone : done ≠ []) (hrs : rs ≠ [])
    (htgt : st.target = base ++ [Tok.op "not"]) :
    runParse done ('}' :: rs) st =
      runParse ('}' :: done) rs
        { st with
            target := base ++ [Tok.expr (.uleaf st.path st.value true)]
            path := ""
            value := ""
            isValue := false } := by
  rw [runParse]
  have hlast : st.target.getLast? = some (Tok.op "not") := by
    rw [htgt]; simp
  have hdrop : st.target.dropLast = base := by
    rw [htgt]; simp
  simp [hdone, hrs, hlast, hdrop]

/-- `}` closes the leaf without negation when no `'not'` element
precedes it. -/
theorem runParse_rbrace_pos (done rs : List Char) (st : PState)
    (hdone : done ≠ []) (hrs : rs ≠ [])
    (hlast : st.target.getLast? ≠ some (Tok.op "not")) :
    runParse done ('}' :: rs) st =
      runParse ('}' :: done) rs
        { st with
            target := st.target ++ [Tok.expr (.uleaf st.path st.value false)]
            path := ""
            value := ""
            isValue := false } := by
  rw [runParse]
  have hneg : (match st.target.getLast? with
      | some (.op s) => s == "not"
      | _ => false) = false := by
    cases h : st.target.getLast? with
    | none => rfl
    | some t =>
      cases t with
      | op s =>
        have hs : s ≠ "not" := fun hs => hlast (by rw [h, hs])
        simp [hs]
      | expr e => rfl
      | arr ts => rfl
      | undef => rfl
  simp [hdone, hrs, hneg]

/-- A space whose window matches nothing is consumed without
effect. -/
theorem runParse_space_none (done rs : List Char) (st : PState)
    (hval : st.isValue = false) (hrs : rs ≠ [])
    (hm : findOpMatch (' ' :: rs.take 4) = none) :
    runParse done (' ' :: rs) st = runParse (' ' :: done) rs st := by
  rw [runParse]
  simp [hval, hm, hrs]

/-- A space (or the first position) whose window matches an operator
word: the word is appended to the target and the cursor skips the
word's letters. -/
theorem runParse_guard_match (c : Char) (done rs : List Char) (st : PState) (opName : String)
    (h1 : c ≠ '{') (h2 : c ≠ '}') (h3 : c ≠ '(') (h4 : c ≠ ')')
    (hg : c = ' ' ∨ done = [])
    (hval : st.isValue = false)
    (hm : findOpMatch (c :: rs.take 4) = some opName)
    (hrest : rs.drop (opName.length - 1) ≠ []) :
    runParse done (c :: rs) st =
      runParse ((rs.take (opName.length - 1)).reverse ++ c :: done)
        (rs.drop (opName.length - 1))
        { st with target := st.target ++ [Tok.op (opName.dropRight 1)] } := by
  rw [runParse]
  rcases hg with rfl | hd
  · simp [h2, h3, h4, hval, hm, hrest]
  · simp [h1, h2, h3, h4, hval, hm, hrest, hd]

/-- `(` with an empty window: a fresh group frame is pushed. -/
theorem runParse_lparen_none (done rs : List Char) (st : PState)
    (hval : st.isValue = false) (hrs : rs ≠ [])
    (hm : findOpMatch ('(' :: rs.take 4) = none) :
    runParse done ('(' :: rs) st =
      runParse ('(' :: done) rs
        { st with
            target := []
            parents := st.target :: st.parents } := by
  rw [runParse]
  simp [hval, hm, hrs]

/-- `(` whose window matches `not ` (a negated first operand): the
frame is pushed and the `'not'` element lands inside it. -/
theorem runParse_lparen_match (done rs : List Char) (st : PState) (opName : String)
    (hval : st.isValue = false)
    (hm : findOpMatch ('(' :: rs.take 4) = some opName)
    (hrest : rs.drop (opName.length - 1) ≠ []) :
    runParse done ('(' :: rs) st =
      runParse ((rs.take (opName.length - 1)).reverse ++ '(' :: done)
        (rs.drop (opName.length - 1))
        { st with
            target := [Tok.op (opName.dropRight 1)]
            parents := st.target :: st.parents } := by
  rw [runParse]
  simp [hval, hm, hrest]

/-- A single non-final closing round: pop the parent frame, reduce
the group, merge the single-element result. -/
theorem closeCascade_once (st : PState) (p : List Tok) (ps : List (List Tok))
    (red : List Tok)
    (hpar : st.parents = p :: ps) (hne : st.target.length ≠ 0)
    (hred : reduceGroup (st.target.length + 1) st.target = red)
    (hlen : red.length = 1) :
    closeCascade false st =
      { st with
          target := p ++ red
          parents := ps } := by
  obtain ⟨pa, va, iv, tg, prs⟩ := st
  simp only at hpar hne hred ⊢
  subst hpar
  rw [closeCascade.eq_def]
  simp [hne, hred, hlen]

theorem runParse_rparen (done rs : List Char) (st : PState) (p : List Tok)
    (ps : List (List Tok)) (red : List Tok)
    (hdone : done ≠ []) (hval : st.isValue = false) (hrs : rs ≠ [])
    (hpar : st.parents = p :: ps) (hne : st.target.length ≠ 0)
    (hred : reduceGroup (st.target.length + 1) st.target = red)
    (hlen : red.length = 1) :
    runParse done (')' :: rs) st =
      runParse (')' :: done) rs
        { st with
            target := p ++ red
            parents := ps } := by
  have hcc := closeCascade_once st p ps red hpar hne hred hlen
  rw [runParse]
  simp [hdone, hval, hrs, hcc]

theorem asString_data (s : String) : s.data.asString = s := rfl

theorem takeWhile_append_all {α : Type} (pr : α → Bool) (l1 l2 : List α)
    (h : ∀ x ∈ l1, pr x = true) :
    (l1 ++ l2).takeWhile pr = l1 ++ l2.takeWhile pr := by
  induction l1 with
  | nil => simp
  | cons a t ih =>
    rw [List.cons_append, List.takeWhile_cons_of_pos (h a (List.mem_cons_self a t)),
      ih fun x hx => h x (List.mem_cons_of_mem a hx), List.cons_append]

/-- Consuming a run of plain characters (path characters and `:`)
leaves the state untouched; at the very first position the leading
operator window must be empty. -/
theorem runParse_consume_plain (cs : List Char)
    (hcs : ∀ c ∈ cs, c ≠ '{' ∧ c ≠ '}' ∧ c ≠ '(' ∧ c ≠ ')' ∧ c ≠ ' ') :
    ∀ (done rest : List Char) (st : PState),
      st.isValue = false → rest ≠ [] →
      (done = [] → findOpMatch ((cs ++ rest).take 5) = none) →
      runParse done (cs ++ rest) st = runParse (cs.reverse ++ done) rest st := by
  induction cs with
  | nil =>
    intro done rest st _ _ _
    simp
  | cons c cs ih =>
    intro done rest st hval hrest hwin
    have hc := hcs c (List.mem_cons_self c cs)
    have hcs' : ∀ x ∈ cs, x ≠ '{' ∧ x ≠ '}' ∧ x ≠ '(' ∧ x ≠ ')' ∧ x ≠ ' ' :=
      fun x hx => hcs x (List.mem_cons_of_mem c hx)
    have hne : cs ++ rest ≠ [] := by simp [hrest]
    have hwin' : done = [] → findOpMatch (c :: (cs ++ rest).take 4) = none := by
      intro hd
      have := hwin hd
      rwa [List.cons_append, List.take_succ_cons] at this
    rw [List.cons_append,
      runParse_plain c done (cs ++ rest) st hc.1 hc.2.1 hc.2.2.1 hc.2.2.2.1 hc.2.2.2.2
        hval hne hwin',
      ih hcs' (c :: done) rest st hval hrest (fun hd => absurd hd (by simp))]
    simp

/-- Consuming a run of value characters appends them to the captured
value. -/
theorem runParse_consume_value (vs : List Char)
    (hvs : ∀ c ∈ vs, c ≠ '{' ∧ c ≠ '}') :
    ∀ (done rest : List Char) (st : PState), st.isValue = true →
      runParse done (vs ++ rest) st =
        runParse (vs.reverse ++ done) rest { st with value := ⟨st.value.data ++ vs⟩ } := by
  induction vs with
  | nil =>
    intro done rest st hval
    simp
  | cons c vs ih =>
    intro done rest st hval
    have hc := hvs c (List.mem_cons_self c vs)
    have hvs' : ∀ x ∈ vs, x ≠ '{' ∧ x ≠ '}' :=
      fun x hx => hvs x (List.mem_cons_of_mem c hx)
    rw [List.cons_append, runParse_valueChar c done (vs ++ rest) st hc.1 hc.2 hval,
      ih hvs' (c :: done) rest _ (by simp [hval])]
    simp [String.push, List.append_assoc]

/-- Parsing a leaf up to (not including) its closing `}`: the path is
reconstructed by the backward scan and the value accumulated. -/
theorem runParse_leafBody (p v : String) (hp : pathOk p = true) (hv : valueOk v = true) :
    ∀ (done0 rest : List Char) (st : PState),
      (done0 = [] ∨ done0.head? = some ' ' ∨ done0.head? = some '(') →
      st.isValue = false → st.value = "" →
      runParse done0 (p.data ++ ':' :: '{' :: (v.data ++ rest)) st =
        runParse (v.data.reverse ++ '{' :: ':' :: (p.data.reverse ++ done0)) rest
          { st with
              path := p
              value := v
              isValue := true } := by
  intro done0 rest st hd0 hval hv0
  have hmem := pathOk_mem p hp
  have hcs : ∀ c ∈ p.data ++ [':'], c ≠ '{' ∧ c ≠ '}' ∧ c ≠ '(' ∧ c ≠ ')' ∧ c ≠ ' ' := by
    intro c hcmem
    rcases List.mem_append.mp hcmem with hcp | hcc
    · have := hmem c hcp
      exact ⟨this.2.2.2.1, this.2.2.2.2, this.2.1, this.2.2.1, this.1⟩
    · simp only [List.mem_singleton] at hcc
      subst hcc
      refine ⟨by decide, by decide, by decide, by decide, by decide⟩
  have hshape : p.data ++ ':' :: '{' :: (v.data ++ rest) =
      (p.data ++ [':']) ++ ('{' :: (v.data ++ rest)) := by
    simp [List.append_assoc]
  rw [hshape,
    runParse_consume_plain (p.data ++ [':']) hcs done0 ('{' :: (v.data ++ rest)) st hval
      (by simp)
      (by
        intro hd
        have hshape2 : (p.data ++ [':']) ++ ('{' :: (v.data ++ rest)) =
            p.data ++ ':' :: '{' :: (v.data ++ rest) := by
          simp [List.append_assoc]
        rw [hshape2]
        exact findOpMatch_top_leaf p hp (v.data ++ rest)),
    runParse_lbrace]
  have hpath : ((((p.data ++ [':']).reverse ++ done0).drop 1).takeWhile
      (fun n => !(n == ' ' || n == '('))).reverse.asString = p := by
    have h1 : (p.data ++ [':']).reverse ++ done0 = ':' :: (p.data.reverse ++ done0) := by
      simp
    rw [h1, List.drop_one, List.tail_cons,
      takeWhile_append_all _ p.data.reverse done0
        (by
          intro x hx
          have := hmem x (List.mem_reverse.mp hx)
          simp [this.1, this.2.1])]
    have h2 : done0.takeWhile (fun n => !(n == ' ' || n == '(')) = [] := by
      rcases hd0 with rfl | hsp | hlp
      · rfl
      · cases done0 with
        | nil => rfl
        | cons d ds =>
          simp only [List.head?_cons, Option.some_inj] at hsp
          subst hsp
          rw [List.takeWhile_cons_of_neg (by decide)]
      · cases done0 with
        | nil => rfl
        | cons d ds =>
          simp only [List.head?_cons, Option.some_inj] at hlp
          subst hlp
          rw [List.takeWhile_cons_of_neg (by decide)]
    rw [h2, List.append_nil, List.reverse_reverse, asString_data]
  rw [hpath]
  rw [runParse_consume_value v.data (valueOk_mem v hv)
    ('{' :: ((p.data ++ [':']).reverse ++ done0)) rest _ rfl]
  have hdone : v.data.reverse ++ '{' :: ((p.data ++ [':']).reverse ++ done0) =
      v.data.reverse ++ '{' :: ':' :: (p.data.reverse ++ done0) := by
    simp
  rw [hdone, hv0]
  have hstv : (⟨("" : String).data ++ v.data⟩ : String) = v := by
    simp only [data_emptyStr, List.nil_append]
  rw [hstv]

/-- Parsing a full leaf core followed by more characters: the leaf
object is appended to the target (absorbing a pending `'not'`
element into its negation flag). -/
theorem runParse_leafCore (p v : String) (hp : pathOk p = true) (hv : valueOk v = true)
    (neg : Bool) (base : List Tok) :
    ∀ (done0 rest : List Char) (st : PState),
      (done0 = [] ∨ done0.head? = some ' ' ∨ done0.head? = some '(') →
      rest ≠ [] → st.isValue = false → st.value = "" →
      st.target = base ++ (if neg then [Tok.op "not"] else []) →
      base.getLast? ≠ some (Tok.op "not") →
      runParse done0 ((GExpr.leaf neg p v).renderCore.data ++ rest) st =
        runParse ((GExpr.leaf neg p v).renderCore.data.reverse ++ done0) rest
          { st with
              target := base ++ [Tok.expr (.uleaf p v neg)]
              path := ""
              value := ""
              isValue := false } := by
  intro done0 rest st hd0 hrest hval hv0 htgt hbase
  rw [GExpr.core_data_leaf]
  have hshape : (p.data ++ ':' :: '{' :: (v.data ++ ['}'])) ++ rest =
      p.data ++ ':' :: '{' :: (v.data ++ ('}' :: rest)) := by
    simp [List.append_assoc]
  rw [hshape, runParse_leafBody p v hp hv done0 ('}' :: rest) st hd0 hval hv0]
  have hdone1 : v.data.reverse ++ '{' :: ':' :: (p.data.reverse ++ done0) ≠ [] := by
    simp
  cases neg with
  | true =>
    rw [runParse_rbrace_neg _ rest _ base hdone1 hrest (by rw [htgt]; rfl)]
    have hdone2 : '}' :: (v.data.reverse ++ '{' :: ':' :: (p.data.reverse ++ done0)) =
        (p.data ++ ':' :: '{' :: (v.data ++ ['}'])).reverse ++ done0 := by
      simp
    rw [hdone2]
  | false =>
    rw [runParse_rbrace_pos _ rest _ hdone1 hrest
      (by rw [htgt]; simpa using hbase)]
    have hdone2 : '}' :: (v.data.reverse ++ '{' :: ':' :: (p.data.reverse ++ done0)) =
        (p.data ++ ':' :: '{' :: (v.data ++ ['}'])).reverse ++ done0 := by
      simp
    rw [hdone2]
    have htgt2 : st.target = base := by
      simpa using htgt
    rw [htgt2]

/-- Group reduction of the token run a parsed binary pair leaves
behind: optional `'not'` elements are folded into `UnaryExpression`s
and the operator splice builds the `BinaryExpression`.  Each operand
run is either a bare expression or `'not'` followed by an
expression. -/
theorem reduceGroup_binary (tA tB : List Tok) (astA astB : JExpr) (o : String)
    (hA : tA = [Tok.expr astA] ∨ ∃ x, tA = [Tok.op "not", Tok.expr x] ∧ astA = .uwrap x true)
    (hB : tB = [Tok.expr astB] ∨ ∃ x, tB = [Tok.op "not", Tok.expr x] ∧ astB = .uwrap x true)
    (ho : o = "and" ∨ o = "or") :
    reduceGroup ((tA ++ [Tok.op o] ++ tB).length + 1) (tA ++ [Tok.op o] ++ tB) =
      [Tok.expr (.binary (.expr astA) o (.expr astB))] := by
  rcases hA with rfl | ⟨xA, rfl, rfl⟩ <;> rcases hB with rfl | ⟨xB, rfl, rfl⟩ <;>
    rcases ho with rfl | rfl <;>
    simp [reduceGroup, reduceScan, mkUnary]

/-- A single expression element is already reduced. -/
theorem reduceGroup_single (x : JExpr) :
    reduceGroup 2 [Tok.expr x] = [Tok.expr x] := by
  simp [reduceGroup, reduceScan]

/-- `'not'` followed by an expression reduces to the negated
wrapper. -/
theorem reduceGroup_notWrap (x : JExpr) :
    reduceGroup 3 [Tok.op "not", Tok.expr x] = [Tok.expr (.uwrap x true)] := by
  simp [reduceGroup, reduceScan, mkUnary]

theorem runParse_space_opAnd (done rs : List Char) (st : PState)
    (hval : st.isValue = false)
    (hm : findOpMatch (' ' :: rs.take 4) = some "and ")
    (hrest : rs.drop 3 ≠ []) :
    runParse done (' ' :: rs) st =
      runParse ((rs.take 3).reverse ++ ' ' :: done) (rs.drop 3)
        { st with target := st.target ++ [Tok.op "and"] } := by
  have hlen : ("and " : String).length - 1 = 3 := by decide
  have hdr : ("and " : String).dropRight 1 = "and" := by decide
  have h := runParse_guard_match ' ' done rs st "and " (by decide) (by decide) (by decide)
    (by decide) (Or.inl rfl) hval hm (by rwa [hlen])
  rwa [hlen, hdr] at h

theorem runParse_space_opOr (done rs : List Char) (st : PState)
    (hval : st.isValue = false)
    (hm : findOpMatch (' ' :: rs.take 4) = some "or ")
    (hrest : rs.drop 2 ≠ []) :
    runParse done (' ' :: rs) st =
      runParse ((rs.take 2).reverse ++ ' ' :: done) (rs.drop 2)
        { st with target := st.target ++ [Tok.op "or"] } := by
  have hlen : ("or " : String).length - 1 = 2 := by decide
  have hdr : ("or " : String).dropRight 1 = "or" := by decide
  have h := runParse_guard_match ' ' done rs st "or " (by decide) (by decide) (by decide)
    (by decide) (Or.inl rfl) hval hm (by rwa [hlen])
  rwa [hlen, hdr] at h

theorem runParse_space_opNot (done rs : List Char) (st : PState)
    (hval : st.isValue = false)
    (hm : findOpMatch (' ' :: rs.take 4) = some "not ")
    (hrest : rs.drop 3 ≠ []) :
    runParse done (' ' :: rs) st =
      runParse ((rs.take 3).reverse ++ ' ' :: done) (rs.drop 3)
        { st with target := st.target ++ [Tok.op "not"] } := by
  have hlen : ("not " : String).length - 1 = 3 := by decide
  have hdr : ("not " : String).dropRight 1 = "not" := by decide
  have h := runParse_guard_match ' ' done rs st "not " (by decide) (by decide) (by decide)
    (by decide) (Or.inl rfl) hval hm (by rwa [hlen])
  rwa [hlen, hdr] at h

theorem runParse_top_opNot (rs : List Char) (st : PState)
    (hval : st.isValue = false)
    (hm : findOpMatch ('n' :: rs.take 4) = some "not ")
    (hrest : rs.drop 3 ≠ []) :
    runParse [] ('n' :: rs) st =
      runParse ((rs.take 3).reverse ++ ['n']) (rs.drop 3)
        { st with target := st.target ++ [Tok.op "not"] } := by
  have hlen : ("not " : String).length - 1 = 3 := by decide
  have hdr : ("not " : String).dropRight 1 = "not" := by decide
  have h := runParse_guard_match 'n' [] rs st "not " (by decide) (by decide) (by decide)
    (by decide) (Or.inr rfl) hval hm (by rwa [hlen])
  rwa [hlen, hdr] at h

theorem runParse_lparen_opNot (done rs : List Char) (st : PState)
    (hval : st.isValue = false)
    (hm : findOpMatch ('(' :: rs.take 4) = some "not ")
    (hrest : rs.drop 3 ≠ []) :
    runParse done ('(' :: rs) st =
      runParse ((rs.take 3).reverse ++ '(' :: done) (rs.drop 3)
        { st with
            target := [Tok.op "not"]
            parents := st.target :: st.parents } := by
  have hlen : ("not " : String).length - 1 = 3 := by decide
  have hdr : ("not " : String).dropRight 1 = "not" := by decide
  have h := runParse_lparen_match done rs st "not " hval hm (by rwa [hlen])
  rwa [hlen, hdr] at h

/-- The token run of an operand is either a single expression element
or `'not'` followed by one, and its expression is the operand's
tree. -/
theorem GExpr.finalToks_shape (g : GExpr) :
    g.finalToks = [Tok.expr g.toAst] ∨
      ∃ x, g.finalToks = [Tok.op "not", Tok.expr x] ∧ g.toAst = .uwrap x true := by
  cases g with
  | leaf n p v => exact Or.inl rfl
  | node n a i b =>
    cases n with
    | false => exact Or.inl (by simp [GExpr.finalToks, GExpr.toAst])
    | true =>
      exact Or.inr ⟨JExpr.binary (.expr a.toAst) (opStr i) (.expr b.toAst),
        by simp [GExpr.finalToks], by simp [GExpr.toAst]⟩

/-- Main simulation lemma: parsing a well-formed operand core inside
an enclosing context appends the operand's token run to the current
group array, leaves the leaf-capture state clean, and continues at the
continuation.  `base` is the target without the operand's own pending
`'not'` element. -/
theorem runParse_core :
    ∀ (g : GExpr), g.wf = true →
    ∀ (done0 rest : List Char) (st : PState) (base : List Tok),
      (done0 = [] ∨ done0.head? = some ' ' ∨ done0.head? = some '(') →
      rest ≠ [] → st.isValue = false → st.value = "" →
      st.target = base ++ (if g.neg then [Tok.op "not"] else []) →
      base.getLast? ≠ some (Tok.op "not") →
      runParse done0 (g.renderCore.data ++ rest) st =
        runParse (g.renderCore.data.reverse ++ done0) rest
          { st with
              target := base ++ g.finalToks
              path := ""
              value := ""
              isValue := false } := by
  intro g
  induction g with
  | leaf n p v =>
    intro hw done0 rest st base hd0 hrest hval hv0 htgt hbase
    simp only [GExpr.wf, Bool.and_eq_true] at hw
    exact runParse_leafCore p v hw.1 hw.2 n base done0 rest st hd0 hrest hval hv0 htgt hbase
  | node n a i b iha ihb =>
    intro hw done0 rest st base hd0 hrest hval hv0 htgt hbase
    simp only [GExpr.wf, Bool.and_eq_true] at hw
    obtain ⟨hwa, hwb⟩ := hw
    simp only [GExpr.neg] at htgt
    rw [GExpr.core_data_node]
    have hshape : ('(' :: (a.render.data ++
        ' ' :: ((opStr i).data ++ ' ' :: (b.render.data ++ [')'])))) ++ rest =
        '(' :: (a.render.data ++
          ' ' :: ((opStr i).data ++ ' ' :: (b.render.data ++ ')' :: rest))) := by
      simp [List.append_assoc]
    rw [hshape]
    have hlenB := GExpr.render_len b hwb
    -- the continuation after operand a
    have stepA : runParse done0
        ('(' :: (a.render.data ++
          ' ' :: ((opStr i).data ++ ' ' :: (b.render.data ++ ')' :: rest)))) st =
        runParse (a.render.data.reverse ++ '(' :: done0)
          (' ' :: ((opStr i).data ++ ' ' :: (b.render.data ++ ')' :: rest)))
          ⟨"", "", false, a.finalToks, st.target :: st.parents⟩ := by
      cases han : a.neg with
      | false =>
        have hAdata : a.render.data = a.renderCore.data := by
          rw [GExpr.render_data, han]
          rfl
        rw [hAdata]
        have hm := findOpMatch_delim_core a hwa '(' (Or.inr rfl)
          (' ' :: ((opStr i).data ++ ' ' :: (b.render.data ++ ')' :: rest)))
        rw [runParse_lparen_none done0 _ st hval (by simp) hm]
        rw [iha hwa ('(' :: done0)
          (' ' :: ((opStr i).data ++ ' ' :: (b.render.data ++ ')' :: rest)))
          { st with
              target := ([] : List Tok)
              parents := st.target :: st.parents }
          [] (Or.inr (Or.inr rfl)) (by simp) hval hv0 (by simp [han]) (by simp)]
        simp
      | true =>
        have hAdata : a.render.data = ['n', 'o', 't', ' '] ++ a.renderCore.data := by
          rw [GExpr.render_data, han]
          rfl
        rw [hAdata]
        have htake : ((['n', 'o', 't', ' '] ++ a.renderCore.data) ++
            ' ' :: ((opStr i).data ++ ' ' :: (b.render.data ++ ')' :: rest))).take 3 =
            ['n', 'o', 't'] := by
          simp
        have htake4 : ((['n', 'o', 't', ' '] ++ a.renderCore.data) ++
            ' ' :: ((opStr i).data ++ ' ' :: (b.render.data ++ ')' :: rest))).take 4 =
            ['n', 'o', 't', ' '] := by
          simp
        have hdrop : ((['n', 'o', 't', ' '] ++ a.renderCore.data) ++
            ' ' :: ((opStr i).data ++ ' ' :: (b.render.data ++ ')' :: rest))).drop 3 =
            ' ' :: (a.renderCore.data ++
              ' ' :: ((opStr i).data ++ ' ' :: (b.render.data ++ ')' :: rest))) := by
          simp
        rw [runParse_lparen_opNot done0 _ st hval
          (by rw [htake4]; exact findOpMatch_lparen_not [])
          (by rw [hdrop]; simp)]
        rw [htake, hdrop]
        have hm2 := findOpMatch_delim_core a hwa ' ' (Or.inl rfl)
          (' ' :: ((opStr i).data ++ ' ' :: (b.render.data ++ ')' :: rest)))
        rw [runParse_space_none _ _ _ (by exact hval) (by simp) hm2]
        rw [iha hwa
          (' ' :: (['n', 'o', 't'].reverse ++ '(' :: done0))
          (' ' :: ((opStr i).data ++ ' ' :: (b.render.data ++ ')' :: rest)))
          { st with
              target := [Tok.op "not"]
              parents := st.target :: st.parents }
          [] (Or.inr (Or.inl rfl)) (by simp) hval hv0 (by simp [han]) (by simp)]
        simp
    rw [stepA]
    -- the separator
    have stepB : runParse (a.render.data.reverse ++ '(' :: done0)
        (' ' :: ((opStr i).data ++ ' ' :: (b.render.data ++ ')' :: rest)))
        (⟨"", "", false, a.finalToks, st.target :: st.parents⟩ : PState) =
        runParse ((opStr i).data.reverse ++ ' ' :: (a.render.data.reverse ++ '(' :: done0))
          (' ' :: (b.render.data ++ ')' :: rest))
          ⟨"", "", false, a.finalToks ++ [Tok.op (opStr i)], st.target :: st.parents⟩ := by
      cases i with
      | true =>
        have hop : (opStr true).data = ['a', 'n', 'd'] := rfl
        rw [hop]
        have htake : (['a', 'n', 'd'] ++ ' ' :: (b.render.data ++ ')' :: rest)).take 4 =
            ['a', 'n', 'd', ' '] := by
          simp
        have htake3 : (['a', 'n', 'd'] ++ ' ' :: (b.render.data ++ ')' :: rest)).take 3 =
            ['a', 'n', 'd'] := by
          simp
        have hdrop : (['a', 'n', 'd'] ++ ' ' :: (b.render.data ++ ')' :: rest)).drop 3 =
            ' ' :: (b.render.data ++ ')' :: rest) := by
          simp
        rw [runParse_space_opAnd _ _ _ rfl
          (by rw [htake]; exact findOpMatch_space_and [])
          (by rw [hdrop]; simp)]
        rw [htake3, hdrop]
        simp [opStr]
      | false =>
        have hop : (opStr false).data = ['o', 'r'] := rfl
        rw [hop]
        obtain ⟨b0, bs, hb0⟩ : ∃ b0 bs, b.render.data = b0 :: bs := by
          cases hbd : b.render.data with
          | nil => rw [hbd] at hlenB; simp at hlenB
          | cons x xs => exact ⟨x, xs, rfl⟩
        have htake : (['o', 'r'] ++ ' ' :: (b.render.data ++ ')' :: rest)).take 4 =
            ['o', 'r', ' ', b0] := by
          rw [hb0]
          simp
        have htake2 : (['o', 'r'] ++ ' ' :: (b.render.data ++ ')' :: rest)).take 2 =
            ['o', 'r'] := by
          simp
        have hdrop : (['o', 'r'] ++ ' ' :: (b.render.data ++ ')' :: rest)).drop 2 =
            ' ' :: (b.render.data ++ ')' :: rest) := by
          simp
        rw [runParse_space_opOr _ _ _ rfl
          (by rw [htake]; exact findOpMatch_space_or b0 [])
          (by rw [hdrop]; simp)]
        rw [htake2, hdrop]
        simp [opStr]
    rw [stepB]
    -- the second operand b
    have hOpLast : (a.finalToks ++ [Tok.op (opStr i)]).getLast? ≠ some (Tok.op "not") := by
      rw [List.getLast?_concat]
      intro h
      injection h with h
      cases i <;> simp [opStr] at h
    have stepC : runParse
        ((opStr i).data.reverse ++ ' ' :: (a.render.data.reverse ++ '(' :: done0))
        (' ' :: (b.render.data ++ ')' :: rest))
        (⟨"", "", false, a.finalToks ++ [Tok.op (opStr i)],
          st.target :: st.parents⟩ : PState) =
        runParse (b.render.data.reverse ++
          ' ' :: ((opStr i).data.reverse ++ ' ' :: (a.render.data.reverse ++ '(' :: done0)))
          (')' :: rest)
          ⟨"", "", false, (a.finalToks ++ [Tok.op (opStr i)]) ++ b.finalToks,
            st.target :: st.parents⟩ := by
      cases hbn : b.neg with
      | false =>
        have hBdata : b.render.data = b.renderCore.data := by
          rw [GExpr.render_data, hbn]
          rfl
        rw [hBdata]
        have hshapeB : b.renderCore.data ++ ')' :: rest =
            b.renderCore.data ++ ')' :: rest := rfl
        have hm := findOpMatch_delim_core b hwb ' ' (Or.inl rfl) (')' :: rest)
        rw [runParse_space_none _ _ _ rfl (by simp) hm]
        rw [ihb hwb
          (' ' :: ((opStr i).data.reverse ++ ' ' :: (a.render.data.reverse ++ '(' :: done0)))
          (')' :: rest)
          (⟨"", "", false, a.finalToks ++ [Tok.op (opStr i)],
            st.target :: st.parents⟩ : PState)
          (a.finalToks ++ [Tok.op (opStr i)]) (Or.inr (Or.inl rfl))
          (by simp) rfl rfl (by simp [hbn]) hOpLast]
      | true =>
        have hBdata : b.render.data = ['n', 'o', 't', ' '] ++ b.renderCore.data := by
          rw [GExpr.render_data, hbn]
          rfl
        rw [hBdata]
        have htake4 : ((['n', 'o', 't', ' '] ++ b.renderCore.data) ++ ')' :: rest).take 4 =
            ['n', 'o', 't', ' '] := by
          simp
        have htake3 : ((['n', 'o', 't', ' '] ++ b.renderCore.data) ++ ')' :: rest).take 3 =
            ['n', 'o', 't'] := by
          simp
        have hdrop : ((['n', 'o', 't', ' '] ++ b.renderCore.data) ++ ')' :: rest).drop 3 =
            ' ' :: (b.renderCore.data ++ ')' :: rest) := by
          simp
        rw [runParse_space_opNot _ _ _ rfl
          (by rw [htake4]; exact findOpMatch_space_not [])
          (by rw [hdrop]; simp)]
        rw [htake3, hdrop]
        have hm2 := findOpMatch_delim_core b hwb ' ' (Or.inl rfl) (')' :: rest)
        rw [runParse_space_none _ _ _ rfl (by simp) hm2]
        rw [ihb hwb
          (' ' :: (['n', 'o', 't'].reverse ++
            ' ' :: ((opStr i).data.reverse ++ ' ' :: (a.render.data.reverse ++ '(' :: done0))))
          (')' :: rest)
          (⟨"", "", false, (a.finalToks ++ [Tok.op (opStr i)]) ++ [Tok.op "not"],
            st.target :: st.parents⟩ : PState)
          (a.finalToks ++ [Tok.op (opStr i)]) (Or.inr (Or.inl rfl))
          (by simp) rfl rfl (by simp [hbn]) hOpLast]
        simp
    rw [stepC]
    -- the closing parenthesis
    have hred := reduceGroup_binary a.finalToks b.finalToks a.toAst b.toAst (opStr i)
      (GExpr.finalToks_shape a) (GExpr.finalToks_shape b)
      (by cases i <;> simp [opStr])
    rw [runParse_rparen
      (b.render.data.reverse ++
        ' ' :: ((opStr i).data.reverse ++ ' ' :: (a.render.data.reverse ++ '(' :: done0)))
      rest
      (⟨"", "", false, (a.finalToks ++ [Tok.op (opStr i)]) ++ b.finalToks,
        st.target :: st.parents⟩ : PState)
      st.target st.parents
      [Tok.expr (.binary (.expr a.toAst) (opStr i) (.expr b.toAst))]
      (by simp) rfl hrest rfl
      (by
        rcases GExpr.finalToks_shape a with h | ⟨x, h, hx⟩ <;>
          rcases GExpr.finalToks_shape b with h' | ⟨x', h', hx'⟩ <;>
            simp [h, h'])
      hred rfl]
    rw [htgt]
    have hfin : (base ++ (if n then [Tok.op "not"] else [])) ++
        [Tok.expr (.binary (.expr a.toAst) (opStr i) (.expr b.toAst))] =
        base ++ (GExpr.node n a i b).finalToks := by
      cases n <;> simp [GExpr.finalToks]
    rw [hfin]
    have hdone : ')' :: (b.render.data.reverse ++
        ' ' :: ((opStr i).data.reverse ++ ' ' :: (a.render.data.reverse ++ '(' :: done0))) =
        ('(' :: (a.render.data ++
          ' ' :: ((opStr i).data ++ ' ' :: (b.render.data ++ [')'])))).reverse ++ done0 := by
      simp
    rw [hdone]

/-- The final closing round with no parent left: the root group is
reduced in place. -/
theorem closeCascade_root (st : PState) (red : List Tok)
    (hpar : st.parents = []) (hne : st.target.length ≠ 0)
    (hred : reduceGroup (st.target.length + 1) st.target = red) :
    closeCascade true st = { st with target := red } := by
  obtain ⟨pa, va, iv, tg, prs⟩ := st
  simp only at hpar hne hred ⊢
  subst hpar
  rw [closeCascade.eq_def]
  simp [hne, hred]

/-- The final cascade over exactly one parent frame: the group is
reduced and merged into the parent, then the root is reduced. -/
theorem closeCascade_lastPair (st : PState) (p : List Tok) (red red2 : List Tok)
    (hpar : st.parents = [p]) (hne : st.target.length ≠ 0)
    (hred : reduceGroup (st.target.length + 1) st.target = red)
    (hlen : red.length = 1)
    (hne2 : (p ++ red).length ≠ 0)
    (hred2 : reduceGroup ((p ++ red).length + 1) (p ++ red) = red2) :
    closeCascade true st =
      { st with
          target := red2
          parents := [] } := by
  obtain ⟨pa, va, iv, tg, prs⟩ := st
  simp only at hpar hne hred ⊢
  subst hpar
  rw [closeCascade.eq_def]
  simp only [hne, hred, hlen, if_neg (by omega : ¬tg.length = 0)]
  have hroot := closeCascade_root ⟨pa, va, iv, p ++ red, []⟩ red2 rfl hne2 hred2
  simp only [if_pos rfl] at hroot ⊢
  simp [hroot, hlen]

/-- `}` as the last character: the leaf is closed (absorbing a
pending `'not'`) and the final cascade runs. -/
theorem runParse_rbrace_neg_last (done : List Char) (st : PState) (base : List Tok)
    (hdone : done ≠ []) (htgt : st.target = base ++ [Tok.op "not"]) :
    runParse done ['}'] st =
      closeCascade true
        { st with
            target := base ++ [Tok.expr (.uleaf st.path st.value true)]
            path := ""
            value := ""
            isValue := false } := by
  rw [runParse]
  have hlast : st.target.getLast? = some (Tok.op "not") := by
    rw [htgt]; simp
  have hdrop : st.target.dropLast = base := by
    rw [htgt]; simp
  simp [hdone, hlast, hdrop]
  rw [runParse_nil]

/-- `}` as the last character without a pending `'not'`. -/
theorem runParse_rbrace_pos_last (done : List Char) (st : PState)
    (hdone : done ≠ []) (hlast : st.target.getLast? ≠ some (Tok.op "not")) :
    runParse done ['}'] st =
      closeCascade true
        { st with
            target := st.target ++ [Tok.expr (.uleaf st.path st.value false)]
            path := ""
            value := ""
            isValue := false } := by
  rw [runParse]
  have hneg : (match st.target.getLast? with
      | some (.op s) => s == "not"
      | _ => false) = false := by
    cases h : st.target.getLast? with
    | none => rfl
    | some t =>
      cases t with
      | op s =>
        have hs : s ≠ "not" := fun hs => hlast (by rw [h, hs])
        simp [hs]
      | expr e => rfl
      | arr ts => rfl
      | undef => rfl
  simp [hdone, hneg]
  rw [runParse_nil]

/-- `)` as the last character starts the final cascade. -/
theorem runParse_rparen_last (done : List Char) (st : PState)
    (hdone : done ≠ []) (hval : st.isValue = false) :
    runParse done [')'] st = closeCascade true st := by
  rw [runParse]
  simp [hdone, hval]
  rw [runParse_nil]

/-- Parsing `(` followed by a full first operand: the frame is
pushed and the operand's tokens land inside it. -/
theorem runParse_group_first (a : GExpr) (hwa : a.wf = true) (tail done0 : List Char)
    (st : PState) (htail : tail ≠ [])
    (hval : st.isValue = false) (hv0 : st.value = "") :
    runParse done0 ('(' :: (a.render.data ++ tail)) st =
      runParse (a.render.data.reverse ++ '(' :: done0) tail
        ⟨"", "", false, a.finalToks, st.target :: st.parents⟩ := by
  cases han : a.neg with
  | false =>
    have hAdata : a.render.data = a.renderCore.data := by
      rw [GExpr.render_data, han]
      rfl
    rw [hAdata]
    have hm := findOpMatch_delim_core a hwa '(' (Or.inr rfl) tail
    rw [runParse_lparen_none done0 _ st hval (by simp [htail]) hm]
    rw [runParse_core a hwa ('(' :: done0) tail
      { st with
          target := ([] : List Tok)
          parents := st.target :: st.parents }
      [] (Or.inr (Or.inr rfl)) htail hval hv0 (by simp [han]) (by simp)]
    simp
  | true =>
    have hAdata : a.render.data = ['n', 'o', 't', ' '] ++ a.renderCore.data := by
      rw [GExpr.render_data, han]
      rfl
    rw [hAdata]
    have htake : ((['n', 'o', 't', ' '] ++ a.renderCore.data) ++ tail).take 3 =
        ['n', 'o', 't'] := by
      simp
    have htake4 : ((['n', 'o', 't', ' '] ++ a.renderCore.data) ++ tail).take 4 =
        ['n', 'o', 't', ' '] := by
      simp
    have hdrop : ((['n', 'o', 't', ' '] ++ a.renderCore.data) ++ tail).drop 3 =
        ' ' :: (a.renderCore.data ++ tail) := by
      simp
    rw [runParse_lparen_opNot done0 _ st hval
      (by rw [htake4]; exact findOpMatch_lparen_not [])
      (by rw [hdrop]; simp)]
    rw [htake, hdrop]
    have hm2 := findOpMatch_delim_core a hwa ' ' (Or.inl rfl) tail
    rw [runParse_space_none _ _ _ (by exact hval) (by simp [htail]) hm2]
    rw [runParse_core a hwa (' ' :: (['n', 'o', 't'].reverse ++ '(' :: done0)) tail
      { st with
          target := [Tok.op "not"]
          parents := st.target :: st.parents }
      [] (Or.inr (Or.inl rfl)) htail hval hv0 (by simp [han]) (by simp)]
    simp

/-- Parsing the ` and ` / ` or ` separator: the operator word is
appended to the target. -/
theorem runParse_sep (i : Bool) (done0 : List Char) (x : Char) (xs : List Char)
    (st : PState) (hval : st.isValue = false) :
    runParse done0 (' ' :: ((opStr i).data ++ ' ' :: x :: xs)) st =
      runParse ((opStr i).data.reverse ++ ' ' :: done0) (' ' :: x :: xs)
        { st with target := st.target ++ [Tok.op (opStr i)] } := by
  cases i with
  | true =>
    have hop : (opStr true).data = ['a', 'n', 'd'] := rfl
    rw [hop]
    have htake : (['a', 'n', 'd'] ++ ' ' :: x :: xs).take 4 = ['a', 'n', 'd', ' '] := by
      simp
    have htake3 : (['a', 'n', 'd'] ++ ' ' :: x :: xs).take 3 = ['a', 'n', 'd'] := by
      simp
    have hdrop : (['a', 'n', 'd'] ++ ' ' :: x :: xs).drop 3 = ' ' :: x :: xs := by
      simp
    rw [runParse_space_opAnd _ _ _ hval
      (by rw [htake]; exact findOpMatch_space_and [])
      (by rw [hdrop]; simp)]
    rw [htake3, hdrop]
    simp [opStr]
  | false =>
    have hop : (opStr false).data = ['o', 'r'] := rfl
    rw [hop]
    have htake : (['o', 'r'] ++ ' ' :: x :: xs).take 4 = ['o', 'r', ' ', x] := by
      simp
    have htake2 : (['o', 'r'] ++ ' ' :: x :: xs).take 2 = ['o', 'r'] := by
      simp
    have hdrop : (['o', 'r'] ++ ' ' :: x :: xs).drop 2 = ' ' :: x :: xs := by
      simp
    rw [runParse_space_opOr _ _ _ hval
      (by rw [htake]; exact findOpMatch_space_or x [])
      (by rw [hdrop]; simp)]
    rw [htake2, hdrop]
    simp [opStr]

/-- Parsing a space followed by a full operand: the operand's tokens
are appended to the target. -/
theorem runParse_operand (b : GExpr) (hwb : b.wf = true) (tail done0 : List Char)
    (st : PState) (base : List Tok) (htail : tail ≠ [])
    (hval : st.isValue = false) (hv0 : st.value = "")
    (htgt : st.target = base) (hbase : base.getLast? ≠ some (Tok.op "not")) :
    runParse done0 (' ' :: (b.render.data ++ tail)) st =
      runParse (b.render.data.reverse ++ ' ' :: done0) tail
        { st with
            target := base ++ b.finalToks
            path := ""
            value := ""
            isValue := false } := by
  cases hbn : b.neg with
  | false =>
    have hBdata : b.render.data = b.renderCore.data := by
      rw [GExpr.render_data, hbn]
      rfl
    rw [hBdata]
    have hm := findOpMatch_delim_core b hwb ' ' (Or.inl rfl) tail
    rw [runParse_space_none _ _ _ hval (by simp [htail]) hm]
    rw [runParse_core b hwb (' ' :: done0) tail st base (Or.inr (Or.inl rfl)) htail
      hval hv0 (by simp [hbn, htgt]) hbase]
  | true =>
    have hBdata : b.render.data = ['n', 'o', 't', ' '] ++ b.renderCore.data := by
      rw [GExpr.render_data, hbn]
      rfl
    rw [hBdata]
    have htake4 : ((['n', 'o', 't', ' '] ++ b.renderCore.data) ++ tail).take 4 =
        ['n', 'o', 't', ' '] := by
      simp
    have htake3 : ((['n', 'o', 't', ' '] ++ b.renderCore.data) ++ tail).take 3 =
        ['n', 'o', 't'] := by
      simp
    have hdrop : ((['n', 'o', 't', ' '] ++ b.renderCore.data) ++ tail).drop 3 =
        ' ' :: (b.renderCore.data ++ tail) := by
      simp
    rw [runParse_space_opNot _ _ _ hval
      (by rw [htake4]; exact findOpMatch_space_not [])
      (by rw [hdrop]; simp)]
    rw [htake3, hdrop]
    have hm2 := findOpMatch_delim_core b hwb ' ' (Or.inl rfl) tail
    rw [runParse_space_none _ _ _ (by exact hval) (by simp [htail]) hm2]
    rw [runParse_core b hwb
      (' ' :: (['n', 'o', 't'].reverse ++ ' ' :: done0)) tail
      { st with target := st.target ++ [Tok.op "not"] }
      base (Or.inr (Or.inl rfl)) htail hval hv0 (by simp [hbn, htgt]) hbase]
    simp

/-- Parsing a well-formed core as the tail of the whole string, with
no enclosing frame: the final cascade leaves exactly the operand's
expression object in the root group. -/
theorem runParse_coreLast (g : GExpr) (hw : g.wf = true) (done0 : List Char) (st : PState)
    (hd0 : done0 = [] ∨ done0.head? = some ' ' ∨ done0.head? = some '(')
    (hval : st.isValue = false) (hv0 : st.value = "")
    (htgt : st.target = (if g.neg then [Tok.op "not"] else []))
    (hpar : st.parents = []) :
    runParse done0 g.renderCore.data st = ⟨"", "", false, [Tok.expr g.toAst], []⟩ := by
  cases g with
  | leaf n p v =>
    simp only [GExpr.wf, Bool.and_eq_true] at hw
    simp only [GExpr.neg] at htgt
    rw [GExpr.core_data_leaf]
    rw [runParse_leafBody p v hw.1 hw.2 done0 ['}'] st hd0 hval hv0]
    cases n with
    | true =>
      rw [runParse_rbrace_neg_last _ _ []
        (by simp) (by simpa using htgt)]
      rw [closeCascade_root _ [Tok.expr (.uleaf p v true)] (by simp [hpar]) (by simp)
        (by simp [reduceGroup_single])]
      simp [GExpr.toAst, hpar]
    | false =>
      rw [runParse_rbrace_pos_last _ _
        (by simp) (by simp [htgt])]
      rw [closeCascade_root _ [Tok.expr (.uleaf p v false)] (by simp [hpar]) (by simp)
        (by simp [htgt, reduceGroup_single])]
      simp [GExpr.toAst, hpar, htgt]
  | node n a i b =>
    simp only [GExpr.wf, Bool.and_eq_true] at hw
    obtain ⟨hwa, hwb⟩ := hw
    simp only [GExpr.neg] at htgt
    rw [GExpr.core_data_node]
    rw [runParse_group_first a hwa
      (' ' :: ((opStr i).data ++ ' ' :: (b.render.data ++ [')']))) done0 st
      (by simp) hval hv0]
    obtain ⟨b0, bs, hb0⟩ : ∃ b0 bs, b.render.data = b0 :: bs := by
      have hlenB := GExpr.render_len b hwb
      cases hbd : b.render.data with
      | nil => rw [hbd] at hlenB; simp at hlenB
      | cons x xs => exact ⟨x, xs, rfl⟩
    have hBsh : b.render.data ++ [')'] = b0 :: (bs ++ [')']) := by
      rw [hb0]
      rfl
    rw [hBsh]
    rw [runParse_sep i (a.render.data.reverse ++ '(' :: done0) b0 (bs ++ [')'])
      (⟨"", "", false, a.finalToks, st.target :: st.parents⟩ : PState) rfl]
    have hBsh2 : (' ' :: (b0 :: (bs ++ [')']))) = ' ' :: (b.render.data ++ [')']) := by
      rw [hb0]
      rfl
    rw [hBsh2]
    rw [runParse_operand b hwb [')']
      ((opStr i).data.reverse ++ ' ' :: (a.render.data.reverse ++ '(' :: done0))
      { (⟨"", "", false, a.finalToks, st.target :: st.parents⟩ : PState) with
          target := a.finalToks ++ [Tok.op (opStr i)] }
      (a.finalToks ++ [Tok.op (opStr i)])
      (by simp) rfl rfl (by simp)
      (by
        rw [List.getLast?_concat]
        intro h
        injection h with h
        cases i <;> simp [opStr] at h)]
    rw [runParse_rparen_last _ _ (by simp) rfl]
    have hred := reduceGroup_binary a.finalToks b.finalToks a.toAst b.toAst (opStr i)
      (GExpr.finalToks_shape a) (GExpr.finalToks_shape b)
      (by cases i <;> simp [opStr])
    rw [closeCascade_lastPair _ (if n then [Tok.op "not"] else [])
      [Tok.expr (.binary (.expr a.toAst) (opStr i) (.expr b.toAst))]
      [Tok.expr (GExpr.node n a i b).toAst]
      (by simp [htgt, hpar])
      (by
        rcases GExpr.finalToks_shape a with h | ⟨x, h, hx⟩ <;>
          rcases GExpr.finalToks_shape b with h' | ⟨x', h', hx'⟩ <;>
            simp [h, h'])
      hred rfl
      (by cases n <;> simp)
      (by
        cases n with
        | true =>
          simp only [if_pos rfl]
          have := reduceGroup_notWrap (.binary (.expr a.toAst) (opStr i) (.expr b.toAst))
          simpa [GExpr.toAst] using this
        | false =>
          simp only [if_neg Bool.false_ne_true]
          have := reduceGroup_single (.binary (.expr a.toAst) (opStr i) (.expr b.toAst))
          simpa [GExpr.toAst] using this)]

/-- The parser maps every well-formed render to its expression
object. -/
theorem fromString_render (g : GExpr) (hw : g.wf = true) :
    fromString g.render = Tok.expr g.toAst := by
  rw [fromString]
  cases hn : g.neg with
  | false =>
    have hdata : g.render.data = g.renderCore.data := by
      rw [GExpr.render_data, hn]
      rfl
    rw [hdata,
      runParse_coreLast g hw [] ⟨"", "", false, [], []⟩ (Or.inl rfl) rfl rfl
        (by simp [hn]) rfl]
    simp
  | true =>
    have hdata : g.render.data =
        'n' :: 'o' :: 't' :: ' ' :: g.renderCore.data := by
      rw [GExpr.render_data, hn]
      rfl
    rw [hdata]
    obtain ⟨c0, cs, hc0⟩ : ∃ c0 cs, g.renderCore.data = c0 :: cs := by
      have hlen := GExpr.renderCore_len g hw
      cases hcd : g.renderCore.data with
      | nil => rw [hcd] at hlen; simp at hlen
      | cons x xs => exact ⟨x, xs, rfl⟩
    have htake4 : ('o' :: 't' :: ' ' :: g.renderCore.data).take 4 =
        ['o', 't', ' ', c0] := by
      rw [hc0]
      rfl
    have htake3 : ('o' :: 't' :: ' ' :: g.renderCore.data).take 3 =
        ['o', 't', ' '] := rfl
    have hdrop : ('o' :: 't' :: ' ' :: g.renderCore.data).drop 3 =
        g.renderCore.data := rfl
    rw [runParse_top_opNot _ _ rfl
      (by rw [htake4]; exact findOpMatch_top_not [c0])
      (by rw [hdrop, hc0]; simp)]
    rw [htake3, hdrop]
    rw [runParse_coreLast g hw (['o', 't', ' '].reverse ++ ['n'])
      { (⟨"", "", false, [], []⟩ : PState) with target := [] ++ [Tok.op "not"] }
      (Or.inr (Or.inl rfl)) rfl rfl (by simp [hn]) rfl]
    simp

/-- `toString()` of the expression object of a grammar term
reproduces its render. -/
theorem toStr_toAst (g : GExpr) : g.toAst.toStr = g.render := by
  induction g with
  | leaf n p v =>
    rw [GExpr.toAst, GExpr.render]
    cases n <;> simp [JExpr.toStr, String.append_assoc]
  | node n a i b iha ihb =>
    rw [GExpr.toAst, GExpr.render]
    cases n <;>
      simp [JExpr.toStr, Tok.toStr, iha, ihb, String.append_assoc]

/-- Witness for `mergeObjects_contract`: `{a:1}` merged with `{a:2}`
gives `a = 2` (declaration wins); `[1,2]` merged with `[2,3]` gives
`[1,2,3]` (dedup append). -/
theorem mergeObjects_contract_witness :
    getKey [("a", JVal.vnum 2)] "a" = some (JVal.vnum 2) ∧
    mergeObjects (.varr [JVal.vnum 1, JVal.vnum 2]) (.varr [JVal.vnum 2, JVal.vnum 3]) =
      .ok (.varr [JVal.vnum 1, JVal.vnum 2, JVal.vnum 3]) := by
  constructor
  · exact ((mergeObjects_contract).1 [("a", JVal.vnum 1)] [("a", JVal.vnum 2)]
      [("a", JVal.vnum 2)] "a" (JVal.vnum 2) (by simp)
      (by
        rw [mergeObjects_vobj_eq]
        simp [mergeObjLoop, getProp, getKey, setKey, isObjectType, jtruthy]) rfl).1
      (fun hc => Bool.noConfusion hc.1)
  · have hsc : ∀ e ∈ [JVal.vnum 2, JVal.vnum 3], isObjectType e = false := by
      intro e he
      rcases List.mem_cons.mp he with rfl | he
      · rfl
      · rcases List.mem_cons.mp he with rfl | he
        · rfl
        · exact absurd he (List.not_mem_nil e)
    exact ((mergeObjects_contract).2.2.2 [JVal.vnum 1, JVal.vnum 2]
      [JVal.vnum 2, JVal.vnum 3] hsc).trans rfl

theorem notWord_length : ("not " : String).length - 1 = 3 := by decide

theorem notWord_dropRight : ("not " : String).dropRight 1 = "not" := by decide

theorem singleA_asString : (['a'] : List Char).asString = "a" := by decide

theorem emptyPush_one : ("" : String).push '1' = "1" := by decide

/-- C7: counterexample.  The string `"(not not a:{1})"` lies in the
claim's supported grammar (a parenthesized group containing a
twice-negated leaf, exhibited through `CExpr`), and its parse is the
double negation, which evaluates to the tester's verdict itself; but
serializing that parse yields `"not not a:{1}"`, which reparses to a
*single* negation — the scanner consumes the first `not ` and then
stands on the second `n` with a non-delimiter character before it, so
no second operator window is ever opened — and therefore evaluates to
the opposite verdict.  `toString()` of `fromString` is not a
round-trip on the claimed grammar. -/
theorem roundtrip_counterexample :
    CExpr.render (.cparen (.cnot (.cnot (.cleaf "a" "1")))) = "(not not a:{1})" ∧
    fromString "(not not a:{1})" = Tok.expr (.uwrap (.uleaf "a" "1" true) true) ∧
    (fromString "(not not a:{1})").toStr = "not not a:{1}" ∧
    (fromString "(not not a:{1})").succeedsWith (fun _ _ => true) = .ok true ∧
    (fromString ((fromString "(not not a:{1})").toStr)).succeedsWith (fun _ _ => true) =
      .ok false := by
  have hp1 : fromString "(not not a:{1})" = Tok.expr (.uwrap (.uleaf "a" "1" true) true) := by
    simp [fromString, runParse, closeCascade, reduceGroup, reduceScan, findOpMatch,
      mkUnary, notWord_length, notWord_dropRight, singleA_asString, emptyPush_one]
  have hp2 : fromString "not not a:{1}" = Tok.expr (.uleaf "a" "1" true) := by
    simp [fromString, runParse, closeCascade, reduceGroup, reduceScan, findOpMatch,
      mkUnary, notWord_length, notWord_dropRight, singleA_asString, emptyPush_one]
  have htos : (Tok.expr (JExpr.uwrap (.uleaf "a" "1" true) true)).toStr =
      "not not a:{1}" := by
    simp [Tok.toStr, JExpr.toStr]
  refine ⟨by decide, hp1, ?_, ?_, ?_⟩
  · rw [hp1, htos]
  · rw [hp1]
    simp [Tok.succeedsWith, JExpr.succeedsWith]
  · rw [hp1, htos, hp2]
    simp [Tok.succeedsWith, JExpr.succeedsWith]

/-! ### The broadened round-trip grammar (C7)

`GExpr` above covers only binary groups.  The grammar below covers the
full shape the parser supports and the claim quantifies over: a
condition string is a *chain* — one or more operands separated by
` and ` / ` or ` — where an operand is a leaf `path:{value}` or a
parenthesized group containing a chain, each optionally prefixed by
`not `.  Groups may hold a single operand or an n-ary chain, and the
whole string is an unparenthesized chain. -/

mutual
/-- An operand: a leaf or a parenthesized group, optionally negated. -/
inductive EOp where
  | oleaf (negate : Bool) (path value : String)
  | ogroup (negate : Bool) (c : EChain)

/-- A chain: operands joined left-to-right by `and` / `or`. -/
inductive EChain where
  | single (o : EOp)
  | more (o : EOp) (isAnd : Bool) (c : EChain)
end

/-- The `not ` prefix flag of an operand. -/
def EOp.neg : EOp → Bool
  | .oleaf n _ _ => n
  | .ogroup n _ => n

mutual
/-- Serialisation of an operand. -/
def EOp.render : EOp → String
  | .oleaf n p v => (if n then "not " else "") ++ (p ++ ":\x7b" ++ v ++ "\x7d")
  | .ogroup n c => (if n then "not " else "") ++ ("(" ++ EChain.render c ++ ")")

/-- Serialisation of a chain: operands joined by ` and ` / ` or `. -/
def EChain.render : EChain → String
  | .single o => EOp.render o
  | .more o i c => EOp.render o ++ " " ++ opStr i ++ " " ++ EChain.render c
end

/-- An operand's render without its `not ` prefix. -/
def EOp.renderCore : EOp → String
  | .oleaf _ p v => p ++ ":\x7b" ++ v ++ "\x7d"
  | .ogroup _ c => "(" ++ EChain.render c ++ ")"

theorem EOp.op_render_eq (o : EOp) :
    o.render = (if o.neg then "not " else "") ++ o.renderCore := by
  cases o <;> rfl

mutual
/-- The expression object the parser builds for an operand: a group
reduces to its chain's object, wrapped once when negated. -/
def EOp.toAst : EOp → JExpr
  | .oleaf n p v => .uleaf p v n
  | .ogroup n c => if n then .uwrap (EChain.toAst c) true else EChain.toAst c

/-- The expression object of a chain: the left-associative fold the
group-reduction loop produces. -/
def EChain.toAst : EChain → JExpr
  | .single o => EOp.toAst o
  | .more o i c => EChain.astFrom (EOp.toAst o) i c

/-- Left-associative accumulation: `acc` is the already-built left
part, `i` the operator pending between it and the next operand. -/
def EChain.astFrom (acc : JExpr) (i : Bool) : EChain → JExpr
  | .single o => .binary (.expr acc) (opStr i) (.expr (EOp.toAst o))
  | .more o i2 c =>
    EChain.astFrom (.binary (.expr acc) (opStr i) (.expr (EOp.toAst o))) i2 c
end

/-- The array elements a parsed operand leaves in the current group:
a leaf's negation is absorbed into the leaf object, a group's `not `
stays behind as a separate `'not'` element. -/
def EOp.finalToks : EOp → List Tok
  | .oleaf n p v => [.expr (.uleaf p v n)]
  | .ogroup n c =>
    if n then [.op "not", .expr (EChain.toAst c)] else [.expr (EChain.toAst c)]

/-- The array contents of a fully parsed chain before reduction. -/
def EChain.finalToks : EChain → List Tok
  | .single o => EOp.finalToks o
  | .more o i c => EOp.finalToks o ++ Tok.op (opStr i) :: EChain.finalToks c

/-- Whether an expression object's `toString()` starts with `not `
(the serialisations that a prefixed `not` cannot distinguish from its
own word). -/
def JExpr.negTop : JExpr → Bool
  | .uleaf _ _ n => n
  | .uwrap _ n => n
  | _ => false

mutual
/-- Well-formedness: leaf paths nonempty and free of the scanner's
special characters, values free of braces, and `not` never applied to
a group whose object is itself negated (the double-negation shapes the
serialiser cannot round-trip; see the counterexample). -/
def EOp.wf : EOp → Bool
  | .oleaf _ p v => pathOk p && valueOk v
  | .ogroup n c => EChain.wf c && (!n || !(EChain.toAst c).negTop)

/-- Well-formedness of a chain: every operand is well-formed. -/
def EChain.wf : EChain → Bool
  | .single o => EOp.wf o
  | .more o _ c => EOp.wf o && EChain.wf c
end

/-- The first operand of a chain. -/
def EChain.headOp : EChain → EOp
  | .single o => o
  | .more o _ _ => o

theorem EOp.core_data_oleaf (n : Bool) (p v : String) :
    (EOp.oleaf n p v).renderCore.data = p.data ++ ':' :: '{' :: (v.data ++ ['}']) := by
  simp [EOp.renderCore, data_append, data_colonBrace, data_rbraceStr]

theorem EOp.core_data_ogroup (n : Bool) (c : EChain) :
    (EOp.ogroup n c).renderCore.data = '(' :: (c.render.data ++ [')']) := by
  simp [EOp.renderCore, data_append, data_lparen, data_rparen]

theorem EOp.op_render_data (o : EOp) :
    o.render.data = (if o.neg then ['n', 'o', 't', ' '] else []) ++ o.renderCore.data := by
  rw [EOp.op_render_eq o]
  cases o.neg <;> simp [data_append, data_notWord, data_emptyStr]

theorem EChain.data_single (o : EOp) : (EChain.single o).render.data = o.render.data := by
  simp [EChain.render]

theorem EChain.data_more (o : EOp) (i : Bool) (c : EChain) :
    (EChain.more o i c).render.data =
      o.render.data ++ ' ' :: ((opStr i).data ++ ' ' :: c.render.data) := by
  simp [EChain.render, data_append, data_space]

theorem EChain.data_head (c : EChain) :
    ∃ zs, c.render.data = c.headOp.render.data ++ zs := by
  cases c with
  | single o => exact ⟨[], by simp [EChain.data_single, EChain.headOp]⟩
  | more o i c' =>
    exact ⟨' ' :: ((opStr i).data ++ ' ' :: c'.render.data),
      by simp [EChain.data_more, EChain.headOp]⟩

theorem EChain.headOp_wf (c : EChain) (hw : c.wf = true) : c.headOp.wf = true := by
  cases c with
  | single o => simpa [EChain.wf, EChain.headOp] using hw
  | more o i c' =>
    simp only [EChain.wf, Bool.and_eq_true] at hw
    simpa [EChain.headOp] using hw.1

/-- Length and no-early-space facts for a well-formed operand: the
core is at least four characters, and no space occurs among the first
three characters of the render. -/
theorem EOp.render_factsAux :
    ∀ (k : Nat) (o : EOp), sizeOf o < k → o.wf = true →
      4 ≤ o.renderCore.data.length ∧ ∀ j < 3, ¬o.render.data[j]? = some ' ' := by
  intro k
  induction k with
  | zero => intro o hk; omega
  | succ k ih =>
  intro o hk hw
  cases o with
  | oleaf n p v =>
    simp only [EOp.wf, Bool.and_eq_true] at hw
    have hp := pathOk_ne_nil p hw.1
    have hmem := pathOk_mem p hw.1
    have h1 : 1 ≤ p.data.length := by
      cases h : p.data with
      | nil => exact absurd h hp
      | cons a t => simp
    constructor
    · rw [EOp.core_data_oleaf]
      simp only [List.length_append, List.length_cons]
      omega
    · intro j hj
      rw [EOp.op_render_data]
      cases n with
      | true => interval_cases j <;> simp [EOp.neg]
      | false =>
        simp only [EOp.neg, if_neg Bool.false_ne_true, List.nil_append,
          EOp.core_data_oleaf]
        by_cases hjp : j < p.data.length
        · rw [List.getElem?_append_left hjp]
          intro hc
          exact (hmem _ (List.getElem?_mem hc)).1 rfl
        · rw [List.getElem?_append_right (Nat.le_of_not_lt hjp)]
          have h2 : j - p.data.length < 2 := by omega
          interval_cases h : j - p.data.length <;> simp_all
  | ogroup n c =>
    simp only [EOp.wf, Bool.and_eq_true] at hw
    have hw1 : c.headOp.wf = true := EChain.headOp_wf c hw.1
    have hh : sizeOf c.headOp < sizeOf c := by
      cases c <;> simp [EChain.headOp] <;> omega
    have hsz : sizeOf c < sizeOf (EOp.ogroup n c) := by
      simp <;> omega
    have hfacts := ih c.headOp (by omega) hw1
    have hlen1 : 4 ≤ c.headOp.render.data.length := by
      rw [EOp.op_render_data]
      cases c.headOp.neg <;> simp only [List.length_append, List.length_cons,
        List.length_nil, List.nil_append] <;> omega
    obtain ⟨zs, hzs⟩ := EChain.data_head c
    have hclen : 4 ≤ c.render.data.length := by
      rw [hzs]
      simp only [List.length_append]
      omega
    constructor
    · rw [EOp.core_data_ogroup]
      simp only [List.length_cons, List.length_append, List.length_nil]
      omega
    · intro j hj
      rw [EOp.op_render_data]
      cases n with
      | true => interval_cases j <;> simp [EOp.neg]
      | false =>
        simp only [EOp.neg, if_neg Bool.false_ne_true, List.nil_append,
          EOp.core_data_ogroup]
        cases j with
        | zero => simp
        | succ j2 =>
          rw [List.getElem?_cons_succ, List.getElem?_append_left (by omega)]
          rw [hzs, List.getElem?_append_left (by omega)]
          exact hfacts.2 j2 (by omega)

theorem EOp.render_facts (o : EOp) (hw : o.wf = true) :
    4 ≤ o.renderCore.data.length ∧ ∀ j < 3, ¬o.render.data[j]? = some ' ' :=
  EOp.render_factsAux (sizeOf o + 1) o (by omega) hw

theorem EOp.op_renderCore_len (o : EOp) (hw : o.wf = true) :
    4 ≤ o.renderCore.data.length := (EOp.render_facts o hw).1

theorem EOp.op_no_space_lt3 (o : EOp) (hw : o.wf = true) :
    ∀ j < 3, ¬o.render.data[j]? = some ' ' := (EOp.render_facts o hw).2

theorem EOp.op_render_len (o : EOp) (hw : o.wf = true) : 4 ≤ o.render.data.length := by
  rw [EOp.op_render_data]
  have := EOp.op_renderCore_len o hw
  simp only [List.length_append]
  omega

theorem EChain.chain_render_len (c : EChain) (hw : c.wf = true) :
    4 ≤ c.render.data.length := by
  obtain ⟨zs, hzs⟩ := EChain.data_head c
  rw [hzs]
  have := EOp.op_render_len c.headOp (EChain.headOp_wf c hw)
  simp only [List.length_append]
  omega

theorem EChain.chain_no_space_lt3 (c : EChain) (hw : c.wf = true) :
    ∀ j < 3, ¬c.render.data[j]? = some ' ' := by
  obtain ⟨zs, hzs⟩ := EChain.data_head c
  intro j hj
  rw [hzs, List.getElem?_append_left
    (by have := EOp.op_render_len c.headOp (EChain.headOp_wf c hw); omega)]
  exact EOp.op_no_space_lt3 c.headOp (EChain.headOp_wf c hw) j hj

/-- A window consisting of a delimiter (space or `(`) followed by the
first four characters of a well-formed operand core matches no
operator. -/
theorem findOpMatch_delim_opCoreE (o : EOp) (hw : o.wf = true) (d : Char)
    (hd : d = ' ' ∨ d = '(') (tail : List Char) :
    findOpMatch (d :: (o.renderCore.data ++ tail).take 4) = none := by
  cases o with
  | oleaf n p v =>
    simp only [EOp.wf, Bool.and_eq_true] at hw
    rw [EOp.core_data_oleaf]
    have hshape : (p.data ++ ':' :: '{' :: (v.data ++ ['}'])) ++ tail =
        p.data ++ ':' :: '{' :: ((v.data ++ ['}']) ++ tail) := by
      simp [List.append_assoc]
    rw [hshape]
    exact findOpMatch_delim_leaf d hd p hw.1 _
  | ogroup n c =>
    simp only [EOp.wf, Bool.and_eq_true] at hw
    have hlen := EChain.chain_render_len c hw.1
    have hsp := EChain.chain_no_space_lt3 c hw.1
    rw [EOp.core_data_ogroup]
    rcases hdata : c.render.data with _ | ⟨r0, _ | ⟨r1, _ | ⟨r2, t⟩⟩⟩
    · rw [hdata] at hlen; simp at hlen
    · rw [hdata] at hlen; simp at hlen
    · rw [hdata] at hlen; simp at hlen
    · have hr2 : r2 ≠ ' ' := by
        intro hr
        exact hsp 2 (by omega) (by rw [hdata, hr]; simp)
      have hshape : ('(' :: ((r0 :: r1 :: r2 :: t) ++ [')']) ++ tail).take 4 =
          ['(', r0, r1, r2] := by
        simp
      rw [hshape]
      rcases hd with rfl | rfl <;>
        simp [findOpMatch, List.isPrefixOf, beq_eq_false_iff_ne, Ne.symm hr2]

theorem EOp.op_finalToks_len (o : EOp) : 1 ≤ o.finalToks.length := by
  cases o with
  | oleaf n p v => simp [EOp.finalToks]
  | ogroup n c => cases n <;> simp [EOp.finalToks]

theorem EChain.chain_finalToks_len (c : EChain) : 1 ≤ c.finalToks.length := by
  cases c with
  | single o => simpa [EChain.finalToks] using EOp.op_finalToks_len o
  | more o i c' =>
    have := EOp.op_finalToks_len o
    simp [EChain.finalToks]
    omega

/-- The token run of an operand: a single expression element, or
`'not'` followed by one whose tree gets the wrapper. -/
theorem EOp.op_finalToks_shape (o : EOp) :
    o.finalToks = [Tok.expr o.toAst] ∨
      ∃ x, o.finalToks = [Tok.op "not", Tok.expr x] ∧ o.toAst = .uwrap x true := by
  cases o with
  | oleaf n p v => exact Or.inl (by simp [EOp.finalToks, EOp.toAst])
  | ogroup n c =>
    cases n with
    | false => exact Or.inl (by simp [EOp.finalToks, EOp.toAst])
    | true =>
      exact Or.inr ⟨EChain.toAst c, by simp [EOp.finalToks], by simp [EOp.toAst]⟩

/-! ### N-ary group reduction (Conditioner.js 731-758)

The reduction loop on a chain's token run: each pass splices the
leftmost `'not'`-over-expression into a `UnaryExpression` or the
leftmost operator triple into a `BinaryExpression`, so the chain folds
left-associatively. -/

theorem reduceScan_fix (e : JExpr) : reduceScan [] [Tok.expr e] = none := by
  simp [reduceScan]

theorem reduceGroup_fix (e : JExpr) :
    ∀ fuel, reduceGroup fuel [Tok.expr e] = [Tok.expr e] := by
  intro fuel
  cases fuel with
  | zero => rfl
  | succ f => simp [reduceGroup, reduceScan_fix]

theorem reduceScan_unary (x : JExpr) (T : List Tok) :
    reduceScan [] (Tok.op "not" :: Tok.expr x :: T) =
      some (Tok.expr (.uwrap x true) :: T) := by
  simp [reduceScan, mkUnary]

theorem reduceScan_binaryStep (a x : JExpr) (w : String) (hw : ¬w = "not") (T : List Tok) :
    reduceScan [] (Tok.expr a :: Tok.op w :: Tok.expr x :: T) =
      some (Tok.expr (.binary (.expr a) w (.expr x)) :: T) := by
  simp [reduceScan, hw, mkUnary]

theorem reduceScan_skipNot (a x : JExpr) (w : String) (hw : ¬w = "not") (T : List Tok) :
    reduceScan [] (Tok.expr a :: Tok.op w :: Tok.op "not" :: Tok.expr x :: T) =
      some (Tok.expr a :: Tok.op w :: Tok.expr (.uwrap x true) :: T) := by
  simp [reduceScan, hw, mkUnary]

theorem opStr_ne_not (i : Bool) : ¬opStr i = "not" := by
  cases i <;> simp [opStr]

/-- Reduction of an accumulated expression, a pending operator and the
rest of the chain's tokens: the left-associative fold. -/
theorem reduceGroup_chainAcc (c : EChain) :
    ∀ (acc : JExpr) (i : Bool) (fuel : Nat), c.finalToks.length ≤ fuel →
      reduceGroup fuel (Tok.expr acc :: Tok.op (opStr i) :: c.finalToks) =
        [Tok.expr (EChain.astFrom acc i c)] := by
  cases c with
  | single o =>
    intro acc i fuel hf
    simp only [EChain.finalToks] at hf ⊢
    rcases EOp.op_finalToks_shape o with hsh | ⟨x, hsh, hax⟩
    · rw [hsh] at hf ⊢
      cases fuel with
      | zero => simp at hf
      | succ f =>
        rw [show (Tok.expr acc :: Tok.op (opStr i) :: [Tok.expr o.toAst]) =
          (Tok.expr acc :: Tok.op (opStr i) :: Tok.expr o.toAst :: []) from rfl]
        simp only [reduceGroup,
          reduceScan_binaryStep acc o.toAst (opStr i) (opStr_ne_not i) [],
          reduceGroup_fix]
        simp [EChain.astFrom]
    · rw [hsh] at hf ⊢
      simp only [List.length_cons, List.length_nil] at hf
      cases fuel with
      | zero => omega
      | succ f =>
        cases f with
        | zero => omega
        | succ f2 =>
          rw [show (Tok.expr acc :: Tok.op (opStr i) ::
              [Tok.op "not", Tok.expr x]) =
            (Tok.expr acc :: Tok.op (opStr i) :: Tok.op "not" :: Tok.expr x :: [])
            from rfl]
          simp only [reduceGroup,
            reduceScan_skipNot acc x (opStr i) (opStr_ne_not i) [],
            reduceScan_binaryStep acc (JExpr.uwrap x true) (opStr i)
              (opStr_ne_not i) [],
            reduceGroup_fix]
          simp [EChain.astFrom, hax]
  | more o i2 c' =>
    intro acc i fuel hf
    simp only [EChain.finalToks] at hf ⊢
    rcases EOp.op_finalToks_shape o with hsh | ⟨x, hsh, hax⟩
    · rw [hsh] at hf ⊢
      simp only [List.length_append, List.length_cons, List.length_singleton] at hf
      have hlen' := EChain.chain_finalToks_len c'
      cases fuel with
      | zero => omega
      | succ f =>
        rw [show ([Tok.expr o.toAst] ++ Tok.op (opStr i2) :: c'.finalToks) =
          (Tok.expr o.toAst :: Tok.op (opStr i2) :: c'.finalToks) from rfl]
        simp only [reduceGroup,
          reduceScan_binaryStep acc o.toAst (opStr i) (opStr_ne_not i)
            (Tok.op (opStr i2) :: c'.finalToks)]
        rw [reduceGroup_chainAcc c'
          (.binary (.expr acc) (opStr i) (.expr o.toAst)) i2 f (by omega)]
        simp [EChain.astFrom]
    · rw [hsh] at hf ⊢
      simp only [List.length_append, List.length_cons, List.length_nil] at hf
      have hlen' := EChain.chain_finalToks_len c'
      cases fuel with
      | zero => omega
      | succ f =>
        cases f with
        | zero => omega
        | succ f2 =>
          rw [show ([Tok.op "not", Tok.expr x] ++ Tok.op (opStr i2) :: c'.finalToks) =
            (Tok.op "not" :: Tok.expr x :: Tok.op (opStr i2) :: c'.finalToks)
            from rfl]
          simp only [reduceGroup,
            reduceScan_skipNot acc x (opStr i) (opStr_ne_not i)
              (Tok.op (opStr i2) :: c'.finalToks),
            reduceScan_binaryStep acc (JExpr.uwrap x true) (opStr i)
              (opStr_ne_not i) (Tok.op (opStr i2) :: c'.finalToks)]
          rw [reduceGroup_chainAcc c'
            (.binary (.expr acc) (opStr i) (.expr (JExpr.uwrap x true))) i2 f2
            (by omega)]
          simp [EChain.astFrom, hax]
termination_by sizeOf c

/-- Any chain's token run reduces to exactly its expression object. -/
theorem reduceGroup_chain (c : EChain) :
    ∀ fuel, c.finalToks.length ≤ fuel →
      reduceGroup fuel c.finalToks = [Tok.expr c.toAst] := by
  cases c with
  | single o =>
    intro fuel hf
    simp only [EChain.finalToks] at hf ⊢
    rcases EOp.op_finalToks_shape o with hsh | ⟨x, hsh, hax⟩
    · rw [hsh]
      rw [reduceGroup_fix]
      simp [EChain.toAst]
    · rw [hsh] at hf ⊢
      simp only [List.length_cons, List.length_nil] at hf
      cases fuel with
      | zero => omega
      | succ f =>
        simp only [reduceGroup, reduceScan_unary x [], reduceGroup_fix]
        simp [EChain.toAst, hax]
  | more o i c' =>
    intro fuel hf
    simp only [EChain.finalToks] at hf ⊢
    rcases EOp.op_finalToks_shape o with hsh | ⟨x, hsh, hax⟩
    · rw [hsh] at hf ⊢
      simp only [List.length_append, List.length_cons, List.length_singleton] at hf
      rw [show ([Tok.expr o.toAst] ++ Tok.op (opStr i) :: c'.finalToks) =
        (Tok.expr o.toAst :: Tok.op (opStr i) :: c'.finalToks) from rfl]
      rw [reduceGroup_chainAcc c' o.toAst i fuel (by omega)]
      simp [EChain.toAst]
    · rw [hsh] at hf ⊢
      simp only [List.length_append, List.length_cons, List.length_nil] at hf
      have hlen' := EChain.chain_finalToks_len c'
      cases fuel with
      | zero => omega
      | succ f =>
        rw [show ([Tok.op "not", Tok.expr x] ++ Tok.op (opStr i) :: c'.finalToks) =
          (Tok.op "not" :: Tok.expr x :: Tok.op (opStr i) :: c'.finalToks) from rfl]
        simp only [reduceGroup,
          reduceScan_unary x (Tok.op (opStr i) :: c'.finalToks)]
        rw [reduceGroup_chainAcc c' (JExpr.uwrap x true) i f (by omega)]
        simp [EChain.toAst, hax]
/-! ### Chain simulation

The five lemmas below walk `runParse` over a rendered chain, mirroring
the source's cursor: an operand core inside a context, an operand (or
a whole chain) entered after a space, and an operand (or chain) entered
at an opening parenthesis. -/

mutual
/-- Parsing a well-formed operand core inside an enclosing context
appends the operand's token run to the current group array. -/
theorem runParse_opCoreE (o : EOp) (hw : o.wf = true) :
    ∀ (done0 rest : List Char) (st : PState) (base : List Tok),
      (done0 = [] ∨ done0.head? = some ' ' ∨ done0.head? = some '(') →
      rest ≠ [] → st.isValue = false → st.value = "" →
      st.target = base ++ (if o.neg then [Tok.op "not"] else []) →
      base.getLast? ≠ some (Tok.op "not") →
      runParse done0 (o.renderCore.data ++ rest) st =
        runParse (o.renderCore.data.reverse ++ done0) rest
          { st with
              target := base ++ o.finalToks
              path := ""
              value := ""
              isValue := false } := by
  intro done0 rest st base hd0 hrest hval hv0 htgt hbase
  cases o with
  | oleaf n p v =>
    have hw' : pathOk p = true ∧ valueOk v = true := by
      simpa [EOp.wf, Bool.and_eq_true] using hw
    have hcd : (EOp.oleaf n p v).renderCore.data = (GExpr.leaf n p v).renderCore.data := by
      rw [EOp.core_data_oleaf, GExpr.core_data_leaf]
    rw [hcd]
    rw [runParse_leafCore p v hw'.1 hw'.2 n base done0 rest st hd0 hrest hval hv0
      (by simpa [EOp.neg] using htgt) hbase]
    simp [EOp.finalToks]
  | ogroup n c =>
    have hwc : c.wf = true := by
      simp only [EOp.wf, Bool.and_eq_true] at hw
      exact hw.1
    rw [EOp.core_data_ogroup]
    have hshape : ('(' :: (c.render.data ++ [')'])) ++ rest =
        '(' :: (c.render.data ++ (')' :: rest)) := by
      simp
    rw [hshape]
    rw [runParse_chainLparen c hwc (')' :: rest) done0 st (by simp) hval hv0]
    have hfl := EChain.chain_finalToks_len c
    rw [runParse_rparen (c.render.data.reverse ++ '(' :: done0) rest
      (⟨"", "", false, c.finalToks, st.target :: st.parents⟩ : PState)
      st.target st.parents [Tok.expr c.toAst]
      (by simp) rfl hrest rfl
      (by
        have h : c.finalToks.length ≠ 0 := by omega
        exact h)
      (reduceGroup_chain c _ (by exact Nat.le_succ _)) rfl]
    rw [htgt]
    have hfin : (base ++ (if (EOp.ogroup n c).neg then [Tok.op "not"] else [])) ++
        [Tok.expr c.toAst] = base ++ (EOp.ogroup n c).finalToks := by
      cases n <;> simp [EOp.neg, EOp.finalToks]
    rw [hfin]
    have hdone : ')' :: (c.render.data.reverse ++ '(' :: done0) =
        ('(' :: (c.render.data ++ [')'])).reverse ++ done0 := by
      simp
    rw [hdone]
termination_by (sizeOf o, 0)

/-- Parsing a space followed by a full operand render: the operand's
token run is appended to the target. -/
theorem runParse_opSpace (o : EOp) (hw : o.wf = true) :
    ∀ (tail done0 : List Char) (st : PState) (base : List Tok),
      tail ≠ [] → st.isValue = false → st.value = "" →
      st.target = base → base.getLast? ≠ some (Tok.op "not") →
      runParse done0 (' ' :: (o.render.data ++ tail)) st =
        runParse (o.render.data.reverse ++ ' ' :: done0) tail
          { st with
              target := base ++ o.finalToks
              path := ""
              value := ""
              isValue := false } := by
  intro tail done0 st base htail hval hv0 htgt hbase
  cases han : o.neg with
  | false =>
    have hod : o.render.data = o.renderCore.data := by
      rw [EOp.op_render_data, han]
      rfl
    rw [hod]
    have hm := findOpMatch_delim_opCoreE o hw ' ' (Or.inl rfl) tail
    rw [runParse_space_none _ _ _ hval (by simp [htail]) hm]
    rw [runParse_opCoreE o hw (' ' :: done0) tail st base (Or.inr (Or.inl rfl)) htail
      hval hv0 (by simp [han, htgt]) hbase]
  | true =>
    have hod : o.render.data = ['n', 'o', 't', ' '] ++ o.renderCore.data := by
      rw [EOp.op_render_data, han]
      rfl
    rw [hod]
    have htake4 : ((['n', 'o', 't', ' '] ++ o.renderCore.data) ++ tail).take 4 =
        ['n', 'o', 't', ' '] := by
      simp
    have htake3 : ((['n', 'o', 't', ' '] ++ o.renderCore.data) ++ tail).take 3 =
        ['n', 'o', 't'] := by
      simp
    have hdrop : ((['n', 'o', 't', ' '] ++ o.renderCore.data) ++ tail).drop 3 =
        ' ' :: (o.renderCore.data ++ tail) := by
      simp
    rw [runParse_space_opNot _ _ _ hval
      (by rw [htake4]; exact findOpMatch_space_not [])
      (by rw [hdrop]; simp)]
    rw [htake3, hdrop]
    have hm2 := findOpMatch_delim_opCoreE o hw ' ' (Or.inl rfl) tail
    rw [runParse_space_none _ _ _ (by exact hval) (by simp [htail]) hm2]
    rw [runParse_opCoreE o hw
      (' ' :: (['n', 'o', 't'].reverse ++ ' ' :: done0)) tail
      { st with target := st.target ++ [Tok.op "not"] }
      base (Or.inr (Or.inl rfl)) htail hval hv0 (by simp [han, htgt]) hbase]
    simp
termination_by (sizeOf o, 1)

/-- Parsing `(` followed by a full operand render: the frame is pushed
and the operand's tokens land inside it. -/
theorem runParse_opLparen (o : EOp) (hw : o.wf = true) :
    ∀ (tail done0 : List Char) (st : PState),
      tail ≠ [] → st.isValue = false → st.value = "" →
      runParse done0 ('(' :: (o.render.data ++ tail)) st =
        runParse (o.render.data.reverse ++ '(' :: done0) tail
          ⟨"", "", false, o.finalToks, st.target :: st.parents⟩ := by
  intro tail done0 st htail hval hv0
  cases han : o.neg with
  | false =>
    have hod : o.render.data = o.renderCore.data := by
      rw [EOp.op_render_data, han]
      rfl
    rw [hod]
    have hm := findOpMatch_delim_opCoreE o hw '(' (Or.inr rfl) tail
    rw [runParse_lparen_none done0 _ st hval (by simp [htail]) hm]
    rw [runParse_opCoreE o hw ('(' :: done0) tail
      { st with
          target := ([] : List Tok)
          parents := st.target :: st.parents }
      [] (Or.inr (Or.inr rfl)) htail hval hv0 (by simp [han]) (by simp)]
    simp
  | true =>
    have hod : o.render.data = ['n', 'o', 't', ' '] ++ o.renderCore.data := by
      rw [EOp.op_render_data, han]
      rfl
    rw [hod]
    have htake4 : ((['n', 'o', 't', ' '] ++ o.renderCore.data) ++ tail).take 4 =
        ['n', 'o', 't', ' '] := by
      simp
    have htake3 : ((['n', 'o', 't', ' '] ++ o.renderCore.data) ++ tail).take 3 =
        ['n', 'o', 't'] := by
      simp
    have hdrop : ((['n', 'o', 't', ' '] ++ o.renderCore.data) ++ tail).drop 3 =
        ' ' :: (o.renderCore.data ++ tail) := by
      simp
    rw [runParse_lparen_opNot done0 _ st hval
      (by rw [htake4]; exact findOpMatch_lparen_not [])
      (by rw [hdrop]; simp)]
    rw [htake3, hdrop]
    have hm2 := findOpMatch_delim_opCoreE o hw ' ' (Or.inl rfl) tail
    rw [runParse_space_none _ _ _ (by exact hval) (by simp [htail]) hm2]
    rw [runParse_opCoreE o hw
      (' ' :: (['n', 'o', 't'].reverse ++ '(' :: done0)) tail
      { st with
          target := [Tok.op "not"]
          parents := st.target :: st.parents }
      [] (Or.inr (Or.inl rfl)) htail hval hv0 (by simp [han]) (by simp)]
    simp
termination_by (sizeOf o, 1)

/-- Parsing a space followed by a full chain render: every operand and
separator of the chain is appended to the target in order. -/
theorem runParse_chainSpace (c : EChain) (hw : c.wf = true) :
    ∀ (tail done0 : List Char) (st : PState) (base : List Tok),
      tail ≠ [] → st.isValue = false → st.value = "" →
      st.target = base → base.getLast? ≠ some (Tok.op "not") →
      runParse done0 (' ' :: (c.render.data ++ tail)) st =
        runParse (c.render.data.reverse ++ ' ' :: done0) tail
          { st with
              target := base ++ c.finalToks
              path := ""
              value := ""
              isValue := false } := by
  intro tail done0 st base htail hval hv0 htgt hbase
  cases c with
  | single o =>
    have hwo : o.wf = true := by simpa [EChain.wf] using hw
    rw [EChain.data_single]
    rw [runParse_opSpace o hwo tail done0 st base htail hval hv0 htgt hbase]
    simp [EChain.finalToks]
  | more o i c' =>
    have hwo : o.wf = true := by
      simp only [EChain.wf, Bool.and_eq_true] at hw
      exact hw.1
    have hwc' : c'.wf = true := by
      simp only [EChain.wf, Bool.and_eq_true] at hw
      exact hw.2
    rw [EChain.data_more]
    have hshape : (o.render.data ++ ' ' :: ((opStr i).data ++ ' ' :: c'.render.data)) ++
        tail = o.render.data ++
          (' ' :: ((opStr i).data ++ ' ' :: (c'.render.data ++ tail))) := by
      simp
    rw [hshape]
    rw [runParse_opSpace o hwo _ done0 st base (by simp) hval hv0 htgt hbase]
    obtain ⟨b0, bs, hb0⟩ : ∃ b0 bs, c'.render.data = b0 :: bs := by
      have hlen := EChain.chain_render_len c' hwc'
      cases hbd : c'.render.data with
      | nil => rw [hbd] at hlen; simp at hlen
      | cons x xs => exact ⟨x, xs, rfl⟩
    have hx : c'.render.data ++ tail = b0 :: (bs ++ tail) := by
      rw [hb0]
      rfl
    rw [hx]
    rw [runParse_sep i _ b0 (bs ++ tail) _ rfl]
    rw [← hx]
    rw [runParse_chainSpace c' hwc' tail _ _
      ((base ++ o.finalToks) ++ [Tok.op (opStr i)]) htail rfl rfl rfl
      (by
        rw [List.getLast?_concat]
        intro h
        injection h with h
        cases i <;> simp [opStr] at h)]
    simp [EChain.finalToks]
termination_by (sizeOf c, 2)

/-- Parsing `(` followed by a full chain render: the frame is pushed
and the chain's tokens accumulate inside it. -/
theorem runParse_chainLparen (c : EChain) (hw : c.wf = true) :
    ∀ (tail done0 : List Char) (st : PState),
      tail ≠ [] → st.isValue = false → st.value = "" →
      runParse done0 ('(' :: (c.render.data ++ tail)) st =
        runParse (c.render.data.reverse ++ '(' :: done0) tail
          ⟨"", "", false, c.finalToks, st.target :: st.parents⟩ := by
  intro tail done0 st htail hval hv0
  cases c with
  | single o =>
    have hwo : o.wf = true := by simpa [EChain.wf] using hw
    rw [EChain.data_single]
    rw [runParse_opLparen o hwo tail done0 st htail hval hv0]
    simp [EChain.finalToks]
  | more o i c' =>
    have hwo : o.wf = true := by
      simp only [EChain.wf, Bool.and_eq_true] at hw
      exact hw.1
    have hwc' : c'.wf = true := by
      simp only [EChain.wf, Bool.and_eq_true] at hw
      exact hw.2
    rw [EChain.data_more]
    have hshape : (o.render.data ++ ' ' :: ((opStr i).data ++ ' ' :: c'.render.data)) ++
        tail = o.render.data ++
          (' ' :: ((opStr i).data ++ ' ' :: (c'.render.data ++ tail))) := by
      simp
    rw [hshape]
    rw [runParse_opLparen o hwo _ done0 st (by simp) hval hv0]
    obtain ⟨b0, bs, hb0⟩ : ∃ b0 bs, c'.render.data = b0 :: bs := by
      have hlen := EChain.chain_render_len c' hwc'
      cases hbd : c'.render.data with
      | nil => rw [hbd] at hlen; simp at hlen
      | cons x xs => exact ⟨x, xs, rfl⟩
    have hx : c'.render.data ++ tail = b0 :: (bs ++ tail) := by
      rw [hb0]
      rfl
    rw [hx]
    rw [runParse_sep i _ b0 (bs ++ tail) _ rfl]
    rw [← hx]
    rw [runParse_chainSpace c' hwc' tail _ _
      (o.finalToks ++ [Tok.op (opStr i)]) htail rfl rfl rfl
      (by
        rw [List.getLast?_concat]
        intro h
        injection h with h
        cases i <;> simp [opStr] at h)]
    simp [EChain.finalToks]
termination_by (sizeOf c, 2)
end
theorem concat_op_getLast (ts : List Tok) (i : Bool) :
    ¬(ts ++ [Tok.op (opStr i)]).getLast? = some (Tok.op "not") := by
  rw [List.getLast?_concat]
  intro h
  injection h with h
  cases i <;> simp [opStr] at h

/-- Parsing a well-formed operand core as the final characters of the
whole string, with no enclosing frame: the final cascade reduces the
root group in place. -/
theorem runParse_opLastE (o : EOp) (hw : o.wf = true)
    (done0 : List Char) (st : PState) (base : List Tok)
    (hd0 : done0 = [] ∨ done0.head? = some ' ' ∨ done0.head? = some '(')
    (hval : st.isValue = false) (hv0 : st.value = "")
    (htgt : st.target = base ++ (if o.neg then [Tok.op "not"] else []))
    (hpar : st.parents = [])
    (hbase : base.getLast? ≠ some (Tok.op "not")) :
    runParse done0 o.renderCore.data st =
      ⟨"", "", false,
        reduceGroup ((base ++ o.finalToks).length + 1) (base ++ o.finalToks), []⟩ := by
  cases o with
  | oleaf n p v =>
    have hw' : pathOk p = true ∧ valueOk v = true := by
      simpa [EOp.wf, Bool.and_eq_true] using hw
    rw [EOp.core_data_oleaf]
    rw [runParse_leafBody p v hw'.1 hw'.2 done0 ['}'] st hd0 hval hv0]
    cases n with
    | true =>
      rw [runParse_rbrace_neg_last _ _ base (by simp) (by simpa [EOp.neg] using htgt)]
      rw [closeCascade_root _
        (reduceGroup ((base ++ (EOp.oleaf true p v).finalToks).length + 1)
          (base ++ (EOp.oleaf true p v).finalToks))
        (by simp [hpar]) (by simp) rfl]
      simp [EOp.finalToks, hpar]
    | false =>
      have htgt2 : st.target = base := by simpa [EOp.neg] using htgt
      rw [runParse_rbrace_pos_last _ _ (by simp)
        (by
          show ¬st.target.getLast? = some (Tok.op "not")
          rw [htgt2]
          exact hbase)]
      rw [closeCascade_root _
        (reduceGroup ((st.target ++ [Tok.expr (.uleaf p v false)]).length + 1)
          (st.target ++ [Tok.expr (.uleaf p v false)]))
        (by simp [hpar]) (by simp) rfl]
      simp [EOp.finalToks, hpar, htgt2]
  | ogroup n c =>
    have hwc : c.wf = true := by
      simp only [EOp.wf, Bool.and_eq_true] at hw
      exact hw.1
    have hfl := EChain.chain_finalToks_len c
    rw [EOp.core_data_ogroup]
    rw [runParse_chainLparen c hwc [')'] done0 st (by simp) hval hv0]
    rw [runParse_rparen_last _ _ (by simp) rfl]
    have hfin : st.target ++ [Tok.expr c.toAst] =
        base ++ (EOp.ogroup n c).finalToks := by
      rw [htgt]
      cases n <;> simp [EOp.neg, EOp.finalToks]
    rw [closeCascade_lastPair
      (⟨"", "", false, c.finalToks, st.target :: st.parents⟩ : PState)
      st.target [Tok.expr c.toAst]
      (reduceGroup ((base ++ (EOp.ogroup n c).finalToks).length + 1)
        (base ++ (EOp.ogroup n c).finalToks))
      (by simp [hpar])
      (by
        have h : c.finalToks.length ≠ 0 := by omega
        exact h)
      (reduceGroup_chain c _ (by exact Nat.le_succ _)) rfl
      (by simp)
      (by rw [show st.target ++ [Tok.expr c.toAst] =
          base ++ (EOp.ogroup n c).finalToks from hfin])]

/-- Parsing a space followed by a full chain render as the tail of the
whole string: the accumulated root group is reduced by the final
cascade. -/
theorem runParse_chainSpaceLast (c : EChain) (hw : c.wf = true) :
    ∀ (done0 : List Char) (st : PState) (base : List Tok),
      st.isValue = false → st.value = "" → st.target = base → st.parents = [] →
      base.getLast? ≠ some (Tok.op "not") →
      runParse done0 (' ' :: c.render.data) st =
        ⟨"", "", false,
          reduceGroup ((base ++ c.finalToks).length + 1) (base ++ c.finalToks), []⟩ := by
  cases c with
  | single o =>
    intro done0 st base hval hv0 htgt hpar hbase
    have hwo : o.wf = true := by simpa [EChain.wf] using hw
    rw [EChain.data_single]
    cases han : o.neg with
    | false =>
      have hod : o.render.data = o.renderCore.data := by
        rw [EOp.op_render_data, han]
        rfl
      rw [hod]
      have hm : findOpMatch (' ' :: o.renderCore.data.take 4) = none := by
        have := findOpMatch_delim_opCoreE o hwo ' ' (Or.inl rfl) []
        simpa using this
      rw [runParse_space_none _ _ _ hval
        (by
          have := EOp.op_renderCore_len o hwo
          intro hc
          rw [hc] at this
          simp at this) hm]
      rw [runParse_opLastE o hwo (' ' :: done0) st base (Or.inr (Or.inl rfl)) hval hv0
        (by simp [han, htgt]) hpar hbase]
      simp [EChain.finalToks]
    | true =>
      have hod : o.render.data = ['n', 'o', 't', ' '] ++ o.renderCore.data := by
        rw [EOp.op_render_data, han]
        rfl
      rw [hod]
      have htake4 : (['n', 'o', 't', ' '] ++ o.renderCore.data).take 4 =
          ['n', 'o', 't', ' '] := by
        simp
      have htake3 : (['n', 'o', 't', ' '] ++ o.renderCore.data).take 3 =
          ['n', 'o', 't'] := by
        simp
      have hdrop : (['n', 'o', 't', ' '] ++ o.renderCore.data).drop 3 =
          ' ' :: o.renderCore.data := by
        simp
      rw [runParse_space_opNot _ _ _ hval
        (by rw [htake4]; exact findOpMatch_space_not [])
        (by rw [hdrop]; simp)]
      rw [htake3, hdrop]
      have hm : findOpMatch (' ' :: o.renderCore.data.take 4) = none := by
        have := findOpMatch_delim_opCoreE o hwo ' ' (Or.inl rfl) []
        simpa using this
      rw [runParse_space_none _ _ _ (by exact hval)
        (by
          have := EOp.op_renderCore_len o hwo
          intro hc
          rw [hc] at this
          simp at this) hm]
      rw [runParse_opLastE o hwo
        (' ' :: (['n', 'o', 't'].reverse ++ ' ' :: done0))
        { st with target := st.target ++ [Tok.op "not"] }
        base (Or.inr (Or.inl rfl)) hval hv0 (by simp [han, htgt]) (by simp [hpar]) hbase]
      simp [EChain.finalToks]
  | more o i c' =>
    intro done0 st base hval hv0 htgt hpar hbase
    have hwo : o.wf = true := by
      simp only [EChain.wf, Bool.and_eq_true] at hw
      exact hw.1
    have hwc' : c'.wf = true := by
      simp only [EChain.wf, Bool.and_eq_true] at hw
      exact hw.2
    rw [EChain.data_more]
    rw [runParse_opSpace o hwo _ done0 st base (by simp) hval hv0 htgt hbase]
    obtain ⟨b0, bs, hb0⟩ : ∃ b0 bs, c'.render.data = b0 :: bs := by
      have hlen := EChain.chain_render_len c' hwc'
      cases hbd : c'.render.data with
      | nil => rw [hbd] at hlen; simp at hlen
      | cons x xs => exact ⟨x, xs, rfl⟩
    rw [hb0]
    rw [runParse_sep i _ b0 bs _ rfl]
    rw [← hb0]
    rw [runParse_chainSpaceLast c' hwc' _ _
      ((base ++ o.finalToks) ++ [Tok.op (opStr i)]) rfl rfl rfl (by simp [hpar])
      (concat_op_getLast _ i)]
    simp [EChain.finalToks]
termination_by sizeOf c

/-- `ExpressionFormatter.fromString` maps the render of every
well-formed chain to exactly its expression object. -/
theorem fromString_chainE (c : EChain) (hw : c.wf = true) :
    fromString c.render = Tok.expr c.toAst := by
  rw [fromString]
  cases c with
  | single o =>
    have hwo : o.wf = true := by simpa [EChain.wf] using hw
    cases han : o.neg with
    | false =>
      have hdata : (EChain.single o).render.data = o.renderCore.data := by
        rw [EChain.data_single, EOp.op_render_data, han]
        rfl
      rw [hdata]
      rw [runParse_opLastE o hwo [] ⟨"", "", false, [], []⟩ [] (Or.inl rfl) rfl rfl
        (by simp [han]) rfl (by simp)]
      have hred2 : reduceGroup ((([] : List Tok) ++ o.finalToks).length + 1)
          (([] : List Tok) ++ o.finalToks) = [Tok.expr (EChain.single o).toAst] := by
        simpa [EChain.finalToks] using
          reduceGroup_chain (EChain.single o)
            ((EChain.single o).finalToks.length + 1) (by omega)
      rw [hred2]
      simp
    | true =>
      have hdata : (EChain.single o).render.data =
          'n' :: 'o' :: 't' :: ' ' :: o.renderCore.data := by
        rw [EChain.data_single, EOp.op_render_data, han]
        rfl
      rw [hdata]
      obtain ⟨c0, cs, hc0⟩ : ∃ c0 cs, o.renderCore.data = c0 :: cs := by
        have hlen := EOp.op_renderCore_len o hwo
        cases hcd : o.renderCore.data with
        | nil => rw [hcd] at hlen; simp at hlen
        | cons x xs => exact ⟨x, xs, rfl⟩
      have htake4 : ('o' :: 't' :: ' ' :: o.renderCore.data).take 4 =
          ['o', 't', ' ', c0] := by
        rw [hc0]
        rfl
      have htake3 : ('o' :: 't' :: ' ' :: o.renderCore.data).take 3 =
          ['o', 't', ' '] := rfl
      have hdrop : ('o' :: 't' :: ' ' :: o.renderCore.data).drop 3 =
          o.renderCore.data := rfl
      rw [runParse_top_opNot _ _ rfl
        (by rw [htake4]; exact findOpMatch_top_not [c0])
        (by rw [hdrop, hc0]; simp)]
      rw [htake3, hdrop]
      rw [runParse_opLastE o hwo (['o', 't', ' '].reverse ++ ['n'])
        { (⟨"", "", false, [], []⟩ : PState) with target := [] ++ [Tok.op "not"] }
        [] (Or.inr (Or.inl rfl)) rfl rfl (by simp [han]) rfl (by simp)]
      have hred2 : reduceGroup ((([] : List Tok) ++ o.finalToks).length + 1)
          (([] : List Tok) ++ o.finalToks) = [Tok.expr (EChain.single o).toAst] := by
        simpa [EChain.finalToks] using
          reduceGroup_chain (EChain.single o)
            ((EChain.single o).finalToks.length + 1) (by omega)
      rw [hred2]
      simp
  | more o i c' =>
    have hwo : o.wf = true := by
      simp only [EChain.wf, Bool.and_eq_true] at hw
      exact hw.1
    have hwc' : c'.wf = true := by
      simp only [EChain.wf, Bool.and_eq_true] at hw
      exact hw.2
    have hfin : (([] ++ EOp.finalToks o) ++ [Tok.op (opStr i)]) ++ c'.finalToks =
        (EChain.more o i c').finalToks := by
      simp [EChain.finalToks]
    cases han : o.neg with
    | false =>
      have hdata : (EChain.more o i c').render.data =
          o.renderCore.data ++ (' ' :: ((opStr i).data ++ ' ' :: c'.render.data)) := by
        rw [EChain.data_more, EOp.op_render_data, han]
        rfl
      rw [hdata]
      rw [runParse_opCoreE o hwo []
        (' ' :: ((opStr i).data ++ ' ' :: c'.render.data))
        ⟨"", "", false, [], []⟩ [] (Or.inl rfl) (by simp) rfl rfl (by simp [han])
        (by simp)]
      obtain ⟨b0, bs, hb0⟩ : ∃ b0 bs, c'.render.data = b0 :: bs := by
        have hlen := EChain.chain_render_len c' hwc'
        cases hbd : c'.render.data with
        | nil => rw [hbd] at hlen; simp at hlen
        | cons x xs => exact ⟨x, xs, rfl⟩
      rw [hb0]
      rw [runParse_sep i _ b0 bs _ rfl]
      rw [← hb0]
      rw [runParse_chainSpaceLast c' hwc' _ _
        ((([] : List Tok) ++ o.finalToks) ++ [Tok.op (opStr i)]) rfl rfl rfl rfl
        (concat_op_getLast _ i)]
      rw [show ((([] : List Tok) ++ EOp.finalToks o) ++ [Tok.op (opStr i)]) ++
        c'.finalToks = (EChain.more o i c').finalToks from hfin]
      rw [reduceGroup_chain (EChain.more o i c') _ (by exact Nat.le_succ _)]
      simp
    | true =>
      have hdata : (EChain.more o i c').render.data =
          'n' :: 'o' :: 't' :: ' ' :: (o.renderCore.data ++
            (' ' :: ((opStr i).data ++ ' ' :: c'.render.data))) := by
        rw [EChain.data_more, EOp.op_render_data, han]
        rfl
      rw [hdata]
      obtain ⟨c0, cs, hc0⟩ : ∃ c0 cs, o.renderCore.data = c0 :: cs := by
        have hlen := EOp.op_renderCore_len o hwo
        cases hcd : o.renderCore.data with
        | nil => rw [hcd] at hlen; simp at hlen
        | cons x xs => exact ⟨x, xs, rfl⟩
      have htake4 : ('o' :: 't' :: ' ' :: (o.renderCore.data ++
          (' ' :: ((opStr i).data ++ ' ' :: c'.render.data)))).take 4 =
          ['o', 't', ' ', c0] := by
        rw [hc0]
        rfl
      have htake3 : ('o' :: 't' :: ' ' :: (o.renderCore.data ++
          (' ' :: ((opStr i).data ++ ' ' :: c'.render.data)))).take 3 =
          ['o', 't', ' '] := rfl
      have hdrop : ('o' :: 't' :: ' ' :: (o.renderCore.data ++
          (' ' :: ((opStr i).data ++ ' ' :: c'.render.data)))).drop 3 =
          o.renderCore.data ++ (' ' :: ((opStr i).data ++ ' ' :: c'.render.data)) := rfl
      rw [runParse_top_opNot _ _ rfl
        (by rw [htake4]; exact findOpMatch_top_not _)
        (by rw [hdrop, hc0]; simp)]
      rw [htake3, hdrop]
      rw [runParse_opCoreE o hwo (['o', 't', ' '].reverse ++ ['n'])
        (' ' :: ((opStr i).data ++ ' ' :: c'.render.data))
        { (⟨"", "", false, [], []⟩ : PState) with target := [] ++ [Tok.op "not"] }
        [] (Or.inr (Or.inl rfl)) (by simp) rfl rfl (by simp [han]) (by simp)]
      obtain ⟨b0, bs, hb0⟩ : ∃ b0 bs, c'.render.data = b0 :: bs := by
        have hlen := EChain.chain_render_len c' hwc'
        cases hbd : c'.render.data with
        | nil => rw [hbd] at hlen; simp at hlen
        | cons x xs => exact ⟨x, xs, rfl⟩
      rw [hb0]
      rw [runParse_sep i _ b0 bs _ rfl]
      rw [← hb0]
      rw [runParse_chainSpaceLast c' hwc' _ _
        ((([] : List Tok) ++ o.finalToks) ++ [Tok.op (opStr i)]) rfl rfl rfl rfl
        (concat_op_getLast _ i)]
      rw [show ((([] : List Tok) ++ EOp.finalToks o) ++ [Tok.op (opStr i)]) ++
        c'.finalToks = (EChain.more o i c').finalToks from hfin]
      rw [reduceGroup_chain (EChain.more o i c') _ (by exact Nat.le_succ _)]
      simp
/-! ### The reparse

`toString()` of a parsed chain is not always the original string (a
singleton group drops its parentheses, a leaf's wrapper folds into the
leaf), but it is the render of a `GExpr`-shaped normal form with the
same evaluation, so the reparse is settled by `fromString_render`. -/

mutual
/-- The expression objects reachable from parsing a well-formed chain:
leaves, single wrappers over an unnegated leaf or a proper binary, and
binaries over two such objects. -/
def goodAst : JExpr → Bool
  | .uleaf p v _ => pathOk p && valueOk v
  | .uwrap e n => n && !e.negTop && goodWrapArg e
  | .binary a w b => (w == "and" || w == "or") && goodOperand a && goodOperand b
  | .ujunk _ => false

/-- The objects a reachable wrapper may hold: an unnegated-or-negated
leaf or a proper binary (never another wrapper). -/
def goodWrapArg : JExpr → Bool
  | .uleaf p v _ => pathOk p && valueOk v
  | .binary a w b => (w == "and" || w == "or") && goodOperand a && goodOperand b
  | _ => false

/-- A reachable binary operand: an expression element. -/
def goodOperand : Tok → Bool
  | .expr e => goodAst e
  | _ => false
end

mutual
/-- The `GExpr` normal form of a reachable expression object: its
render is the object's `toString()`. -/
def gOf : JExpr → GExpr
  | .uleaf p v n => .leaf n p v
  | .uwrap e _ => gWrapOf e
  | .binary a w b => .node false (gOperandOf a) (w == "and") (gOperandOf b)
  | .ujunk _ => .leaf false "q" "q"

/-- Normal form of a wrapped object: the wrapper becomes the `not `
prefix. -/
def gWrapOf : JExpr → GExpr
  | .uleaf p v _ => .leaf true p v
  | .binary a w b => .node true (gOperandOf a) (w == "and") (gOperandOf b)
  | _ => .leaf true "q" "q"

/-- Normal form of a binary operand. -/
def gOperandOf : Tok → GExpr
  | .expr e => gOf e
  | _ => .leaf false "q" "q"
end

theorem opStr_of_mem (w : String) (h : (w == "and" || w == "or") = true) :
    opStr (w == "and") = w := by
  rcases Bool.or_eq_true_iff.mp h with h1 | h1
  · have : w = "and" := by simpa using h1
    subst this
    rfl
  · have : w = "or" := by simpa using h1
    subst this
    rfl

theorem band3 {a b c : Bool} (h : (a && b && c) = true) :
    a = true ∧ b = true ∧ c = true := by
  simp only [Bool.and_eq_true] at h
  exact ⟨h.1.1, h.1.2, h.2⟩

/-- The normal form of a reachable object is well-formed, renders to
the object's `toString()`, and evaluates identically. -/
theorem goodAst_render (e : JExpr) (he : goodAst e = true) :
    GExpr.wf (gOf e) = true ∧ GExpr.render (gOf e) = e.toStr ∧
    ∀ f, (GExpr.toAst (gOf e)).succeedsWith f = e.succeedsWith f := by
  cases e with
  | uleaf p v n =>
    refine ⟨by simpa [goodAst, gOf, GExpr.wf] using he, ?_, fun f => by
      simp [gOf, GExpr.toAst]⟩
    cases n <;> simp [gOf, GExpr.render, JExpr.toStr, String.append_assoc]
  | uwrap e1 n =>
    simp only [goodAst] at he
    obtain ⟨hn, hmid, hwa⟩ := band3 he
    subst hn
    cases e1 with
    | uleaf p v m =>
      simp only [JExpr.negTop, Bool.not_eq_true'] at hmid
      subst hmid
      simp only [goodWrapArg] at hwa
      refine ⟨by simpa [gOf, gWrapOf, GExpr.wf] using hwa, ?_, fun f => ?_⟩
      · simp [gOf, gWrapOf, GExpr.render, JExpr.toStr, String.append_assoc]
      · simp only [gOf, gWrapOf, GExpr.toAst, JExpr.succeedsWith]
        cases f p v <;> rfl
    | uwrap e2 m => simp [goodWrapArg] at hwa
    | ujunk m => simp [goodWrapArg] at hwa
    | binary a w b =>
      simp only [goodWrapArg] at hwa
      obtain ⟨hop, hga, hgb⟩ := band3 hwa
      cases a with
      | expr ea =>
        cases b with
        | expr eb =>
          simp only [goodOperand] at hga hgb
          have hia := goodAst_render ea hga
          have hib := goodAst_render eb hgb
          have hop' : opStr (w == "and") = w := opStr_of_mem w hop
          refine ⟨?_, ?_, fun f => ?_⟩
          · simp [gOf, gWrapOf, gOperandOf, GExpr.wf, hia.1, hib.1]
          · simp [gOf, gWrapOf, gOperandOf, GExpr.render, JExpr.toStr, Tok.toStr,
              hop', hia.2.1, hib.2.1, String.append_assoc]
          · simp only [gOf, gWrapOf, gOperandOf, GExpr.toAst, JExpr.succeedsWith,
              hop', hia.2.2 f, hib.2.2 f]
        | op s => simp [goodOperand] at hgb
        | arr ts => simp [goodOperand] at hgb
        | undef => simp [goodOperand] at hgb
      | op s => simp [goodOperand] at hga
      | arr ts => simp [goodOperand] at hga
      | undef => simp [goodOperand] at hga
  | binary a w b =>
    simp only [goodAst] at he
    obtain ⟨hop, hga, hgb⟩ := band3 he
    cases a with
    | expr ea =>
      cases b with
      | expr eb =>
        simp only [goodOperand] at hga hgb
        have hia := goodAst_render ea hga
        have hib := goodAst_render eb hgb
        have hop' : opStr (w == "and") = w := opStr_of_mem w hop
        refine ⟨?_, ?_, fun f => ?_⟩
        · simp [gOf, gOperandOf, GExpr.wf, hia.1, hib.1]
        · simp [gOf, gOperandOf, GExpr.render, JExpr.toStr, Tok.toStr,
            hop', hia.2.1, hib.2.1, String.append_assoc]
        · simp only [gOf, gOperandOf, GExpr.toAst, JExpr.succeedsWith,
            hop', hia.2.2 f, hib.2.2 f]
      | op s => simp [goodOperand] at hgb
      | arr ts => simp [goodOperand] at hgb
      | undef => simp [goodOperand] at hgb
    | op s => simp [goodOperand] at hga
    | arr ts => simp [goodOperand] at hga
    | undef => simp [goodOperand] at hga
  | ujunk n => simp [goodAst] at he
termination_by sizeOf e

theorem goodAst_uwrap (X : JExpr) (hg : goodAst X = true)
    (hnt : X.negTop = false) : goodAst (.uwrap X true) = true := by
  have hwa : goodWrapArg X = true := by
    cases X with
    | uleaf p v m => simpa [goodAst, goodWrapArg] using hg
    | uwrap e2 m =>
      simp only [goodAst] at hg
      obtain ⟨hm, -, -⟩ := band3 hg
      simp only [JExpr.negTop] at hnt
      rw [hnt] at hm
      exact Bool.noConfusion hm
    | ujunk m => simp [goodAst] at hg
    | binary a w b => simpa [goodAst, goodWrapArg] using hg
  simp [goodAst, hnt, hwa]

mutual
/-- Every well-formed operand's expression object is reachable-shaped. -/
theorem EOp.op_toAst_good (o : EOp) (hw : o.wf = true) : goodAst o.toAst = true := by
  cases o with
  | oleaf n p v => simpa [goodAst, EOp.toAst, EOp.wf] using hw
  | ogroup n c =>
    simp only [EOp.wf, Bool.and_eq_true] at hw
    have hg := EChain.chain_toAst_good c hw.1
    cases n with
    | false => simpa [EOp.toAst] using hg
    | true =>
      have hnt : (EChain.toAst c).negTop = false := by
        have := hw.2
        simpa using this
      simpa [EOp.toAst] using goodAst_uwrap (EChain.toAst c) hg hnt
termination_by (sizeOf o, 0)

/-- Every well-formed chain's expression object is reachable-shaped. -/
theorem EChain.chain_toAst_good (c : EChain) (hw : c.wf = true) :
    goodAst c.toAst = true := by
  cases c with
  | single o =>
    have hwo : o.wf = true := by simpa [EChain.wf] using hw
    simpa [EChain.toAst] using EOp.op_toAst_good o hwo
  | more o i c' =>
    simp only [EChain.wf, Bool.and_eq_true] at hw
    have hgo := EOp.op_toAst_good o hw.1
    simpa [EChain.toAst] using EChain.astFrom_good c' o.toAst i hgo hw.2
termination_by (sizeOf c, 1)

/-- Accumulated folds of reachable objects stay reachable-shaped. -/
theorem EChain.astFrom_good (c : EChain) (acc : JExpr) (i : Bool)
    (hacc : goodAst acc = true) (hw : c.wf = true) :
    goodAst (EChain.astFrom acc i c) = true := by
  cases c with
  | single o =>
    have hwo : o.wf = true := by simpa [EChain.wf] using hw
    have hgo := EOp.op_toAst_good o hwo
    cases i <;> simp [EChain.astFrom, goodAst, goodOperand, opStr, hacc, hgo]
  | more o i2 c' =>
    simp only [EChain.wf, Bool.and_eq_true] at hw
    have hgo := EOp.op_toAst_good o hw.1
    have hbin : goodAst (.binary (.expr acc) (opStr i) (.expr o.toAst)) = true := by
      cases i <;> simp [goodAst, goodOperand, opStr, hacc, hgo]
    simpa [EChain.astFrom] using EChain.astFrom_good c' _ i2 hbin hw.2
termination_by (sizeOf c, 0)
end

/-- C7 (amended): on the full grammar of chains — one or more operands
joined by infix `and` / `or`, an operand being a leaf `path:{value}`
(path nonempty and free of spaces, parentheses and braces, value free
of braces) or a parenthesized group holding a chain of any arity, with
an optional prefix `not ` on any operand — subject to the single
restriction that `not` is never applied to a group whose expression
object is itself negated, `fromString` maps the rendered string to
exactly the chain's expression object, and serializing that parse
(`toString()`) yields a string whose parse evaluates identically under
every assignment of boolean results to the leaves.  The serialized
form need not be character-identical (a singleton group drops its
parentheses, `not (leaf)` folds into the leaf), but the reparse always
has equal evaluation.  The restriction is necessary: see the
counterexample for a parenthesized `not not` group that reparses to
the opposite evaluation. -/
theorem fromString_toString_roundtrip (c : EChain) (hw : c.wf = true) :
    fromString c.render = Tok.expr c.toAst ∧
    ∀ f, (fromString ((fromString c.render).toStr)).succeedsWith f =
      (fromString c.render).succeedsWith f := by
  have h1 := fromString_chainE c hw
  have hg := EChain.chain_toAst_good c hw
  obtain ⟨hwf, hrender, heval⟩ := goodAst_render c.toAst hg
  have h2 : (fromString c.render).toStr = GExpr.render (gOf c.toAst) := by
    rw [h1]
    simp only [Tok.toStr]
    exact hrender.symm
  have h3 : fromString ((fromString c.render).toStr) =
      Tok.expr (GExpr.toAst (gOf c.toAst)) := by
    rw [h2]
    exact fromString_render (gOf c.toAst) hwf
  refine ⟨h1, fun f => ?_⟩
  rw [h3, h1]
  simp only [Tok.succeedsWith]
  exact heval f

/-- Witness for `fromString_toString_roundtrip` at the specification's
own example string `"a:{1} and not b:{2}"` (a top-level
unparenthesized chain with a negated second leaf). -/
theorem fromString_toString_roundtrip_witness :
    EChain.wf (EChain.more (.oleaf false "a" "1") true
      (.single (.oleaf true "b" "2"))) = true ∧
    EChain.render (EChain.more (.oleaf false "a" "1") true
      (.single (.oleaf true "b" "2"))) = "a:\x7b1\x7d and not b:\x7b2\x7d" ∧
    fromString (EChain.render (EChain.more (.oleaf false "a" "1") true
      (.single (.oleaf true "b" "2")))) =
      Tok.expr (EChain.toAst (EChain.more (.oleaf false "a" "1") true
        (.single (.oleaf true "b" "2")))) ∧
    (fromString ((fromString (EChain.render (EChain.more (.oleaf false "a" "1") true
      (.single (.oleaf true "b" "2"))))).toStr)).succeedsWith (fun _ _ => true) =
      (fromString (EChain.render (EChain.more (.oleaf false "a" "1") true
        (.single (.oleaf true "b" "2"))))).succeedsWith (fun _ _ => true) :=
  ⟨by decide, by decide,
   (fromString_toString_roundtrip (EChain.more (.oleaf false "a" "1") true
     (.single (.oleaf true "b" "2"))) (by decide)).1,
   (fromString_toString_roundtrip (EChain.more (.oleaf false "a" "1") true
     (.single (.oleaf true "b" "2"))) (by decide)).2 (fun _ _ => true)⟩

end Conditioner
